import Mathlib

/-!
The compositional numeric library `cnl`: radix conversion (`descale`), overflow
policies, operator resolution, `floor`, `abs`, `numeric_limits`, `safe_multiply`
and `exp2`.

A shallow embedding of `cnl/_impl/scaled_integer/descale.h`, of the overflow
policy handlers of `cnl/_impl/overflow/trapping.h`, of the `custom_operator`
specialisations of `cnl/_impl/wrapper/binary_arithmetic_operator.h`, of
`floor`, `abs` and `numeric_limits` of `cnl/_impl/scaled_integer/extras.h` and
of `safe_multiply` and `exp2` of `cnl/_impl/scaled_integer/math.h`, with the
properties stated about them.

Integers of a representation are mathematical integers (`Int`) together with
the range of the representation; an arithmetic result that leaves the range of
the representation it is computed in is reported as `outcome.overflow`.
C++ `/` and `%` truncate toward zero: `Int.tdiv` and `Int.tmod`.
-/

namespace cnl

/-! ## Representations -/

/-- An integer representation as seen through `numeric_limits`: signedness and
the number of value bits (`digits`), e.g. `int8` is `⟨true, 7⟩` and `uint8` is
`⟨false, 8⟩`. -/
structure rep where
  is_signed : Bool
  digits : Nat
  deriving DecidableEq, Repr

/-- The value `numeric_limits<Rep>::max()`. -/
def rep.max (r : rep) : Int := 2 ^ r.digits - 1

/-- The value `numeric_limits<Rep>::lowest()`. -/
def rep.lowest (r : rep) : Int := if r.is_signed then -(2 ^ r.digits) else 0

/-- Whether `n` is a value of the representation. -/
def rep.holds (r : rep) (n : Int) : Bool := decide (r.lowest ≤ n) && decide (n ≤ r.max)

/-- Width in bits: value bits plus the sign bit. -/
def rep.width (r : rep) : Nat := r.digits + (if r.is_signed then 1 else 0)

def int8 : rep := ⟨true, 7⟩
def uint8 : rep := ⟨false, 8⟩
def int16 : rep := ⟨true, 15⟩
def uint16 : rep := ⟨false, 16⟩
def int32 : rep := ⟨true, 31⟩
def uint32 : rep := ⟨false, 32⟩
def int64 : rep := ⟨true, 63⟩
def uint64 : rep := ⟨false, 64⟩

/-! ## Results of a computation -/

/-- What a call produces: a returned value, a failed `CNL_ASSERT`, a process
terminated with a diagnostic (`terminate`), a thrown exception, an arithmetic
result outside the representation it is computed in, an operation the language
leaves undefined (a shift by at least the width of its operand), or a loop that
has not finished within the iterations it was given. -/
inductive outcome (α : Type) where
  | value (a : α)
  | assert_failure
  | terminated (diagnostic : String)
  | thrown (what : String)
  | overflow
  | undefined
  | timeout
  deriving DecidableEq, Repr

/-- Sequencing: the rest of the computation runs on a returned value; anything
else ends the computation. -/
def outcome.bind {α β : Type} (x : outcome α) (f : α → outcome β) : outcome β :=
  match x with
  | outcome.value a => f a
  | outcome.assert_failure => outcome.assert_failure
  | outcome.terminated d => outcome.terminated d
  | outcome.thrown w => outcome.thrown w
  | outcome.overflow => outcome.overflow
  | outcome.undefined => outcome.undefined
  | outcome.timeout => outcome.timeout

/-! ## descale -/

/-- The struct `descaled<Rep, Radix>`: the value `significand * Radix ^ exponent`. -/
structure descaled where
  significand : Int
  exponent : Int
  deriving DecidableEq, Repr

/-- The lambda `oob` of `descale`, chosen by the sign of the input: for a
negative input `n < -max(InRep)` (and `CNL_ASSERT(false)`, here `none`, when
`InRep` is unsigned), otherwise `n > max(InRep)`. -/
def oob (InRep : rep) (input_negative : Bool) (n : Int) : Option Bool :=
  if input_negative then
    if InRep.is_signed then some (decide (n < -InRep.max)) else none
  else some (decide (n > InRep.max))

/-- One iteration of the loop for `InExponent < 0` (the loop counter is kept by
`negative_loop`), for an `OutRep` of sufficient capacity, which the source
requires: a product that is not a value of `OutRep` ends the run with
`outcome.overflow`. The product as the built-in `*=` computes it is that of
`negative_iteration_unchecked`. -/
def negative_iteration (OutRep InRep : rep) (OutRadix InRadix : Int) (input_negative : Bool)
    (output : descaled) : outcome descaled :=
  if output.significand.tmod InRadix ≠ 0 then
    match oob InRep input_negative output.significand with
    | none => outcome.assert_failure
    | some true =>
      -- might_be_oob{InRadix % OutRadix}; CNL_ASSERT(might_be_oob)
      if InRadix.tmod OutRadix ≠ 0 then
        outcome.value ⟨output.significand.tdiv InRadix, output.exponent⟩
      else outcome.assert_failure
    | some false =>
      let product := output.significand * OutRadix
      if OutRep.holds product then
        outcome.value ⟨product.tdiv InRadix, output.exponent - 1⟩
      else outcome.overflow
  else outcome.value ⟨output.significand.tdiv InRadix, output.exponent⟩

/-- The loop for `InExponent < 0`: `remaining` is `-in_exponent`, so the loop
runs from `in_exponent = InExponent` up to `0`, one `in_exponent++` each
iteration. -/
def negative_loop (OutRep InRep : rep) (OutRadix InRadix : Int) (input_negative : Bool) :
    (remaining : Nat) → descaled → outcome descaled
  | 0, output => outcome.value output
  | remaining + 1, output =>
    (negative_iteration OutRep InRep OutRadix InRadix input_negative output).bind
      (negative_loop OutRep InRep OutRadix InRadix input_negative remaining)

/-- One iteration of the loop for `InExponent > 0`, on the loop counter
`in_exponent` and the output, for an `OutRep` of sufficient capacity, which the
source requires: a product that is not a value of `OutRep` ends the run with
`outcome.overflow`. The product as the built-in `*=` computes it is that of
`positive_iteration_unchecked`. -/
def positive_iteration (OutRep InRep : rep) (OutRadix InRadix : Int) (input_negative : Bool)
    (in_exponent : Nat) (output : descaled) : outcome (Nat × descaled) :=
  let multiplied : outcome (Nat × Int) :=
    match oob InRep input_negative output.significand with
    | none => outcome.assert_failure
    | some true =>
      -- might_be_oob{OutRadix % InRadix}; CNL_ASSERT(might_be_oob)
      if OutRadix.tmod InRadix ≠ 0 then outcome.value (in_exponent, output.significand)
      else outcome.assert_failure
    | some false =>
      let product := output.significand * InRadix
      if OutRep.holds product then outcome.value (in_exponent - 1, product)
      else outcome.overflow
  multiplied.bind fun (in_exponent, significand) =>
    if significand.tmod OutRadix = 0 then
      outcome.value (in_exponent, ⟨significand.tdiv OutRadix, output.exponent + 1⟩)
    else outcome.value (in_exponent, ⟨significand, output.exponent⟩)

/-- The loop for `InExponent > 0`: it runs until `in_exponent` is `0`; `fuel`
bounds the number of iterations, `outcome.timeout` when they do not suffice. -/
def positive_loop (OutRep InRep : rep) (OutRadix InRadix : Int) (input_negative : Bool) :
    (fuel : Nat) → (in_exponent : Nat) → descaled → outcome descaled
  | _, 0, output => outcome.value output
  | 0, _ + 1, _ => outcome.timeout
  | fuel + 1, in_exponent + 1, output =>
    (positive_iteration OutRep InRep OutRadix InRadix input_negative (in_exponent + 1)
        output).bind fun (next_exponent, next) =>
      positive_loop OutRep InRep OutRadix InRadix input_negative fuel next_exponent next

/-- The five-parameter `descale<OutRep, OutRadix, InRep, InExponent, InRadix>`
applied to the scaled integer whose `to_rep` is `input`. -/
def descale (OutRep : rep) (OutRadix : Int) (InRep : rep) (InExponent : Int) (InRadix : Int)
    (fuel : Nat) (input : Int) : outcome descaled :=
  if OutRep.holds input then
    let output : descaled := ⟨input, 0⟩
    let input_negative := decide (input < 0)
    if InExponent < 0 then
      negative_loop OutRep InRep OutRadix InRadix input_negative (-InExponent).toNat output
    else if InExponent > 0 then
      positive_loop OutRep InRep OutRadix InRadix input_negative fuel InExponent.toNat output
    else outcome.value output
  else outcome.overflow

/-- Modelled from the spec: the digit-counting loop of `used_digits`, which is
missing from the sources: one digit for every halving until
the value is `0`; `fuel` is at least the number of halvings. -/
def used_digits_positive : (fuel : Nat) → (value : Nat) → Nat
  | 0, _ => 0
  | fuel + 1, value => if value = 0 then 0 else used_digits_positive fuel (value / 2) + 1

/-- Modelled from the spec: `used_digits` (`cnl/_impl/used_digits.h`) is the
bit-width of a value, the number of binary digits up to its highest set bit. -/
def used_digits (n : Int) : Nat := used_digits_positive n.natAbs n.natAbs

/-- The representation `promoted_rep` of the one-argument `descale`:
`wide_integer<digits<Rep> + used_digits(OutRadix), adopt_signedness_t<int, Rep>>`. -/
def promoted_rep (Rep : rep) (OutRadix : Int) : rep :=
  ⟨Rep.is_signed, Rep.digits + used_digits OutRadix⟩

/-- The one-argument (widening) overload `descale<OutRadix>(input)`. The
statement `return descaled<Rep, OutRadix>{...}` under `if constexpr (Exponent ==
0)` has no `else`: for `Exponent == 0` the last statement, which returns a
`descaled<promoted_rep, OutRadix>`, is instantiated as well, the return type
`auto` is deduced as two different types and the call is ill-formed (`none`).
For another exponent only the last `return` is instantiated. -/
def descale_widening (OutRadix : Int) (Rep : rep) (Exponent : Int) (Radix : Int)
    (fuel : Nat) (input : Int) : Option (outcome descaled) :=
  if Exponent = 0 then none
  else some (descale (promoted_rep Rep OutRadix) OutRadix Rep Exponent Radix fuel input)

/-- The number a `descaled` stands for: `significand * Radix ^ exponent`. -/
def descaled.to_rat (d : descaled) (Radix : Int) : ℚ :=
  (d.significand : ℚ) * (Radix : ℚ) ^ d.exponent

/-- The number a scaled integer stands for: `rep * Radix ^ Exponent`. -/
def scaled_value (input : Int) (Exponent : Int) (Radix : Int) : ℚ :=
  (input : ℚ) * (Radix : ℚ) ^ Exponent

/-- Whether the loop for `InExponent < 0`, run for `remaining` iterations from
`output`, never takes the out-of-bounds branch: every significand that is not
divisible by `InRadix` is found within the bounds of `InRep`. -/
def negative_loop_in_bounds (OutRep InRep : rep) (OutRadix InRadix : Int)
    (input_negative : Bool) : (remaining : Nat) → descaled → Bool
  | 0, _ => true
  | remaining + 1, output =>
    (decide (output.significand.tmod InRadix = 0)
      || decide (oob InRep input_negative output.significand = some false))
    && match negative_iteration OutRep InRep OutRadix InRadix input_negative output with
      | outcome.value next =>
        negative_loop_in_bounds OutRep InRep OutRadix InRadix input_negative remaining next
      | _ => true

/-- Whether `descale` on `input` never takes the out-of-bounds branch of the
loop for `InExponent < 0`. -/
def descale_in_bounds (OutRep : rep) (OutRadix : Int) (InRep : rep) (InExponent : Int)
    (InRadix : Int) (input : Int) : Bool :=
  negative_loop_in_bounds OutRep InRep OutRadix InRadix (decide (input < 0))
    (-InExponent).toNat ⟨input, 0⟩

/-! ## Overflow policies -/

/-- The overflow tags: `native_overflow_tag`, `trapping_overflow_tag`,
`saturated_overflow_tag`, `throwing_overflow_tag`. -/
inductive overflow_tag where
  | native_overflow_tag
  | trapping_overflow_tag
  | saturated_overflow_tag
  | throwing_overflow_tag
  deriving DecidableEq, Repr

/-- The direction of an overflow, `polarity::positive` or `polarity::negative`. -/
inductive polarity where
  | positive
  | negative
  deriving DecidableEq, Repr

/-- The binary operators of the overflow tests. -/
inductive binary_op where
  | add_op
  | subtract_op
  | multiply_op
  | shift_left_op
  deriving DecidableEq, Repr

open overflow_tag polarity binary_op

/-- Modelled from the spec: `terminate` (`cnl/_impl/terminate.h`, missing from
the sources) halts the process with the diagnostic and returns no value. -/
def terminate {α : Type} (diagnostic : String) : outcome α := outcome.terminated diagnostic

/-- The handlers `overflow_operator<Operator, trapping_overflow_tag, polarity>` of
`trapping.h`; the conversion overload and the operand overload of a polarity
both ignore their arguments and return `terminate` with the same diagnostic. -/
def trapping_overflow_operator {α : Type} : polarity → outcome α
  | positive => terminate "positive overflow"
  | negative => terminate "negative overflow"

/-- The conversion `static_cast<R>(v)` of an integer to a representation: the
value of `R` congruent to `v` modulo `2 ^ width`. -/
def wrap (R : rep) (v : Int) : Int :=
  if R.is_signed then (v + 2 ^ R.digits) % 2 ^ (R.digits + 1) - 2 ^ R.digits
  else v % 2 ^ R.digits

/-- Modelled from the spec: the handlers `overflow_operator<Operator, Tag,
polarity>` of the policies (those of the native, saturated and throwing policy
are missing from the sources): native wraps the exact result in the result
representation, trapping terminates with its diagnostic, saturated clamps to the
maximum or the minimum, throwing raises an error. -/
def overflow_operator (tag : overflow_tag) (p : polarity) (Result : rep) (exact : Int) :
    outcome Int :=
  match tag with
  | native_overflow_tag => outcome.value (wrap Result exact)
  | trapping_overflow_tag => trapping_overflow_operator p
  | saturated_overflow_tag =>
    match p with
    | positive => outcome.value Result.max
    | negative => outcome.value Result.lowest
  | throwing_overflow_tag =>
    match p with
    | positive => outcome.thrown "positive overflow"
    | negative => outcome.thrown "negative overflow"

/-- Modelled from the spec: `convert<Tag, Destination>(source)`, missing from the
sources: the native policy converts as the representation does; the other
policies apply their handler when the source is above the maximum (positive) or
below the minimum (negative) of `Destination`, and convert natively otherwise. -/
def convert (tag : overflow_tag) (Destination : rep) (source : Int) : outcome Int :=
  match tag with
  | native_overflow_tag => outcome.value (wrap Destination source)
  | _ =>
    if source > Destination.max then overflow_operator tag positive Destination source
    else if source < Destination.lowest then overflow_operator tag negative Destination source
    else outcome.value (wrap Destination source)

/-- Integral promotion: a representation narrower than `int` becomes `int`. -/
def promote (R : rep) : rep := if R.width < 32 then int32 else R

/-- The usual arithmetic conversions: the common type of two promoted operands. -/
def common_type (A B : rep) : rep :=
  let a := promote A
  let b := promote B
  if a.is_signed = b.is_signed then (if b.width ≤ a.width then a else b)
  else
    let u := if a.is_signed then b else a
    let s := if a.is_signed then a else b
    if s.width ≤ u.width then u
    else if u.digits ≤ s.digits then s
    else ⟨false, s.width⟩

/-- The natural result type of an operator: the common type of the operands for
`+`, `-`, `*`, the promoted left operand for `<<`. -/
def op_result (op : binary_op) (A B : rep) : rep :=
  match op with
  | shift_left_op => promote A
  | _ => common_type A B

/-- The mathematical result of an operator over the integers (`lhs << rhs` is
`lhs * 2 ^ rhs`). -/
def binary_op.exact (op : binary_op) (lhs rhs : Int) : Int :=
  match op with
  | add_op => lhs + rhs
  | subtract_op => lhs - rhs
  | multiply_op => lhs * rhs
  | shift_left_op => lhs * 2 ^ rhs.toNat

/-- Modelled from the spec: the operator of a policy on operands of the
representations `Lhs` and `Rhs` (`cnl::add<Tag>`, `cnl::subtract<Tag>`,
`cnl::multiply<Tag>`, `cnl::shift_left<Tag>`; the dispatch is missing from the
sources): the native policy computes as the result representation does; the
other policies apply their handler when the exact result is above the maximum
(positive) or below the minimum (negative) of the natural result type, and
compute natively otherwise. -/
def apply_operator (tag : overflow_tag) (op : binary_op) (Lhs Rhs : rep) (lhs rhs : Int) :
    outcome Int :=
  let Result := op_result op Lhs Rhs
  let exact := op.exact lhs rhs
  match tag with
  | native_overflow_tag => outcome.value (wrap Result exact)
  | _ =>
    if exact > Result.max then overflow_operator tag positive Result exact
    else if exact < Result.lowest then overflow_operator tag negative Result exact
    else outcome.value (wrap Result exact)

/-- The function `clamp(v, lo, hi)`: `v` when in range, `hi` above, `lo` below. -/
def clamp (v lo hi : Int) : Int := if hi < v then hi else if v < lo then lo else v

/-! ## Iterations of the loops of `descale` -/

/-- The operand types of a binary operator: a floating-point type (the concept
`floating_point`), a built-in integer, or a `_impl::wrapper<Rep, Tag>` of an
integer representation with an overflow tag (the concept `_impl::any_wrapper`). -/
inductive number_type where
  | floating
  | integer (Rep : rep)
  | wrapper (Rep : rep) (tag : overflow_tag)
  deriving DecidableEq, Repr

/-- An operand: its type and its integer value (`to_rep` for a wrapper). -/
structure number where
  type : number_type
  value : Int
  deriving DecidableEq, Repr

/-- The concept `floating_point`. -/
def floating_point : number_type → Bool
  | number_type.floating => true
  | _ => false

/-- The concept `_impl::any_wrapper`. -/
def any_wrapper : number_type → Bool
  | number_type.wrapper _ _ => true
  | _ => false

/-- The variable template `digits` of `wrapper/digits.h`:
`digits<_impl::wrapper<Rep, Tag>> = digits<Rep>`; `none` for a floating type. -/
def digits : number_type → Option Nat
  | number_type.floating => none
  | number_type.integer Rep => some Rep.digits
  | number_type.wrapper Rep _ => some Rep.digits

/-- Modelled from the spec: `_impl::is_same_tag_family` (missing from the
sources): tags of one family are compatible for binary-operator dispatch; an
overflow tag carries no parameter, so its family is the policy. -/
def is_same_tag_family (lhs rhs : overflow_tag) : Bool := decide (lhs = rhs)

/-- Modelled from the spec: `_impl::number_can_wrap<Wrapper, Value>` (missing
from the sources): `Wrapper` is a generic numeric type and `Value` a plain value
of lower rank, not a generic numeric type and not floating, that the
representation of `Wrapper` represents losslessly. -/
def number_can_wrap (Wrapper Value : number_type) : Bool :=
  match Wrapper, Value with
  | number_type.wrapper Rep _, number_type.integer V =>
    (Rep.is_signed || !V.is_signed) && decide (V.digits ≤ Rep.digits)
  | _, _ => false

/-- The five partial specialisations of `custom_operator` in
`binary_arithmetic_operator.h`, in the order of the file. -/
inductive rule where
  | higher_op_wrapper
  | wrapper_op_higher
  | lower_op_wrapper
  | wrapper_op_lower
  | wrapper_op_wrapper
  deriving DecidableEq, Repr

open rule

/-- The constraints of each specialisation on the operand types `Lhs` and `Rhs`
(for an `Operator` of the concept `_impl::binary_arithmetic_op`). -/
def rule.applies (r : rule) (Lhs Rhs : number_type) : Bool :=
  match r with
  | higher_op_wrapper => floating_point Lhs && any_wrapper Rhs
  | wrapper_op_higher => any_wrapper Lhs && floating_point Rhs
  | lower_op_wrapper => number_can_wrap Rhs Lhs
  | wrapper_op_lower => number_can_wrap Lhs Rhs
  | wrapper_op_wrapper =>
    match Lhs, Rhs with
    | number_type.wrapper _ lhs_tag, number_type.wrapper _ rhs_tag =>
      is_same_tag_family lhs_tag rhs_tag
    | _, _ => false

/-- The specialisations whose constraints the operand types satisfy. -/
def applicable (Lhs Rhs : number_type) : List rule :=
  [higher_op_wrapper, wrapper_op_higher, lower_op_wrapper, wrapper_op_lower,
    wrapper_op_wrapper].filter fun r => r.applies Lhs Rhs

/-- The function `_impl::to_rep`: the value of a wrapper in its representation. -/
def to_rep (n : number) : number :=
  match n.type with
  | number_type.wrapper Rep _ => ⟨number_type.integer Rep, n.value⟩
  | _ => n

/-- The function `_impl::from_rep<Archetype>`: the number of type `Archetype`
with the representation value `r`. -/
def from_rep (Archetype : number_type) (r : Int) : number := ⟨Archetype, r⟩

/-- Modelled from the spec: `_impl::from_value<Wrapper>` (missing from the
sources) lifts a plain operand into the representation of the generic type. -/
def from_value (Wrapper : number_type) (n : number) : number := ⟨Wrapper, n.value⟩

/-- The operator `_rep_operator` of the last specialisation:
`custom_operator<Operator, op_value<Rep, Tag>, op_value<Rep, Tag>>` on the
representation values, here the operator of the overflow policy; it returns a
value of the natural result type of the operator (`_result_rep`). -/
def rep_operator (op : binary_op) (lhs_tag : overflow_tag) (Lhs Rhs : rep) (lhs rhs : Int) :
    outcome (rep × Int) :=
  (apply_operator lhs_tag op Lhs Rhs lhs rhs).bind fun r =>
    outcome.value (op_result op Lhs Rhs, r)

/-- Modelled from the spec: the tag `_impl::op_result<Operator, Tag, Tag>` of the
result (missing from the sources), the combination rule of the family: for two
overflow tags of one family, that policy. -/
def tag_op_result (_op : binary_op) (lhs_tag _rhs_tag : overflow_tag) : overflow_tag := lhs_tag

/-- What the resolution of `Operator()(lhs, rhs)` gives: no specialisation or
more than one (`ill_formed`, a static failure), native floating-point arithmetic
on the converted operands (delegated, not evaluated here), or the outcome of the
selected specialisation. -/
inductive resolution where
  | ill_formed
  | native_floating (op : binary_op) (lhs rhs : number)
  | result (r : outcome number)
  deriving DecidableEq, Repr

/-- The operator of two numbers as `custom_operator` resolves it; `fuel` bounds
the nesting of `Operator()` calls (a lifted operand is resolved again). -/
def custom_operator : (fuel : Nat) → binary_op → number → number → resolution
  | 0, _, _, _ => resolution.result outcome.timeout
  | fuel + 1, op, lhs, rhs =>
    match applicable lhs.type rhs.type with
    | [higher_op_wrapper] =>
      -- Operator()(lhs, static_cast<Lhs>(rhs))
      resolution.native_floating op lhs ⟨lhs.type, rhs.value⟩
    | [wrapper_op_higher] =>
      -- Operator()(static_cast<Rhs>(lhs), rhs)
      resolution.native_floating op ⟨rhs.type, lhs.value⟩ rhs
    | [lower_op_wrapper] =>
      -- Operator()(_impl::from_value<Rhs>(lhs), rhs)
      custom_operator fuel op (from_value rhs.type lhs) rhs
    | [wrapper_op_lower] =>
      -- Operator()(lhs, from_value<Lhs, Rhs>{}(rhs))
      custom_operator fuel op lhs (from_value lhs.type rhs)
    | [wrapper_op_wrapper] =>
      match lhs.type, rhs.type with
      | number_type.wrapper Lhs lhs_tag, number_type.wrapper Rhs rhs_tag =>
        -- from_rep<_result_archetype>(_rep_operator{}(to_rep(lhs), to_rep(rhs)))
        resolution.result
          ((rep_operator op lhs_tag Lhs Rhs (to_rep lhs).value (to_rep rhs).value).bind
            fun (result_rep, r) =>
              outcome.value
                (from_rep (number_type.wrapper result_rep (tag_op_result op lhs_tag rhs_tag))
                  r))
      | _, _ => resolution.ill_formed
    | _ => resolution.ill_formed

/-! ## `floor` and `abs` of a scaled integer (`scaled_integer/extras.h`) -/

/-- A value of `scaled_integer<Rep, power<Exponent, Radix>>`: the number
`significand * Radix ^ Exponent`, `significand` being `to_rep`. -/
structure scaled_integer where
  Rep : rep
  Exponent : Int
  Radix : Int
  significand : Int
  deriving DecidableEq, Repr

/-- The number a scaled integer stands for. -/
def scaled_integer.to_rat (x : scaled_integer) : ℚ :=
  scaled_value x.significand x.Exponent x.Radix

/-- The built-in `lhs >> count` on a left operand of the representation `Rep`:
the operand is promoted; the quotient of `lhs` by `2 ^ count` rounded toward
negative infinity, and undefined for a negative count or a count of at least
the width of the promoted operand. -/
def shift_right (Rep : rep) (lhs count : Int) : outcome Int :=
  if 0 ≤ count ∧ count < (promote Rep).width then outcome.value (lhs / 2 ^ count.toNat)
  else outcome.undefined

/-- The function `floor` of `extras.h`: for `Exponent < 0` the static assertion
requires `Radix == 2` (`none` when it fails) and the result is
`from_rep<scaled_integer<Rep, power<0, Radix>>>(to_rep(x) >> constant<-Exponent>())`;
for `Exponent >= 0` the result is `x`. -/
def floor (x : scaled_integer) : Option (outcome scaled_integer) :=
  if x.Exponent < 0 then
    if x.Radix = 2 then
      some ((shift_right x.Rep x.significand (-x.Exponent)).bind fun r =>
        outcome.value ⟨x.Rep, 0, x.Radix, wrap x.Rep r⟩)
    else none
  else some (outcome.value x)

/-- The built-in unary minus on an operand of the representation `Rep`: the
operand is promoted; a signed negation outside the promoted representation
overflows, an unsigned one wraps. The result has the promoted representation. -/
def negate (Rep : rep) (v : Int) : outcome Int :=
  if (promote Rep).is_signed then
    if (promote Rep).holds (-v) then outcome.value (-v) else outcome.overflow
  else outcome.value (wrap (promote Rep) (-v))

/-- The function `abs` of `extras.h`, of result type `decltype(-x)`:
`(x >= scaled_integer<Rep, Scale>{}) ? static_cast<decltype(-x)>(x) : -x`. -/
def abs (x : scaled_integer) : outcome scaled_integer :=
  if x.significand ≥ 0 then
    outcome.value ⟨promote x.Rep, x.Exponent, x.Radix, wrap (promote x.Rep) x.significand⟩
  else
    (negate x.Rep x.significand).bind fun r =>
      outcome.value ⟨promote x.Rep, x.Exponent, x.Radix, r⟩

/-! ## `numeric_limits` of a scaled integer (`scaled_integer/extras.h`) -/

/-- The member `numeric_limits<scaled_integer<Rep, power<Exponent, Radix>>>::min()`:
`from_rep<_value_type>(Rep{1})`. -/
def numeric_limits.min (Rep : rep) (Exponent Radix : Int) : scaled_integer :=
  ⟨Rep, Exponent, Radix, 1⟩

/-- The member `max()`: `from_rep<_value_type>(_rep_numeric_limits::max())`. -/
def numeric_limits.max (Rep : rep) (Exponent Radix : Int) : scaled_integer :=
  ⟨Rep, Exponent, Radix, Rep.max⟩

/-- The member `lowest()`: `from_rep<_value_type>(_rep_numeric_limits::lowest())`. -/
def numeric_limits.lowest (Rep : rep) (Exponent Radix : Int) : scaled_integer :=
  ⟨Rep, Exponent, Radix, Rep.lowest⟩

/-- The member `epsilon()`: `from_rep<_value_type>(Rep{1})`. -/
def numeric_limits.epsilon (Rep : rep) (Exponent Radix : Int) : scaled_integer :=
  ⟨Rep, Exponent, Radix, 1⟩

/-- The member `denorm_min()`: `from_rep<_value_type>(Rep{1})`. -/
def numeric_limits.denorm_min (Rep : rep) (Exponent Radix : Int) : scaled_integer :=
  ⟨Rep, Exponent, Radix, 1⟩

/-- The member `round_error()`: `from_rep<_value_type>(Rep{0})`. -/
def numeric_limits.round_error (Rep : rep) (Exponent Radix : Int) : scaled_integer :=
  ⟨Rep, Exponent, Radix, 0⟩

/-! ## `safe_multiply` (`scaled_integer/math.h`) -/

/-- The built-in `lhs OP rhs` of C++ on operands of the representations `Lhs` and
`Rhs`, computed in the natural result type: a signed result outside that type
overflows, an unsigned one wraps. -/
def builtin_operator (op : binary_op) (Lhs Rhs : rep) (lhs rhs : Int) : outcome Int :=
  let Result := op_result op Lhs Rhs
  if Result.is_signed then
    if Result.holds (op.exact lhs rhs) then outcome.value (op.exact lhs rhs)
    else outcome.overflow
  else outcome.value (wrap Result (op.exact lhs rhs))

/-- The two overloads of `safe_multiply(a, b)` for operands of `digits<A>` and
`digits<B>` digits: the first, for `digits<decltype(a * b)> <= digits<A> +
digits<B>`, multiplies the operands converted to `set_digits_t<A, digits<A> +
digits<B>>` and `set_digits_t<B, digits<A> + digits<B>>`; the second, for
`digits<A> + digits<B> <= digits<decltype(a * b)>`, returns `a * b`. With both
constraints satisfied the call is ambiguous (`none`). The alias `set_digits_t`,
missing from the sources, is the parameter `set_digits`. -/
def safe_multiply (set_digits : rep → Nat → rep) (A B : rep) (a b : Int) :
    Option (outcome Int) :=
  let product_digits := (op_result multiply_op A B).digits
  let widened := decide (product_digits ≤ A.digits + B.digits)
  let direct := decide (A.digits + B.digits ≤ product_digits)
  if widened && direct then none
  else if widened then
    let wide_a := set_digits A (A.digits + B.digits)
    let wide_b := set_digits B (A.digits + B.digits)
    some (builtin_operator multiply_op wide_a wide_b (wrap wide_a a) (wrap wide_b b))
  else if direct then some (builtin_operator multiply_op A B a b)
  else none

/-- An instance of `set_digits_t`: the narrowest built-in type of the signedness
of `T` with at least the requested number of digits (of 8, 16, 32, 64 or 128
bits). -/
def set_digits_native (T : rep) (Digits : Nat) : rep :=
  let sign := if T.is_signed then 1 else 0
  if Digits + sign ≤ 8 then ⟨T.is_signed, 8 - sign⟩
  else if Digits + sign ≤ 16 then ⟨T.is_signed, 16 - sign⟩
  else if Digits + sign ≤ 32 then ⟨T.is_signed, 32 - sign⟩
  else if Digits + sign ≤ 64 then ⟨T.is_signed, 64 - sign⟩
  else ⟨T.is_signed, 128 - sign⟩


/-! ## `exp2` of a scaled integer (`scaled_integer/math.h`) -/

/-- The built-in comparison `lhs <= rhs` of C++ on operands of the representations
`Lhs` and `Rhs`: both operands are converted to the common type before they are
compared, so a negative operand compared with an unsigned one of at least the
width of `int` becomes a large unsigned value. -/
def less_equal (Lhs Rhs : rep) (lhs rhs : Int) : Bool :=
  decide (wrap (common_type Lhs Rhs) lhs ≤ wrap (common_type Lhs Rhs) rhs)

/-- The built-in `lhs << count` on a left operand of the representation `Rep`:
the operand is promoted; the product of `lhs` and `2 ^ count` reduced to the
promoted representation, and undefined for a negative count or a count of at
least the width of the promoted operand. -/
def shift_left (Rep : rep) (lhs count : Int) : outcome Int :=
  if 0 ≤ count ∧ count < (promote Rep).width then
    outcome.value (wrap (promote Rep) (lhs * 2 ^ count.toNat))
  else outcome.undefined

/-- Modelled from the spec: the conversion of a scaled integer of radix 2 and the
exponent `FromExponent` to the representation `To` and the exponent `ToExponent`
(the constructors of `scaled_integer` are missing from the sources), on the
representation values: the significand is shifted by the difference of the
exponents, to the right as `floor` shifts, and converted to `To` as
`static_cast` converts. -/
def rescale (To : rep) (FromExponent ToExponent significand : Int) : Int :=
  wrap To
    (if ToExponent ≤ FromExponent then significand * 2 ^ (FromExponent - ToExponent).toNat
     else significand / 2 ^ (ToExponent - FromExponent).toNat)

/-- Modelled from the spec: the operator `x - rhs` of a scaled integer and an
integer of the representation `Rhs` (the arithmetic operators of `scaled_integer`
are missing from the sources): the integer is a scaled value of exponent 0, the
operand of the greater exponent is rescaled to the smaller exponent and the
significands are subtracted as the representations subtract. -/
def subtract_integer (x : scaled_integer) (Rhs : rep) (rhs : Int) : outcome scaled_integer :=
  let exponent := min x.Exponent 0
  (builtin_operator subtract_op x.Rep Rhs
      (rescale x.Rep x.Exponent exponent x.significand) (rescale Rhs 0 exponent rhs)).bind
    fun difference =>
      outcome.value ⟨op_result subtract_op x.Rep Rhs, exponent, x.Radix, difference⟩

/-- The type `unsigned_rep<ScaledInteger>`: `std::make_unsigned` of the
representation, of the same width. -/
def unsigned_rep (Rep : rep) : rep := ⟨false, Rep.width⟩

/-- The exponent of `make_largest_ufraction<Input>`, the type
`scaled_integer<unsigned_rep<Input>, power<-digits<unsigned_rep<Input>>>>`. -/
def make_largest_ufraction.exponent (Rep : rep) : Int := -((unsigned_rep Rep).digits : Int)

/-- The representation values of the coefficients `poly_coeffs<CoeffType>::a1` to
`a7`; `rounding_conversion` makes them from `double` constants and is not
evaluated here. -/
structure poly_coeffs where
  a1 : Int
  a2 : Int
  a3 : Int
  a4 : Int
  a5 : Int
  a6 : Int
  a7 : Int
  deriving DecidableEq, Repr

/-- Whether every coefficient is a value of the representation `CoeffRep`. -/
def poly_coeffs.holds (coeffs : poly_coeffs) (CoeffRep : rep) : Bool :=
  CoeffRep.holds coeffs.a1 && CoeffRep.holds coeffs.a2 && CoeffRep.holds coeffs.a3
    && CoeffRep.holds coeffs.a4 && CoeffRep.holds coeffs.a5 && CoeffRep.holds coeffs.a6
    && CoeffRep.holds coeffs.a7

/-- Sequencing of expressions that may be ill-formed (`none`): the rest is
evaluated on a returned value; after a failure the rest is still compiled, and
an ill-formed rest makes the whole ill-formed. -/
def and_then (first : Option (outcome Int)) (rest : Int → Option (outcome Int)) :
    Option (outcome Int) :=
  match first with
  | none => none
  | some (outcome.value v) => rest v
  | some failure => (rest 0).map fun _ => failure

/-- The expression `fp{safe_multiply(a, b)}` of `evaluate_polynomial`, with
`fp = scaled_integer<Rep, power<Exponent>>`, on the representation values of
operands of the exponent `Exponent` and the representations `A` and `B`: the
product, of the exponent `Exponent + Exponent` (exponents add), is converted to
`fp`. -/
def fp_product (set_digits : rep → Nat → rep) (Rep : rep) (Exponent : Int) (A B : rep)
    (a b : Int) : Option (outcome Int) :=
  and_then (safe_multiply set_digits A B a b) fun product =>
    some (outcome.value (rescale Rep (Exponent + Exponent) Exponent product))

/-- One level `fp{safe_multiply(xf, (coefficient + inner))}` of
`evaluate_polynomial`: the sum of two values of `fp` has the representation of
`Rep + Rep`. -/
def polynomial_term (set_digits : rep → Nat → rep) (Rep : rep) (Exponent : Int)
    (xf coefficient : Int) (inner : Option (outcome Int)) : Option (outcome Int) :=
  and_then inner fun term =>
    and_then (some (builtin_operator add_op Rep Rep coefficient term)) fun sum =>
      fp_product set_digits Rep Exponent Rep (op_result add_op Rep Rep) xf sum

/-- The function `evaluate_polynomial(xf)` for `xf` of the type
`fp = scaled_integer<Rep, power<Exponent>>`, on representation values; the
innermost expression is `fp{safe_multiply(coeffs::a7, xf)}`. -/
def evaluate_polynomial (set_digits : rep → Nat → rep) (coeffs : poly_coeffs) (Rep : rep)
    (Exponent : Int) (xf : Int) : Option (outcome Int) :=
  polynomial_term set_digits Rep Exponent xf coeffs.a1
    (polynomial_term set_digits Rep Exponent xf coeffs.a2
      (polynomial_term set_digits Rep Exponent xf coeffs.a3
        (polynomial_term set_digits Rep Exponent xf coeffs.a4
          (polynomial_term set_digits Rep Exponent xf coeffs.a5
            (polynomial_term set_digits Rep Exponent xf coeffs.a6
              (fp_product set_digits Rep Exponent Rep Rep coeffs.a7 xf))))))

/-- The two overloads of `exp2m1_0to1<Rep, Exponent>(x)`, giving the
representation value of a `make_largest_ufraction`; the argument is converted to
the parameter type `scaled_integer<Rep, power<Exponent>>`. For `Exponent >= 0`
the result is `from_rep<...>(0)`; for `Exponent < 0` it is
`evaluate_polynomial(im{scaled_integer<rep_of_t<im>, power<Exponent>>{x}})`. -/
def exp2m1_0to1 (set_digits : rep → Nat → rep) (coeffs : poly_coeffs) (Rep : rep)
    (Exponent : Int) (x : scaled_integer) : Option (outcome Int) :=
  let parameter := rescale Rep x.Exponent Exponent x.significand
  if 0 ≤ Exponent then some (outcome.value 0)
  else
    let same_exponent := rescale (unsigned_rep Rep) Exponent Exponent parameter
    let xf := rescale (unsigned_rep Rep) Exponent (make_largest_ufraction.exponent Rep)
      same_exponent
    evaluate_polynomial set_digits coeffs (unsigned_rep Rep)
      (make_largest_ufraction.exponent Rep) xf

/-- The two overloads of `fractional(x, floored)`: `x - floored` for
`-digits<Rep> < Exponent`, and `x` for `-digits<Rep> >= Exponent`. -/
def fractional (x : scaled_integer) (floored : Int) : outcome scaled_integer :=
  if -(x.Rep.digits : Int) < x.Exponent then subtract_integer x x.Rep floored
  else outcome.value x

/-- The function `_impl::fp::exp2<Intermediate>(x, floored)` with
`Intermediate = make_largest_ufraction<scaled_integer<Rep, power<Exponent>>>`:
`floored <= Exponent ? rep_of_t<Intermediate>{1} :
(to_rep(exp2m1_0to1<Rep, Exponent>(fractional(x, floored)))
>> (-tag_of_t<Intermediate>::exponent + Exponent - floored))
+ (Rep{1} << (floored - Exponent))`, where `Exponent` is an `int`. -/
def fp.exp2 (set_digits : rep → Nat → rep) (coeffs : poly_coeffs) (x : scaled_integer)
    (floored : Int) : Option (outcome Int) :=
  let Intermediate := unsigned_rep x.Rep
  if less_equal x.Rep int32 floored x.Exponent then some (outcome.value (wrap Intermediate 1))
  else
    let shifted (fraction : scaled_integer) : Option (outcome Int) :=
      and_then (exp2m1_0to1 set_digits coeffs x.Rep x.Exponent fraction) fun polynomial =>
        some
          ((builtin_operator subtract_op int32 x.Rep
              (-(make_largest_ufraction.exponent x.Rep) + x.Exponent) floored).bind fun right =>
            (shift_right Intermediate polynomial right).bind fun low =>
              (builtin_operator subtract_op x.Rep int32 floored x.Exponent).bind fun left =>
                (shift_left x.Rep (wrap x.Rep 1) left).bind fun one =>
                  builtin_operator add_op (promote Intermediate) (promote x.Rep) low one)
    match fractional x floored with
    | outcome.value fraction => shifted fraction
    | failure => (shifted x).map fun _ => failure.bind fun _ => outcome.undefined

/-- The function `exp2(x)`:
`from_rep<out_type>(_impl::fp::exp2<im>(x, static_cast<Rep>(floor(x))))`. The
template takes `scaled_integer<Rep, power<Exponent>>`, of radix 2 (`none` for
another radix); `set_digits` stands for the alias `set_digits_t` and `coeffs` for
the constants of `poly_coeffs`. -/
def exp2 (set_digits : rep → Nat → rep) (coeffs : poly_coeffs) (x : scaled_integer) :
    Option (outcome scaled_integer) :=
  let result (floored : Int) : Option (outcome scaled_integer) :=
    (fp.exp2 set_digits coeffs x floored).map fun r =>
      r.bind fun v => outcome.value ⟨x.Rep, x.Exponent, x.Radix, wrap x.Rep v⟩
  if x.Radix = 2 then
    match floor x with
    | none => none
    | some (outcome.value floor_x) =>
      result (rescale x.Rep floor_x.Exponent 0 floor_x.significand)
    | some failure => (result 0).map fun _ => failure.bind fun _ => outcome.undefined
  else none

/-! ## `descale` with the unchecked products of the source (`descale.h`) -/

/-- The compound assignment `output.significand *= radix` of `descale` on a
significand of the built-in representation `OutRep` and a radix of the type
`int`: the product is computed in the common type of `OutRep` and `int` (a
signed product outside that type overflows, an unsigned one wraps) and converted
back to `OutRep`. Nothing checks that the product is a value of `OutRep`: for an
`OutRep` that is unsigned or narrower than `int` it wraps. -/
def multiply_assign (OutRep : rep) (significand radix : Int) : outcome Int :=
  (builtin_operator multiply_op OutRep int32 significand radix).bind fun product =>
    outcome.value (wrap OutRep product)

/-- One iteration of the loop for `InExponent < 0` with
`output.significand *= OutRadix` as the source computes it. -/
def negative_iteration_unchecked (OutRep InRep : rep) (OutRadix InRadix : Int)
    (input_negative : Bool) (output : descaled) : outcome descaled :=
  if output.significand.tmod InRadix ≠ 0 then
    match oob InRep input_negative output.significand with
    | none => outcome.assert_failure
    | some true =>
      -- might_be_oob{InRadix % OutRadix}; CNL_ASSERT(might_be_oob)
      if InRadix.tmod OutRadix ≠ 0 then
        outcome.value ⟨output.significand.tdiv InRadix, output.exponent⟩
      else outcome.assert_failure
    | some false =>
      (multiply_assign OutRep output.significand OutRadix).bind fun product =>
        outcome.value ⟨product.tdiv InRadix, output.exponent - 1⟩
  else outcome.value ⟨output.significand.tdiv InRadix, output.exponent⟩

/-- The loop for `InExponent < 0` over `negative_iteration_unchecked`. -/
def negative_loop_unchecked (OutRep InRep : rep) (OutRadix InRadix : Int)
    (input_negative : Bool) : (remaining : Nat) → descaled → outcome descaled
  | 0, output => outcome.value output
  | remaining + 1, output =>
    (negative_iteration_unchecked OutRep InRep OutRadix InRadix input_negative output).bind
      (negative_loop_unchecked OutRep InRep OutRadix InRadix input_negative remaining)

/-- One iteration of the loop for `InExponent > 0` with
`output.significand *= InRadix` as the source computes it. -/
def positive_iteration_unchecked (OutRep InRep : rep) (OutRadix InRadix : Int)
    (input_negative : Bool) (in_exponent : Nat) (output : descaled) :
    outcome (Nat × descaled) :=
  let multiplied : outcome (Nat × Int) :=
    match oob InRep input_negative output.significand with
    | none => outcome.assert_failure
    | some true =>
      -- might_be_oob{OutRadix % InRadix}; CNL_ASSERT(might_be_oob)
      if OutRadix.tmod InRadix ≠ 0 then outcome.value (in_exponent, output.significand)
      else outcome.assert_failure
    | some false =>
      (multiply_assign OutRep output.significand InRadix).bind fun product =>
        outcome.value (in_exponent - 1, product)
  multiplied.bind fun (in_exponent, significand) =>
    if significand.tmod OutRadix = 0 then
      outcome.value (in_exponent, ⟨significand.tdiv OutRadix, output.exponent + 1⟩)
    else outcome.value (in_exponent, ⟨significand, output.exponent⟩)

/-- The loop for `InExponent > 0` over `positive_iteration_unchecked`; `fuel`
bounds the number of iterations. -/
def positive_loop_unchecked (OutRep InRep : rep) (OutRadix InRadix : Int)
    (input_negative : Bool) : (fuel : Nat) → (in_exponent : Nat) → descaled → outcome descaled
  | _, 0, output => outcome.value output
  | 0, _ + 1, _ => outcome.timeout
  | fuel + 1, in_exponent + 1, output =>
    (positive_iteration_unchecked OutRep InRep OutRadix InRadix input_negative
        (in_exponent + 1) output).bind fun (next_exponent, next) =>
      positive_loop_unchecked OutRep InRep OutRadix InRadix input_negative fuel next_exponent
        next

/-- The five-parameter `descale` with the products as the source computes them,
for a built-in `OutRep`. -/
def descale_unchecked (OutRep : rep) (OutRadix : Int) (InRep : rep) (InExponent : Int)
    (InRadix : Int) (fuel : Nat) (input : Int) : outcome descaled :=
  if OutRep.holds input then
    let output : descaled := ⟨input, 0⟩
    let input_negative := decide (input < 0)
    if InExponent < 0 then
      negative_loop_unchecked OutRep InRep OutRadix InRadix input_negative
        (-InExponent).toNat output
    else if InExponent > 0 then
      positive_loop_unchecked OutRep InRep OutRadix InRadix input_negative fuel
        InExponent.toNat output
    else outcome.value output
  else outcome.overflow

/-- Whether `OutRep` has the capacity for the loop for `InExponent < 0` run for
`remaining` iterations from `output`: every product `significand * OutRadix`
that the run computes is a value of `OutRep`. -/
def negative_loop_capacity (OutRep InRep : rep) (OutRadix InRadix : Int)
    (input_negative : Bool) : (remaining : Nat) → descaled → Bool
  | 0, _ => true
  | remaining + 1, output =>
    (decide (output.significand.tmod InRadix = 0)
      || decide (oob InRep input_negative output.significand ≠ some false)
      || OutRep.holds (output.significand * OutRadix))
    && match negative_iteration_unchecked OutRep InRep OutRadix InRadix input_negative
        output with
      | outcome.value next =>
        negative_loop_capacity OutRep InRep OutRadix InRadix input_negative remaining next
      | _ => true

/-- Whether `OutRep` has the capacity for the loop for `InExponent > 0` run for
at most `fuel` iterations with the counter `in_exponent` from `output`: every
product `significand * InRadix` that the run computes is a value of `OutRep`. -/
def positive_loop_capacity (OutRep InRep : rep) (OutRadix InRadix : Int)
    (input_negative : Bool) : (fuel : Nat) → (in_exponent : Nat) → descaled → Bool
  | _, 0, _ => true
  | 0, _ + 1, _ => true
  | fuel + 1, in_exponent + 1, output =>
    (decide (oob InRep input_negative output.significand ≠ some false)
      || OutRep.holds (output.significand * InRadix))
    && match positive_iteration_unchecked OutRep InRep OutRadix InRadix input_negative
        (in_exponent + 1) output with
      | outcome.value (next_exponent, next) =>
        positive_loop_capacity OutRep InRep OutRadix InRadix input_negative fuel next_exponent
          next
      | _ => true

/-- Whether `OutRep` is of sufficient capacity for `descale` on `input`, the
requirement of the source on `OutRep`: every product of the run is a value of
`OutRep`. -/
def sufficient_capacity (OutRep : rep) (OutRadix : Int) (InRep : rep) (InExponent : Int)
    (InRadix : Int) (fuel : Nat) (input : Int) : Bool :=
  if InExponent < 0 then
    negative_loop_capacity OutRep InRep OutRadix InRadix (decide (input < 0))
      (-InExponent).toNat ⟨input, 0⟩
  else if InExponent > 0 then
    positive_loop_capacity OutRep InRep OutRadix InRadix (decide (input < 0)) fuel
      InExponent.toNat ⟨input, 0⟩
  else true
/-! ## Sequencing -/

@[simp] theorem outcome.bind_value {α β : Type} (a : α) (f : α → outcome β) :
    (outcome.value a).bind f = f a := rfl

theorem outcome.bind_eq_value {α β : Type} {x : outcome α} {f : α → outcome β} {b : β}
    (h : x.bind f = outcome.value b) : ∃ a, x = outcome.value a ∧ f a = outcome.value b := by
  cases x with
  | value a => exact ⟨a, rfl, h⟩
  | _ => simp [outcome.bind] at h

/-! ## Exactness of the two loops -/

theorem negative_iteration_exact {OutRep InRep : rep} {OutRadix InRadix : Int} {neg : Bool}
    {output next : descaled} (hOut : OutRadix ≠ 0)
    (hdvd : InRadix ∣ OutRadix)
    (hb : output.significand.tmod InRadix = 0 ∨ oob InRep neg output.significand = some false)
    (h : negative_iteration OutRep InRep OutRadix InRadix neg output = outcome.value next) :
    next.to_rat OutRadix * (InRadix : ℚ) = output.to_rat OutRadix := by
  have hOutq : (OutRadix : ℚ) ≠ 0 := by exact_mod_cast hOut
  unfold negative_iteration at h
  by_cases hm : output.significand.tmod InRadix = 0
  · simp only [hm, ne_eq, not_true_eq_false, if_false, outcome.value.injEq] at h
    subst h
    have := Int.tdiv_mul_cancel_of_tmod_eq_zero hm
    simp only [descaled.to_rat]
    rw [← this]
    push_cast
    rw [this]
    ring
  · have ho : oob InRep neg output.significand = some false := by
      rcases hb with hb | hb
      · exact absurd hb hm
      · exact hb
    simp only [hm, ne_eq, not_false_eq_true, if_true, ho] at h
    split at h
    · simp only [outcome.value.injEq] at h
      subst h
      have hd : InRadix ∣ output.significand * OutRadix := Dvd.dvd.mul_left hdvd _
      have := Int.tdiv_mul_cancel hd
      simp only [descaled.to_rat]
      have hq : (((output.significand * OutRadix).tdiv InRadix : Int) : ℚ) * (InRadix : ℚ)
          = (output.significand : ℚ) * (OutRadix : ℚ) := by exact_mod_cast this
      rw [zpow_sub_one₀ hOutq]
      calc ((output.significand * OutRadix).tdiv InRadix : ℚ)
            * ((OutRadix : ℚ) ^ output.exponent * (OutRadix : ℚ)⁻¹) * (InRadix : ℚ)
          = (((output.significand * OutRadix).tdiv InRadix : ℚ) * (InRadix : ℚ))
            * ((OutRadix : ℚ) ^ output.exponent * (OutRadix : ℚ)⁻¹) := by ring
        _ = (output.significand : ℚ) * (OutRadix : ℚ)
            * ((OutRadix : ℚ) ^ output.exponent * (OutRadix : ℚ)⁻¹) := by rw [hq]
        _ = (output.significand : ℚ) * (OutRadix : ℚ) ^ output.exponent := by
            field_simp
            ring
    · exact absurd h (by simp)

theorem negative_loop_exact {OutRep InRep : rep} {OutRadix InRadix : Int} {neg : Bool}
    (hOut : OutRadix ≠ 0) (hdvd : InRadix ∣ OutRadix) :
    ∀ (remaining : Nat) (output result : descaled),
      negative_loop_in_bounds OutRep InRep OutRadix InRadix neg remaining output = true →
      negative_loop OutRep InRep OutRadix InRadix neg remaining output = outcome.value result →
      result.to_rat OutRadix * (InRadix : ℚ) ^ remaining = output.to_rat OutRadix := by
  intro remaining
  induction remaining with
  | zero =>
    intro output result _ h
    simp only [negative_loop, outcome.value.injEq] at h
    subst h
    simp
  | succ n ih =>
    intro output result hb h
    simp only [negative_loop] at h
    simp only [negative_loop_in_bounds, Bool.and_eq_true, Bool.or_eq_true, decide_eq_true_eq] at hb
    obtain ⟨hb1, hb2⟩ := hb
    obtain ⟨next, hstep, h⟩ := outcome.bind_eq_value h
    rw [hstep] at hb2
    simp only at hb2
    have h1 := negative_iteration_exact hOut hdvd hb1 hstep
    have h2 := ih next result hb2 h
    rw [← h1, ← h2, pow_succ]
    ring

theorem positive_iteration_exact {OutRep InRep : rep} {OutRadix InRadix : Int} {neg : Bool}
    {in_exponent next_exponent : Nat} {output next : descaled} (hOut : OutRadix ≠ 0)
    (hpos : 0 < in_exponent)
    (h : positive_iteration OutRep InRep OutRadix InRadix neg in_exponent output
      = outcome.value (next_exponent, next)) :
    next.to_rat OutRadix * (InRadix : ℚ) ^ next_exponent
      = output.to_rat OutRadix * (InRadix : ℚ) ^ in_exponent := by
  have hOutq : (OutRadix : ℚ) ≠ 0 := by exact_mod_cast hOut
  have key : ∀ (k : Nat) (sig : Int),
      (sig : ℚ) * (InRadix : ℚ) ^ k = (output.significand : ℚ) * (InRadix : ℚ) ^ in_exponent →
      (if sig.tmod OutRadix = 0 then
          (outcome.value (k, ⟨sig.tdiv OutRadix, output.exponent + 1⟩) : outcome (Nat × descaled))
        else outcome.value (k, ⟨sig, output.exponent⟩)) = outcome.value (next_exponent, next) →
      next.to_rat OutRadix * (InRadix : ℚ) ^ next_exponent
        = output.to_rat OutRadix * (InRadix : ℚ) ^ in_exponent := by
    intro k sig hk hres
    split at hres
    · rename_i hm
      simp only [outcome.value.injEq, Prod.mk.injEq] at hres
      obtain ⟨rfl, rfl⟩ := hres
      have hq : ((sig.tdiv OutRadix : Int) : ℚ) * (OutRadix : ℚ) = (sig : ℚ) := by
        exact_mod_cast Int.tdiv_mul_cancel_of_tmod_eq_zero hm
      simp only [descaled.to_rat]
      rw [zpow_add_one₀ hOutq]
      calc ((sig.tdiv OutRadix : Int) : ℚ) * ((OutRadix : ℚ) ^ output.exponent * (OutRadix : ℚ))
            * (InRadix : ℚ) ^ k
          = (((sig.tdiv OutRadix : Int) : ℚ) * (OutRadix : ℚ)) * (InRadix : ℚ) ^ k
            * (OutRadix : ℚ) ^ output.exponent := by ring
        _ = (sig : ℚ) * (InRadix : ℚ) ^ k * (OutRadix : ℚ) ^ output.exponent := by rw [hq]
        _ = (output.significand : ℚ) * (OutRadix : ℚ) ^ output.exponent
            * (InRadix : ℚ) ^ in_exponent := by rw [hk]; ring
    · simp only [outcome.value.injEq, Prod.mk.injEq] at hres
      obtain ⟨rfl, rfl⟩ := hres
      simp only [descaled.to_rat]
      calc (sig : ℚ) * (OutRadix : ℚ) ^ output.exponent * (InRadix : ℚ) ^ k
          = (sig : ℚ) * (InRadix : ℚ) ^ k * (OutRadix : ℚ) ^ output.exponent := by ring
        _ = (output.significand : ℚ) * (OutRadix : ℚ) ^ output.exponent
            * (InRadix : ℚ) ^ in_exponent := by rw [hk]; ring
  unfold positive_iteration at h
  obtain ⟨⟨k, sig⟩, hmul, h⟩ := outcome.bind_eq_value h
  simp only at h
  refine key k sig ?_ h
  cases ho : oob InRep neg output.significand with
  | none => rw [ho] at hmul; exact absurd hmul (by simp)
  | some b =>
    rw [ho] at hmul
    cases b with
    | true =>
      by_cases ha : OutRadix.tmod InRadix ≠ 0
      · simp only [] at hmul
        rw [if_pos ha] at hmul
        simp only [outcome.value.injEq, Prod.mk.injEq] at hmul
        obtain ⟨rfl, rfl⟩ := hmul
        rfl
      · simp only [] at hmul
        rw [if_neg ha] at hmul
        exact absurd hmul (by simp)
    | false =>
      by_cases hh : OutRep.holds (output.significand * InRadix) = true
      · simp only [] at hmul
        rw [if_pos hh] at hmul
        simp only [outcome.value.injEq, Prod.mk.injEq] at hmul
        obtain ⟨rfl, rfl⟩ := hmul
        obtain ⟨j, rfl⟩ : ∃ j, in_exponent = j + 1 := ⟨in_exponent - 1, by omega⟩
        simp only [Nat.add_sub_cancel, pow_succ]
        push_cast
        ring
      · simp only [] at hmul
        rw [if_neg hh] at hmul
        exact absurd hmul (by simp)

theorem positive_loop_exact {OutRep InRep : rep} {OutRadix InRadix : Int} {neg : Bool}
    (hOut : OutRadix ≠ 0) :
    ∀ (fuel in_exponent : Nat) (output result : descaled),
      positive_loop OutRep InRep OutRadix InRadix neg fuel in_exponent output
        = outcome.value result →
      result.to_rat OutRadix = output.to_rat OutRadix * (InRadix : ℚ) ^ in_exponent := by
  intro fuel
  induction fuel with
  | zero =>
    intro in_exponent output result h
    cases in_exponent with
    | zero =>
      simp only [positive_loop, outcome.value.injEq] at h
      subst h
      simp
    | succ k => simp [positive_loop] at h
  | succ f ih =>
    intro in_exponent output result h
    cases in_exponent with
    | zero =>
      simp only [positive_loop, outcome.value.injEq] at h
      subst h
      simp
    | succ k =>
      simp only [positive_loop] at h
      obtain ⟨⟨next_exponent, next⟩, hstep, h⟩ := outcome.bind_eq_value h
      simp only at h
      have h1 := positive_iteration_exact hOut (Nat.succ_pos k) hstep
      have h2 := ih next_exponent next result h
      rw [h2, h1]

/-! ## Exactness of `descale` for `InExponent < 0` -/

/-- For `InExponent < 0`, whenever `descale` returns a result while `InRadix`
divides `OutRadix` and no iteration takes the out-of-bounds branch, the result
stands for exactly the input value. -/
theorem descale_negative_exact (OutRep InRep : rep) (OutRadix InRadix InExponent : Int)
    (fuel : Nat) (s : Int) (result : descaled)
    (hIn : 2 ≤ InRadix) (hOut : 2 ≤ OutRadix) (hneg : InExponent < 0)
    (hret : descale OutRep OutRadix InRep InExponent InRadix fuel s = outcome.value result)
    (hdvd : InRadix ∣ OutRadix)
    (hb : descale_in_bounds OutRep OutRadix InRep InExponent InRadix s = true) :
    result.to_rat OutRadix = scaled_value s InExponent InRadix := by
  have hOut0 : OutRadix ≠ 0 := by omega
  have hInq : (InRadix : ℚ) ≠ 0 := by
    have : InRadix ≠ 0 := by omega
    exact_mod_cast this
  unfold descale at hret
  by_cases hh : OutRep.holds s = true
  · rw [if_pos hh] at hret
    simp only [] at hret
    rw [if_pos hneg] at hret
    have := negative_loop_exact hOut0 hdvd _ _ _ hb hret
    simp only [scaled_value]
    have he : InExponent = -(((-InExponent).toNat : Nat) : Int) := by
      rw [Int.toNat_of_nonneg (by omega)]; ring
    rw [he, zpow_neg, zpow_natCast]
    rw [eq_mul_inv_iff_mul_eq₀ (pow_ne_zero _ hInq), this]
    simp [descaled.to_rat]
  · rw [if_neg hh] at hret
    exact absurd hret (by simp)

/-! ## C1: value preservation of `descale` -/

/-- C1 (as stated, refuted): with a 40-digit `OutRep` that no intermediate
overflows, `descale` returns `317 * 10^-1` for `127 * 2^-2 = 31.75` (the second
iteration finds `635` beyond `max(int8)` and divides without multiplying), and
`3 * 10^-1` for `1 * 3^-1`. -/
theorem descale_value_counterexample :
    descale ⟨true, 40⟩ 10 int8 (-2) 2 0 127 = outcome.value ⟨317, -1⟩
    ∧ descaled.to_rat ⟨317, -1⟩ 10 ≠ scaled_value 127 (-2) 2
    ∧ descale ⟨true, 40⟩ 10 int8 (-1) 3 0 1 = outcome.value ⟨3, -1⟩
    ∧ descaled.to_rat ⟨3, -1⟩ 10 ≠ scaled_value 1 (-1) 3 := by
  refine ⟨by decide, ?_, by decide, ?_⟩
  · simp only [descaled.to_rat, scaled_value]
    norm_num
  · simp only [descaled.to_rat, scaled_value]
    norm_num

/-- C1 (amended): for radixes of at least 2, whenever `descale` returns a result
(no intermediate overflows `OutRep`, no assertion fails), the result stands for
exactly the input value `s * InRadix ^ InExponent` if `InExponent ≥ 0`, and if
`InExponent < 0` provided `InRadix` divides `OutRadix` and no iteration takes
the out-of-bounds branch. -/
theorem descale_value_exact (OutRep InRep : rep) (OutRadix InRadix InExponent : Int)
    (fuel : Nat) (s : Int) (result : descaled)
    (hIn : 2 ≤ InRadix) (hOut : 2 ≤ OutRadix)
    (hret : descale OutRep OutRadix InRep InExponent InRadix fuel s = outcome.value result)
    (hcase : 0 ≤ InExponent
      ∨ (InRadix ∣ OutRadix
          ∧ descale_in_bounds OutRep OutRadix InRep InExponent InRadix s = true)) :
    result.to_rat OutRadix = scaled_value s InExponent InRadix := by
  by_cases hneg : InExponent < 0
  · rcases hcase with hc | ⟨hdvd, hb⟩
    · omega
    · exact descale_negative_exact OutRep InRep OutRadix InRadix InExponent fuel s result hIn
        hOut hneg hret hdvd hb
  · have hOut0 : OutRadix ≠ 0 := by omega
    unfold descale at hret
    by_cases hh : OutRep.holds s = true
    · rw [if_pos hh] at hret
      simp only [] at hret
      rw [if_neg hneg] at hret
      by_cases hpos : InExponent > 0
      · rw [if_pos hpos] at hret
        have := positive_loop_exact hOut0 _ _ _ _ hret
        rw [this]
        simp only [scaled_value, descaled.to_rat, zpow_zero, mul_one]
        have he : InExponent = ((InExponent.toNat : Nat) : Int) := by
          rw [Int.toNat_of_nonneg (by omega)]
        rw [he, zpow_natCast, Int.toNat_ofNat]
      · rw [if_neg hpos] at hret
        simp only [outcome.value.injEq] at hret
        subst hret
        have : InExponent = 0 := by omega
        subst this
        simp [descaled.to_rat, scaled_value]
    · rw [if_neg hh] at hret
      exact absurd hret (by simp)

/-- C1 (amended), at `3 * 2^-2 = 0.75`: the result is `75 * 10^-2`. -/
theorem descale_value_exact_witness :
    descale ⟨true, 11⟩ 10 int8 (-2) 2 0 3 = outcome.value ⟨75, -2⟩
    ∧ descaled.to_rat ⟨75, -2⟩ 10 = scaled_value 3 (-2) 2 :=
  ⟨by decide,
    descale_value_exact ⟨true, 11⟩ int8 10 2 (-2) 0 3 ⟨75, -2⟩ (by decide) (by decide)
      (by decide) (Or.inr ⟨by decide, by decide⟩)⟩

/-! ## Capacity of the widened representation -/

theorem used_digits_positive_spec :
    ∀ (fuel value : Nat), value ≤ fuel → value < 2 ^ used_digits_positive fuel value := by
  intro fuel
  induction fuel with
  | zero =>
    intro value h
    have : value = 0 := by omega
    subst this
    simp [used_digits_positive]
  | succ f ih =>
    intro value h
    simp only [used_digits_positive]
    by_cases hv : value = 0
    · simp [hv]
    · rw [if_neg hv]
      have h2 : value / 2 ≤ f := by omega
      have := ih (value / 2) h2
      rw [pow_succ]
      omega

theorem lt_two_pow_used_digits (n : Int) (hn : 0 ≤ n) : n < 2 ^ used_digits n := by
  have h := used_digits_positive_spec n.natAbs n.natAbs le_rfl
  have h2 : ((n.natAbs : Nat) : Int) < ((2 ^ used_digits_positive n.natAbs n.natAbs : Nat) : Int) := by
    exact_mod_cast h
  rw [Int.natAbs_of_nonneg hn] at h2
  simpa [used_digits] using h2

theorem rep_holds_iff (r : rep) (n : Int) : r.holds n = true ↔ r.lowest ≤ n ∧ n ≤ r.max := by
  simp [rep.holds]

/-- A product of a significand within `[-max(Rep), max(Rep)]` (non-negative when
`Rep` is unsigned) and a radix below `2 ^ extra` fits `extra` more digits. -/
theorem holds_mul_of_bounded (Rep : rep) (extra : Nat) (sig radix : Int)
    (hr0 : 0 ≤ radix) (hr : radix < 2 ^ extra)
    (hlo : -Rep.max ≤ sig) (hhi : sig ≤ Rep.max) (hsign : Rep.is_signed = false → 0 ≤ sig) :
    rep.holds ⟨Rep.is_signed, Rep.digits + extra⟩ (sig * radix) = true := by
  rw [rep_holds_iff]
  simp only [rep.max, rep.lowest] at *
  have hp : (0 : Int) < 2 ^ Rep.digits := by positivity
  have hpow : (2 : Int) ^ (Rep.digits + extra) = 2 ^ Rep.digits * 2 ^ extra := pow_add _ _ _
  rw [hpow]
  constructor
  · by_cases hs : Rep.is_signed = true
    · simp only [hs, if_true]
      nlinarith
    · have hs2 : Rep.is_signed = false := by simpa using hs
      simp only [hs2]
      have := hsign hs2
      simp only [Bool.false_eq_true, if_false]
      positivity
  · nlinarith

theorem tdiv_nonpos_of_nonpos {a b : Int} (ha : a ≤ 0) (hb : 0 ≤ b) : a.tdiv b ≤ 0 := by
  have h := Int.tdiv_nonneg (a := -a) (b := b) (by omega) hb
  rw [Int.neg_tdiv] at h
  omega

/-- In the widened representation an iteration of the loop for `InExponent < 0`
returns the next output (no overflow), unless the out-of-bounds assertion fails;
the significand keeps the sign of the input. -/
theorem negative_iteration_widened (Rep : rep) (OutRadix InRadix : Int) (neg : Bool)
    (output : descaled) (hOut : 2 ≤ OutRadix) (hIn : 2 ≤ InRadix)
    (hassert : InRadix.tmod OutRadix ≠ 0)
    (hneg : neg = true → Rep.is_signed = true ∧ output.significand ≤ 0)
    (hpos : neg = false → 0 ≤ output.significand) :
    ∃ next, negative_iteration (promoted_rep Rep OutRadix) Rep OutRadix InRadix neg output
        = outcome.value next
      ∧ (neg = true → next.significand ≤ 0) ∧ (neg = false → 0 ≤ next.significand) := by
  have hmax : (0 : Int) ≤ Rep.max := by
    simp only [rep.max]
    have : (0 : Int) < 2 ^ Rep.digits := by positivity
    omega
  have hdiv : ∀ a : Int, (neg = true → a ≤ 0) → (neg = false → 0 ≤ a) →
      (neg = true → a.tdiv InRadix ≤ 0) ∧ (neg = false → 0 ≤ a.tdiv InRadix) := by
    intro a h1 h2
    exact ⟨fun h => tdiv_nonpos_of_nonpos (h1 h) (by omega),
      fun h => Int.tdiv_nonneg (h2 h) (by omega)⟩
  unfold negative_iteration
  by_cases hm : output.significand.tmod InRadix = 0
  · simp only [hm, ne_eq, not_true_eq_false, if_false]
    exact ⟨_, rfl, hdiv _ (fun h => (hneg h).2) hpos⟩
  · simp only [hm, ne_eq, not_false_eq_true, if_true]
    cases neg with
    | true =>
      obtain ⟨hs, hle⟩ := hneg rfl
      simp only [oob, hs, if_true]
      by_cases ho : output.significand < -Rep.max
      · simp only [ho, decide_True]
        rw [if_pos hassert]
        exact ⟨_, rfl, fun _ => tdiv_nonpos_of_nonpos hle (by omega),
          fun h => absurd h (by simp)⟩
      · simp only [ho, decide_False]
        have hfit := holds_mul_of_bounded Rep (used_digits OutRadix) output.significand OutRadix
          (by omega) (lt_two_pow_used_digits OutRadix (by omega)) (by omega) (by omega)
          (fun h => absurd hs (by simp [h]))
        simp only [promoted_rep, hfit, if_true]
        exact ⟨_, rfl, fun _ => tdiv_nonpos_of_nonpos
          (Int.mul_nonpos_of_nonpos_of_nonneg hle (by omega)) (by omega),
          fun h => absurd h (by simp)⟩
    | false =>
      have h0 := hpos rfl
      simp only [oob, Bool.false_eq_true, if_false]
      by_cases ho : output.significand > Rep.max
      · simp only [ho, decide_True]
        rw [if_pos hassert]
        exact ⟨_, rfl, fun h => absurd h (by simp), fun _ => Int.tdiv_nonneg h0 (by omega)⟩
      · simp only [ho, decide_False]
        have hfit := holds_mul_of_bounded Rep (used_digits OutRadix) output.significand OutRadix
          (by omega) (lt_two_pow_used_digits OutRadix (by omega)) (by omega) (by omega)
          (fun _ => h0)
        simp only [promoted_rep, hfit, if_true]
        exact ⟨_, rfl, fun h => absurd h (by simp),
          fun _ => Int.tdiv_nonneg (Int.mul_nonneg h0 (by omega)) (by omega)⟩

theorem negative_loop_widened (Rep : rep) (OutRadix InRadix : Int) (neg : Bool)
    (hOut : 2 ≤ OutRadix) (hIn : 2 ≤ InRadix) (hassert : InRadix.tmod OutRadix ≠ 0) :
    ∀ (remaining : Nat) (output : descaled),
      (neg = true → Rep.is_signed = true ∧ output.significand ≤ 0) →
      (neg = false → 0 ≤ output.significand) →
      ∃ result, negative_loop (promoted_rep Rep OutRadix) Rep OutRadix InRadix neg remaining
        output = outcome.value result := by
  intro remaining
  induction remaining with
  | zero => intro output _ _; exact ⟨output, rfl⟩
  | succ n ih =>
    intro output hneg hpos
    obtain ⟨next, hstep, h1, h2⟩ :=
      negative_iteration_widened Rep OutRadix InRadix neg output hOut hIn hassert hneg hpos
    simp only [negative_loop, hstep, outcome.bind_value]
    exact ih next (fun h => ⟨(hneg h).1, h1 h⟩) h2

theorem rep_max_nonneg (r : rep) : 0 ≤ r.max := by
  simp only [rep.max]
  have : (0 : Int) < 2 ^ r.digits := by positivity
  omega

theorem rep_lowest_nonpos (r : rep) : r.lowest ≤ 0 := by
  simp only [rep.lowest]
  have : (0 : Int) < 2 ^ r.digits := by positivity
  split <;> omega

/-- The widened representation holds every value of `Rep`. -/
theorem promoted_rep_holds (Rep : rep) (OutRadix : Int) (s : Int) (hs : Rep.holds s = true) :
    (promoted_rep Rep OutRadix).holds s = true := by
  rw [rep_holds_iff] at hs ⊢
  obtain ⟨h1, h2⟩ := hs
  have hle : (2 : Int) ^ Rep.digits ≤ 2 ^ (Rep.digits + used_digits OutRadix) :=
    pow_le_pow_right₀ (by norm_num) (by omega)
  simp only [promoted_rep, rep.max, rep.lowest] at *
  constructor
  · by_cases hsg : Rep.is_signed = true
    · simp only [hsg, if_true] at h1 ⊢
      omega
    · simp only [hsg, if_false] at h1 ⊢
      exact h1
  · omega

theorem descale_widening_of_ne_zero (OutRadix : Int) (Rep : rep) (Exponent Radix : Int)
    (fuel : Nat) (s : Int) (h : Exponent ≠ 0) :
    descale_widening OutRadix Rep Exponent Radix fuel s
      = some (descale (promoted_rep Rep OutRadix) OutRadix Rep Exponent Radix fuel s) := by
  simp [descale_widening, h]

/-- A negative value of a representation makes the representation signed. -/
theorem is_signed_of_holds_neg (Rep : rep) (s : Int) (hs : Rep.holds s = true) (h : s < 0) :
    Rep.is_signed = true := by
  rw [rep_holds_iff] at hs
  by_contra hc
  simp only [rep.lowest, hc] at hs
  simp at hs
  omega

/-! ## C2: binary to decimal through the widening overload -/

/-- C2 (as stated, refuted): `descale<10>` of the `int8` scaled integer
`127 * 2^-2 = 31.75` returns `317 * 10^-1 = 31.7`. -/
theorem descale_widening_binary_to_decimal_counterexample :
    descale_widening 10 int8 (-2) 2 0 127 = some (outcome.value ⟨317, -1⟩)
    ∧ descaled.to_rat ⟨317, -1⟩ 10 ≠ scaled_value 127 (-2) 2 := by
  refine ⟨by decide, ?_⟩
  simp only [descaled.to_rat, scaled_value]
  norm_num

/-- C2 (amended): binary to decimal with `InExponent = -N`, `N > 0`, through the
widening overload returns a result for every significand `s` of `Rep`; the
result equals `s * 2^(-N)` exactly when no iteration takes the out-of-bounds
branch, which is the case for every `s` when `N = 1` and `Rep` has a value bit. -/
theorem descale_widening_binary_to_decimal (Rep : rep) (N fuel : Nat) (s : Int)
    (hN : 0 < N) (hs : Rep.holds s = true) :
    ∃ result, descale_widening 10 Rep (-(N : Int)) 2 fuel s = some (outcome.value result)
      ∧ (descale_in_bounds (promoted_rep Rep 10) 10 Rep (-(N : Int)) 2 s = true →
          result.to_rat 10 = scaled_value s (-(N : Int)) 2)
      ∧ (N = 1 → 1 ≤ Rep.digits → result.to_rat 10 = scaled_value s (-1) 2) := by
  have hne : (-(N : Int)) ≠ 0 := by omega
  have hret : ∃ result, descale (promoted_rep Rep 10) 10 Rep (-(N : Int)) 2 fuel s
      = outcome.value result := by
    unfold descale
    rw [if_pos (promoted_rep_holds Rep 10 s hs)]
    simp only []
    rw [if_pos (by omega)]
    apply negative_loop_widened Rep 10 2 _ (by norm_num) (by norm_num) (by decide)
    · intro h
      have hlt : s < 0 := by simpa using h
      exact ⟨is_signed_of_holds_neg Rep s hs hlt, le_of_lt hlt⟩
    · intro h
      simpa using h
  obtain ⟨result, hres⟩ := hret
  refine ⟨result, ?_, ?_, ?_⟩
  · rw [descale_widening_of_ne_zero _ _ _ _ _ _ hne, hres]
  · intro hb
    exact descale_negative_exact _ _ _ _ _ _ _ _ (by norm_num) (by norm_num) (by omega) hres
      (by norm_num) hb
  · intro h1 hd
    subst h1
    refine descale_negative_exact _ _ _ _ _ _ _ _ (by norm_num) (by norm_num) (by norm_num)
      hres (by norm_num) ?_
    rw [rep_holds_iff] at hs
    obtain ⟨hlo, hhi⟩ := hs
    simp only [descale_in_bounds, Nat.cast_one, neg_neg, Int.toNat_one, negative_loop_in_bounds,
      Bool.and_eq_true, Bool.or_eq_true, decide_eq_true_eq]
    constructor
    · by_cases hm : s.tmod 2 = 0
      · exact Or.inl hm
      · right
        by_cases hneg : s < 0
        · have hsg := is_signed_of_holds_neg Rep s ((rep_holds_iff Rep s).2 ⟨hlo, hhi⟩) hneg
          simp only [oob, hneg, decide_True, if_true, hsg, Option.some.injEq, decide_eq_false_iff_not,
            not_lt]
          simp only [rep.lowest, hsg, if_true, rep.max] at hlo ⊢
          by_contra hc
          have : s = -(2 ^ Rep.digits) := by omega
          rw [this] at hm
          exact hm (Int.tmod_eq_zero_of_dvd (Dvd.dvd.neg_right (dvd_pow_self 2 (by omega))))
        · simp only [oob, hneg, decide_False, Bool.false_eq_true, if_false, Option.some.injEq,
            decide_eq_false_iff_not, not_lt]
          exact hhi
    · split <;> rfl

/-- C2 (amended), at the `int8` value `-77 * 2^-1`: the result is `-385 * 10^-1`. -/
theorem descale_widening_binary_to_decimal_witness :
    ∃ result, descale_widening 10 int8 (-((1 : Nat) : Int)) 2 0 (-77)
        = some (outcome.value result)
      ∧ (descale_in_bounds (promoted_rep int8 10) 10 int8 (-((1 : Nat) : Int)) 2 (-77) = true →
          result.to_rat 10 = scaled_value (-77) (-((1 : Nat) : Int)) 2)
      ∧ (1 = 1 → 1 ≤ int8.digits → result.to_rat 10 = scaled_value (-77) (-1) 2) :=
  descale_widening_binary_to_decimal int8 1 0 (-77) (by decide) (by decide)

/-! ## C3: radix-preserving conversions -/

/-- A significand between `0` and the input `s` is within the bounds of `InRep`
when `s` is. -/
theorem oob_false_of_between (InRep : rep) (s sig : Int) (hs : InRep.holds s = true)
    (hsym : -InRep.max ≤ s) (hbetween : (0 ≤ sig ∧ sig ≤ s) ∨ (s ≤ sig ∧ sig ≤ 0)) :
    oob InRep (decide (s < 0)) sig = some false := by
  have hmax := rep_max_nonneg InRep
  have hs2 := (rep_holds_iff InRep s).1 hs
  by_cases hneg : s < 0
  · have hsg := is_signed_of_holds_neg InRep s hs hneg
    simp only [oob, hneg, decide_True, if_true, hsg, Option.some.injEq, decide_eq_false_iff_not,
      not_lt]
    omega
  · simp only [oob, hneg, decide_False, Bool.false_eq_true, if_false, Option.some.injEq,
      decide_eq_false_iff_not, not_lt]
    omega

/-- A product with the radix fits `OutRep` for a significand between `0` and `s`
when `s * R` fits. -/
theorem holds_mul_of_between (OutRep : rep) (R s sig : Int) (hR : 2 ≤ R)
    (hfit : OutRep.holds (s * R) = true)
    (hbetween : (0 ≤ sig ∧ sig ≤ s) ∨ (s ≤ sig ∧ sig ≤ 0)) :
    OutRep.holds (sig * R) = true := by
  have hmax := rep_max_nonneg OutRep
  have hlow := rep_lowest_nonpos OutRep
  rw [rep_holds_iff] at hfit ⊢
  obtain ⟨h1, h2⟩ := hfit
  rcases hbetween with ⟨ha, hb⟩ | ⟨ha, hb⟩
  · constructor <;> nlinarith
  · constructor <;> nlinarith

/-- One iteration of the loop for `InExponent < 0` with equal radixes either
divides a radix factor out of the significand or leaves the significand and
decrements the exponent. -/
theorem negative_iteration_same_radix (OutRep InRep : rep) (R : Int) (neg : Bool)
    (output : descaled) (hR : 2 ≤ R)
    (hoob : oob InRep neg output.significand = some false)
    (hfit : OutRep.holds (output.significand * R) = true) :
    ∃ next, negative_iteration OutRep InRep R R neg output = outcome.value next
      ∧ ((next.significand * R = output.significand ∧ next.exponent = output.exponent)
        ∨ (next.significand = output.significand ∧ next.exponent = output.exponent - 1
            ∧ output.significand.tmod R ≠ 0)) := by
  unfold negative_iteration
  by_cases hm : output.significand.tmod R = 0
  · simp only [hm, ne_eq, not_true_eq_false, if_false]
    exact ⟨_, rfl, Or.inl ⟨Int.tdiv_mul_cancel_of_tmod_eq_zero hm, rfl⟩⟩
  · simp only [hm, ne_eq, not_false_eq_true, if_true, hoob, hfit]
    exact ⟨_, rfl, Or.inr ⟨Int.mul_tdiv_cancel _ (by omega), rfl, trivial⟩⟩

theorem negative_loop_same_radix (OutRep InRep : rep) (R s : Int) (hR : 2 ≤ R)
    (hs : InRep.holds s = true) (hsym : -InRep.max ≤ s)
    (hfit : OutRep.holds (s * R) = true) :
    ∀ (remaining : Nat) (output : descaled),
      ((0 ≤ output.significand ∧ output.significand ≤ s)
        ∨ (s ≤ output.significand ∧ output.significand ≤ 0)) →
      ∃ result, negative_loop OutRep InRep R R (decide (s < 0)) remaining output
          = outcome.value result
        ∧ output.exponent - remaining ≤ result.exponent
        ∧ result.exponent ≤ output.exponent
        ∧ result.significand * R ^ (result.exponent - (output.exponent - remaining)).toNat
            = output.significand
        ∧ (¬ R ∣ output.significand →
            result = ⟨output.significand, output.exponent - remaining⟩) := by
  intro remaining
  induction remaining with
  | zero =>
    intro output _
    refine ⟨output, rfl, by simp, by simp, by simp, fun _ => by simp⟩
  | succ n ih =>
    intro output hbetween
    obtain ⟨next, hstep, hcases⟩ := negative_iteration_same_radix OutRep InRep R _ output hR
      (oob_false_of_between InRep s _ hs hsym hbetween)
      (holds_mul_of_between OutRep R s _ hR hfit hbetween)
    have hnext : (0 ≤ next.significand ∧ next.significand ≤ s)
        ∨ (s ≤ next.significand ∧ next.significand ≤ 0) := by
      rcases hcases with ⟨h1, _⟩ | ⟨h1, _⟩
      · rcases hbetween with ⟨ha, hb⟩ | ⟨ha, hb⟩
        · left; constructor <;> nlinarith
        · right; constructor <;> nlinarith
      · rw [h1]; exact hbetween
    obtain ⟨result, hres, hlo, hhi, hval, hnd⟩ := ih next hnext
    simp only [negative_loop, hstep, outcome.bind_value]
    refine ⟨result, hres, ?_, ?_, ?_, ?_⟩
    · rcases hcases with ⟨_, h2⟩ | ⟨_, h2, _⟩ <;> push_cast <;> omega
    · rcases hcases with ⟨_, h2⟩ | ⟨_, h2, _⟩ <;> omega
    · rcases hcases with ⟨h1, h2⟩ | ⟨h1, h2, _⟩
      · have he : (result.exponent - (output.exponent - ((n + 1 : Nat) : Int))).toNat
            = (result.exponent - (next.exponent - (n : Int))).toNat + 1 := by
          push_cast
          omega
        rw [he, pow_succ, ← mul_assoc, hval, h1]
      · have he : (result.exponent - (output.exponent - ((n + 1 : Nat) : Int))).toNat
            = (result.exponent - (next.exponent - (n : Int))).toNat := by
          push_cast
          rw [h2]
          congr 1
          ring
        rw [he, hval, h1]
    · intro hndvd
      rcases hcases with ⟨h1, _⟩ | ⟨h1, h2, _⟩
      · exact absurd (Dvd.intro_left _ h1) hndvd
      · rw [hnd (by rw [h1]; exact hndvd), h1, h2]
        push_cast
        congr 1
        ring

/-- One iteration of the loop for `InExponent > 0` with equal radixes multiplies
and divides the significand by the radix: the significand is kept, the counter
goes down and the exponent up. -/
theorem positive_iteration_same_radix (OutRep InRep : rep) (R : Int) (neg : Bool)
    (in_exponent : Nat) (output : descaled) (hR : 2 ≤ R)
    (hoob : oob InRep neg output.significand = some false)
    (hfit : OutRep.holds (output.significand * R) = true) :
    positive_iteration OutRep InRep R R neg in_exponent output
      = outcome.value (in_exponent - 1, ⟨output.significand, output.exponent + 1⟩) := by
  have hR0 : R ≠ 0 := by omega
  simp only [positive_iteration, hoob, hfit, if_true, outcome.bind_value, Int.mul_tmod_left,
    Int.mul_tdiv_cancel _ hR0]

theorem positive_loop_same_radix (OutRep InRep : rep) (R s : Int) (neg : Bool) (hR : 2 ≤ R)
    (hoob : oob InRep neg s = some false) (hfit : OutRep.holds (s * R) = true) :
    ∀ (fuel in_exponent : Nat) (exponent : Int), in_exponent ≤ fuel →
      positive_loop OutRep InRep R R neg fuel in_exponent ⟨s, exponent⟩
        = outcome.value ⟨s, exponent + in_exponent⟩ := by
  intro fuel
  induction fuel with
  | zero =>
    intro in_exponent exponent h
    have : in_exponent = 0 := by omega
    subst this
    simp [positive_loop]
  | succ f ih =>
    intro in_exponent exponent h
    cases in_exponent with
    | zero => simp [positive_loop]
    | succ k =>
      simp only [positive_loop]
      rw [positive_iteration_same_radix OutRep InRep R neg (k + 1) ⟨s, exponent⟩ hR hoob hfit]
      simp only [Nat.add_sub_cancel, outcome.bind_value]
      rw [ih k (exponent + 1) (by omega)]
      push_cast
      congr 2
      ring

/-- C3 (as stated, refuted): with `InRadix = OutRadix = 2` and `OutRep = InRep =
int8`, `4 * 2^-1` is returned as `2 * 2^0`, not `4 * 2^-1`; `127 * 2^-1` needs
the product `254`, which `int8` does not hold; and with radix 10 the input
`-128 * 10^-1` fails the assertion. -/
theorem descale_same_radix_counterexample :
    descale int8 2 int8 (-1) 2 0 4 = outcome.value ⟨2, 0⟩
    ∧ (⟨2, 0⟩ : descaled) ≠ ⟨4, -1⟩
    ∧ descale int8 2 int8 (-1) 2 0 127 = outcome.overflow
    ∧ descale int16 10 int8 (-1) 10 0 (-128) = outcome.assert_failure := by
  decide

/-- C3 (amended): for `InRadix = OutRadix = R ≥ 2`, a significand `s` of `InRep`
other than the minimum of a signed `InRep`, and an `OutRep` that holds `s * R`:
for `InExponent ≥ 0` `descale` returns `s` with exponent `InExponent`; for
`InExponent < 0` it returns the same value with factors of `R` divided out of
the significand, `significand * R ^ (exponent - InExponent) = s` with
`InExponent ≤ exponent ≤ 0`, which is `s` with exponent `InExponent` when `R`
does not divide `s`. -/
theorem descale_same_radix (OutRep InRep : rep) (R InExponent : Int) (fuel : Nat) (s : Int)
    (hR : 2 ≤ R) (hs : InRep.holds s = true) (hsym : -InRep.max ≤ s)
    (hfit : OutRep.holds (s * R) = true) (hfuel : InExponent.toNat ≤ fuel) :
    (0 ≤ InExponent →
      descale OutRep R InRep InExponent R fuel s = outcome.value ⟨s, InExponent⟩)
    ∧ (InExponent < 0 →
      ∃ result, descale OutRep R InRep InExponent R fuel s = outcome.value result
        ∧ InExponent ≤ result.exponent ∧ result.exponent ≤ 0
        ∧ result.significand * R ^ (result.exponent - InExponent).toNat = s
        ∧ (¬ R ∣ s → result = ⟨s, InExponent⟩)) := by
  have hbetween : (0 ≤ s ∧ s ≤ s) ∨ (s ≤ s ∧ s ≤ 0) := by
    by_cases h : 0 ≤ s
    · exact Or.inl ⟨h, le_rfl⟩
    · exact Or.inr ⟨le_rfl, by omega⟩
  have hholds : OutRep.holds s = true := by
    have hmax := rep_max_nonneg OutRep
    have hlow := rep_lowest_nonpos OutRep
    rw [rep_holds_iff] at hfit ⊢
    obtain ⟨h1, h2⟩ := hfit
    constructor <;> nlinarith
  have hoob := oob_false_of_between InRep s s hs hsym hbetween
  constructor
  · intro h0
    unfold descale
    rw [if_pos hholds]
    simp only []
    rw [if_neg (by omega)]
    by_cases hpos : InExponent > 0
    · rw [if_pos hpos, positive_loop_same_radix OutRep InRep R s _ hR hoob hfit _ _ _ hfuel]
      rw [Int.toNat_of_nonneg h0, zero_add]
    · rw [if_neg hpos]
      have : InExponent = 0 := by omega
      rw [this]
  · intro hneg
    obtain ⟨result, hres, hlo, hhi, hval, hnd⟩ :=
      negative_loop_same_radix OutRep InRep R s hR hs hsym hfit (-InExponent).toNat ⟨s, 0⟩
        hbetween
    have he : (((-InExponent).toNat : Nat) : Int) = -InExponent :=
      Int.toNat_of_nonneg (by omega)
    simp only [he, zero_sub, neg_neg] at hlo hval hnd
    refine ⟨result, ?_, hlo, hhi, hval, hnd⟩
    unfold descale
    rw [if_pos hholds]
    simp only []
    rw [if_pos hneg]
    exact hres

/-- C3 (amended), at the `int8` significand `12` with radix 2 and exponent `-3`:
the result is `3 * 2^-1`, and `3 * 2^2 = 12`. -/
theorem descale_same_radix_witness :
    (0 ≤ (-3 : Int) →
      descale int16 2 int8 (-3) 2 0 12 = outcome.value ⟨12, -3⟩)
    ∧ ((-3 : Int) < 0 →
      ∃ result, descale int16 2 int8 (-3) 2 0 12 = outcome.value result
        ∧ -3 ≤ result.exponent ∧ result.exponent ≤ 0
        ∧ result.significand * 2 ^ (result.exponent - (-3)).toNat = 12
        ∧ (¬ (2 : Int) ∣ 12 → result = ⟨12, -3⟩)) :=
  descale_same_radix int16 int8 2 (-3) 0 12 (by decide) (by decide) (by decide) (by decide)
    (by decide)

/-! ## C4: `InExponent == 0` -/

/-- C4 (the code at the failing input): with exponent `0` the widening overload
is ill-formed for every representation, significand and radixes, so it returns
nothing, `descale<10>` of an `int8` scaled integer of exponent 0 included; the
five-parameter `descale` returns `(s, 0)` for every significand `s` that
`OutRep` holds and all radixes, and no loop iteration runs, the result being
returned whatever number of iterations `fuel` allows, `0` included. -/
theorem descale_zero_exponent (OutRep InRep Rep : rep) (OutRadix InRadix : Int) (fuel : Nat)
    (s : Int) :
    descale_widening OutRadix Rep 0 InRadix fuel s = none
    ∧ (OutRep.holds s = true →
        descale OutRep OutRadix InRep 0 InRadix fuel s = outcome.value ⟨s, 0⟩
        ∧ descale_unchecked OutRep OutRadix InRep 0 InRadix fuel s = outcome.value ⟨s, 0⟩) := by
  refine ⟨?_, ?_⟩
  · simp [descale_widening]
  · intro h
    simp [descale, descale_unchecked, h]

/-- C4, at the `int8` significand `-128` with radixes 2 and 10 and no iteration
allowed. -/
theorem descale_zero_exponent_witness :
    descale_widening 10 int8 0 2 0 (-128) = none
    ∧ descale int8 10 int8 0 2 0 (-128) = outcome.value ⟨-128, 0⟩
    ∧ descale_unchecked int8 10 int8 0 2 0 (-128) = outcome.value ⟨-128, 0⟩ :=
  ⟨(descale_zero_exponent int8 int8 int8 10 2 0 (-128)).1,
    (descale_zero_exponent int8 int8 int8 10 2 0 (-128)).2 (by decide)⟩

/-! ## C5: the losslessness assertions -/

/-- C5 (the code at the failing input): `descale<10>` of the `int8` scaled
integer `127 * 2^2` fails `CNL_ASSERT(might_be_oob)` in the loop for
`InExponent > 0`: the first iteration gives `254`, which the second finds beyond
`max(int8)` while `10 % 2 == 0`. The same happens in the other loop for
`-128 * 10^-1` converted to radix 2. -/
theorem descale_widening_assert_failure (fuel : Nat) :
    descale_widening 10 int8 2 2 (fuel + 2) 127 = some outcome.assert_failure
    ∧ descale_widening 2 int8 (-1) 10 fuel (-128) = some outcome.assert_failure := by
  constructor
  · rfl
  · rfl

/-! ## C6: capacity of the widened representation -/

/-- C6 (the code at the failing input): `descale<2>` of the `int8` scaled integer
`127 * 1000000000^1` multiplies `127` by `InRadix`; the product is not a value of
the widened representation of `7 + used_digits(2) = 9` digits, nor of 31 digits.
Already `127 * 10^1` gives `1270`, beyond 9 digits. -/
theorem descale_widening_overflow (fuel : Nat) :
    descale_widening 2 int8 1 1000000000 (fuel + 1) 127 = some outcome.overflow
    ∧ promoted_rep int8 2 = ⟨true, 9⟩
    ∧ (promoted_rep int8 2).holds (127 * 1000000000) = false
    ∧ int32.holds (127 * 1000000000) = false
    ∧ descale_widening 2 int8 1 10 (fuel + 1) 127 = some outcome.overflow := by
  refine ⟨?_, by decide, by decide, by decide, ?_⟩
  · rfl
  · rfl

/-! ## Conversions of a representation -/

theorem wrap_holds (R : rep) (v : Int) : R.holds (wrap R v) = true := by
  rw [rep_holds_iff]
  have hp : (0 : Int) < 2 ^ R.digits := by positivity
  by_cases hs : R.is_signed = true
  · simp only [wrap, hs, if_true, rep.lowest, rep.max]
    have hM : (2 : Int) ^ (R.digits + 1) = 2 ^ R.digits * 2 := pow_succ _ _
    have h1 := Int.emod_nonneg (v + 2 ^ R.digits) (b := 2 ^ (R.digits + 1)) (by positivity)
    have h2 := Int.emod_lt_of_pos (v + 2 ^ R.digits) (b := 2 ^ (R.digits + 1)) (by positivity)
    constructor <;> omega
  · simp only [wrap, hs, if_false, rep.lowest, rep.max, Bool.false_eq_true]
    have h1 := Int.emod_nonneg v (b := 2 ^ R.digits) (by positivity)
    have h2 := Int.emod_lt_of_pos v (b := 2 ^ R.digits) hp
    constructor <;> omega

theorem wrap_congruent (R : rep) (v : Int) : (2 : Int) ^ R.width ∣ wrap R v - v := by
  by_cases hs : R.is_signed = true
  · simp only [wrap, rep.width, hs, if_true]
    have h := Int.emod_add_ediv (v + 2 ^ R.digits) (2 ^ (R.digits + 1))
    exact ⟨-((v + 2 ^ R.digits) / 2 ^ (R.digits + 1)), by linarith⟩
  · simp only [wrap, rep.width, hs, if_false, Bool.false_eq_true, add_zero]
    have h := Int.emod_add_ediv v (2 ^ R.digits)
    exact ⟨-(v / 2 ^ R.digits), by linarith⟩

/-- Two values of a representation congruent modulo `2 ^ width` are equal. -/
theorem eq_of_holds_of_congruent (R : rep) (a b : Int) (ha : R.holds a = true)
    (hb : R.holds b = true) (h : (2 : Int) ^ R.width ∣ a - b) : a = b := by
  rw [rep_holds_iff] at ha hb
  have hp : (0 : Int) < 2 ^ R.digits := by positivity
  have hlt : |a - b| < 2 ^ R.width := by
    rw [abs_lt]
    by_cases hs : R.is_signed = true
    · simp only [rep.lowest, rep.max, rep.width, hs, if_true] at *
      have hM : (2 : Int) ^ (R.digits + 1) = 2 ^ R.digits * 2 := pow_succ _ _
      constructor <;> omega
    · simp only [rep.lowest, rep.max, rep.width, hs, if_false, Bool.false_eq_true,
        add_zero] at *
      constructor <;> omega
  have := Int.eq_zero_of_abs_lt_dvd h hlt
  omega

/-- Converting a value of the representation leaves it unchanged. -/
theorem wrap_of_holds (R : rep) (v : Int) (h : R.holds v = true) : wrap R v = v :=
  eq_of_holds_of_congruent R _ _ (wrap_holds R v) h (wrap_congruent R v)

/-! ## C7, C8: the saturating policy -/

/-- C7: under the saturating policy `convert<R>(v)` is `clamp(v, min(R), max(R))`
for every destination representation `R` and every integer source value `v`. -/
theorem convert_saturated_eq_clamp (R : rep) (v : Int) :
    convert saturated_overflow_tag R v = outcome.value (clamp v R.lowest R.max) := by
  simp only [convert, clamp, overflow_operator, gt_iff_lt]
  by_cases h1 : R.max < v
  · simp only [h1, if_true]
  · by_cases h2 : v < R.lowest
    · simp only [h1, h2, if_true, if_false]
    · simp only [h1, h2, if_false]
      rw [wrap_of_holds R v ((rep_holds_iff R v).2 ⟨by omega, by omega⟩)]

/-- The integer conversions of the saturating tests: `259` to `uint8`, `-123` to
`uint16`, `55` to `int32`. -/
theorem convert_saturated_tests :
    convert saturated_overflow_tag uint8 259 = outcome.value 255
    ∧ convert saturated_overflow_tag uint16 (-123) = outcome.value 0
    ∧ convert saturated_overflow_tag int32 55 = outcome.value 55 := by
  decide

/-- C8: under the saturating policy the result of add, subtract, multiply and
shift_left (with a shift count that is not negative) is the exact result over
the integers clamped to the natural result type of the operator. -/
theorem apply_operator_saturated_eq_clamp (op : binary_op) (Lhs Rhs : rep) (lhs rhs : Int)
    (_hshift : op = shift_left_op → 0 ≤ rhs) :
    apply_operator saturated_overflow_tag op Lhs Rhs lhs rhs
      = outcome.value (clamp (op.exact lhs rhs) (op_result op Lhs Rhs).lowest
          (op_result op Lhs Rhs).max) := by
  simp only [apply_operator, clamp, overflow_operator, gt_iff_lt]
  by_cases h1 : (op_result op Lhs Rhs).max < op.exact lhs rhs
  · simp only [h1, if_true]
  · by_cases h2 : op.exact lhs rhs < (op_result op Lhs Rhs).lowest
    · simp only [h1, h2, if_true, if_false]
    · simp only [h1, h2, if_false]
      rw [wrap_of_holds _ _ ((rep_holds_iff _ _).2 ⟨by omega, by omega⟩)]

/-- C8, at `shift_left` of the `uint8` value `255` by `30`: the result is the
maximum of `int`. -/
theorem apply_operator_saturated_eq_clamp_witness :
    apply_operator saturated_overflow_tag shift_left_op uint8 uint32 255 30
      = outcome.value (clamp (shift_left_op.exact 255 30)
          (op_result shift_left_op uint8 uint32).lowest
          (op_result shift_left_op uint8 uint32).max)
    ∧ clamp (shift_left_op.exact 255 30) (op_result shift_left_op uint8 uint32).lowest
          (op_result shift_left_op uint8 uint32).max = int32.max :=
  ⟨apply_operator_saturated_eq_clamp shift_left_op uint8 uint32 255 30 (fun _ => by decide),
    by decide⟩

/-- The operators of the saturating tests. -/
theorem apply_operator_saturated_tests :
    apply_operator saturated_overflow_tag add_op int32 uint32 7 23 = outcome.value 30
    ∧ apply_operator saturated_overflow_tag add_op uint32 int32 0xFFFFFFFF 0x12345678
        = outcome.value uint32.max
    ∧ apply_operator saturated_overflow_tag add_op int32 uint32 2 uint32.max
        = outcome.value uint32.max
    ∧ apply_operator saturated_overflow_tag subtract_op int8 int8 0 0 = outcome.value 0
    ∧ apply_operator saturated_overflow_tag subtract_op uint32 int32 0 (-1) = outcome.value 1
    ∧ apply_operator saturated_overflow_tag subtract_op int32 int32 0 int32.lowest
        = outcome.value int32.max
    ∧ apply_operator saturated_overflow_tag multiply_op uint16 int32 576 22
        = outcome.value 12672
    ∧ apply_operator saturated_overflow_tag multiply_op int32 int32 int32.max 2
        = outcome.value int32.max
    ∧ apply_operator saturated_overflow_tag shift_left_op int16 int32 int16.max 1
        = outcome.value 65534
    ∧ apply_operator saturated_overflow_tag shift_left_op int32 int32 int32.max 1
        = outcome.value int32.max
    ∧ apply_operator saturated_overflow_tag shift_left_op uint8 uint32 255 30
        = outcome.value int32.max := by
  decide

/-! ## C9: the native policy -/

/-- C9: under the native policy `convert<R>(v)` is, for every destination
representation `R` of width `w` and every integer `v`, the one value of `R`
congruent to `v` modulo `2 ^ w`. -/
theorem convert_native_wraps (R : rep) (v : Int) :
    ∃ r, convert native_overflow_tag R v = outcome.value r
      ∧ R.holds r = true
      ∧ (2 : Int) ^ R.width ∣ r - v
      ∧ ∀ r', R.holds r' = true → (2 : Int) ^ R.width ∣ r' - v → r' = r := by
  refine ⟨wrap R v, rfl, wrap_holds R v, wrap_congruent R v, ?_⟩
  intro r' h1 h2
  apply eq_of_holds_of_congruent R _ _ h1 (wrap_holds R v)
  have := Int.dvd_sub h2 (wrap_congruent R v)
  simpa using this

/-- The conversions of the native tests: `259` to `uint8`, `-123` to `uint16`,
`55` to `int32`. -/
theorem convert_native_tests :
    convert native_overflow_tag uint8 259 = outcome.value 3
    ∧ convert native_overflow_tag uint16 (-123) = outcome.value 65413
    ∧ convert native_overflow_tag int32 55 = outcome.value 55 := by
  decide

/-! ## C10: the trapping policy -/

/-- C10: the handlers of the trapping policy return no value: the positive one
terminates with "positive overflow", the negative one with "negative overflow";
an operator whose exact result is above the maximum of its result type, or a
conversion of a source above the maximum of the destination, terminates with
"positive overflow", and below the minimum with "negative overflow". -/
theorem trapping_terminates (op : binary_op) (Lhs Rhs Destination : rep)
    (lhs rhs source : Int) :
    (trapping_overflow_operator positive = (terminate "positive overflow" : outcome Int)
      ∧ trapping_overflow_operator negative = (terminate "negative overflow" : outcome Int))
    ∧ (∀ (p : polarity) (R : rep) (x r : Int),
        overflow_operator trapping_overflow_tag p R x ≠ outcome.value r)
    ∧ ((op_result op Lhs Rhs).max < op.exact lhs rhs →
        apply_operator trapping_overflow_tag op Lhs Rhs lhs rhs
          = outcome.terminated "positive overflow")
    ∧ (op.exact lhs rhs < (op_result op Lhs Rhs).lowest →
        apply_operator trapping_overflow_tag op Lhs Rhs lhs rhs
          = outcome.terminated "negative overflow")
    ∧ (Destination.max < source →
        convert trapping_overflow_tag Destination source
          = outcome.terminated "positive overflow")
    ∧ (source < Destination.lowest →
        convert trapping_overflow_tag Destination source
          = outcome.terminated "negative overflow") := by
  have hmax := rep_max_nonneg
  have hlow := rep_lowest_nonpos
  refine ⟨⟨rfl, rfl⟩, ?_, ?_, ?_, ?_, ?_⟩
  · intro p R x r
    cases p <;> simp [overflow_operator, trapping_overflow_operator, terminate]
  · intro h
    simp [apply_operator, overflow_operator, trapping_overflow_operator, terminate, h]
  · intro h
    have h' : ¬ (op_result op Lhs Rhs).max < op.exact lhs rhs := by
      have := hmax (op_result op Lhs Rhs)
      have := hlow (op_result op Lhs Rhs)
      omega
    simp [apply_operator, overflow_operator, trapping_overflow_operator, terminate, h, h']
  · intro h
    simp [convert, overflow_operator, trapping_overflow_operator, terminate, h]
  · intro h
    have h' : ¬ Destination.max < source := by
      have := hmax Destination
      have := hlow Destination
      omega
    simp [convert, overflow_operator, trapping_overflow_operator, terminate, h, h']

/-- C10, at the death test `shift_left<trapping_overflow_tag>(-1073741825, 1)`:
the exact result `-2147483650` is below the minimum of `int`. -/
theorem trapping_terminates_witness :
    shift_left_op.exact (-1073741825) 1 < (op_result shift_left_op int32 int32).lowest
    ∧ apply_operator trapping_overflow_tag shift_left_op int32 int32 (-1073741825) 1
        = outcome.terminated "negative overflow" :=
  ⟨by decide,
    (trapping_terminates shift_left_op int32 int32 int32 (-1073741825) 1 0).2.2.2.1
      (by decide)⟩

/-! ## C11: results that fit -/

/-- C11: for add, subtract and multiply, when the exact result over the integers
is a value of the natural result type of the operator, the native, the throwing
and the saturating policy all return that exact result. -/
theorem apply_operator_exact_of_fits (op : binary_op) (Lhs Rhs : rep) (lhs rhs : Int)
    (_hop : op = add_op ∨ op = subtract_op ∨ op = multiply_op)
    (hfits : (op_result op Lhs Rhs).holds (op.exact lhs rhs) = true) :
    apply_operator native_overflow_tag op Lhs Rhs lhs rhs = outcome.value (op.exact lhs rhs)
    ∧ apply_operator throwing_overflow_tag op Lhs Rhs lhs rhs
        = outcome.value (op.exact lhs rhs)
    ∧ apply_operator saturated_overflow_tag op Lhs Rhs lhs rhs
        = outcome.value (op.exact lhs rhs) := by
  have hw := wrap_of_holds _ _ hfits
  obtain ⟨h1, h2⟩ := (rep_holds_iff _ _).1 hfits
  have hmax : ¬ (op_result op Lhs Rhs).max < op.exact lhs rhs := by omega
  have hlow : ¬ op.exact lhs rhs < (op_result op Lhs Rhs).lowest := by omega
  refine ⟨?_, ?_, ?_⟩
  · simp only [apply_operator, hw]
  · simp only [apply_operator, gt_iff_lt, hmax, hlow, if_false, hw]
  · simp only [apply_operator, gt_iff_lt, hmax, hlow, if_false, hw]

/-- C11, at `multiply(uint16 576, int32 22)`: `12672` under the three policies. -/
theorem apply_operator_exact_of_fits_witness :
    (op_result multiply_op uint16 int32).holds (multiply_op.exact 576 22) = true
    ∧ apply_operator native_overflow_tag multiply_op uint16 int32 576 22
        = outcome.value (multiply_op.exact 576 22)
    ∧ apply_operator throwing_overflow_tag multiply_op uint16 int32 576 22
        = outcome.value (multiply_op.exact 576 22)
    ∧ apply_operator saturated_overflow_tag multiply_op uint16 int32 576 22
        = outcome.value (multiply_op.exact 576 22) :=
  ⟨by decide,
    apply_operator_exact_of_fits multiply_op uint16 int32 576 22 (Or.inr (Or.inr rfl))
      (by decide)⟩

/-- The operators of the native and of the throwing tests. -/
theorem apply_operator_native_throwing_tests :
    apply_operator native_overflow_tag add_op uint32 uint32 0xFFFFFFFF 0x12345678
      = outcome.value ((0xFFFFFFFF + 0x12345678) % 2 ^ 32)
    ∧ apply_operator native_overflow_tag subtract_op int8 int8 0 0 = outcome.value 0
    ∧ apply_operator native_overflow_tag multiply_op uint16 int32 576 22 = outcome.value 12672
    ∧ apply_operator throwing_overflow_tag subtract_op int8 int8 0 0 = outcome.value 0
    ∧ apply_operator throwing_overflow_tag multiply_op uint16 int32 576 22
        = outcome.value 12672
    ∧ op_result subtract_op int8 int8 = int32
    ∧ op_result multiply_op uint16 int32 = int32 := by
  decide

/-! ## Iterations of the loop for `InExponent > 0` -/

/-- The specialisations that apply to each pair of operand types: at most one,
and which. -/
theorem applicable_cases (Lhs Rhs : number_type) :
    applicable Lhs Rhs =
      match Lhs, Rhs with
      | number_type.floating, number_type.wrapper _ _ => [higher_op_wrapper]
      | number_type.wrapper _ _, number_type.floating => [wrapper_op_higher]
      | number_type.integer V, number_type.wrapper Rep tag =>
        if number_can_wrap (number_type.wrapper Rep tag) (number_type.integer V) = true then
          [lower_op_wrapper] else []
      | number_type.wrapper Rep tag, number_type.integer V =>
        if number_can_wrap (number_type.wrapper Rep tag) (number_type.integer V) = true then
          [wrapper_op_lower] else []
      | number_type.wrapper _ lhs_tag, number_type.wrapper _ rhs_tag =>
        if is_same_tag_family lhs_tag rhs_tag = true then [wrapper_op_wrapper] else []
      | _, _ => [] := by
  cases Lhs <;> cases Rhs <;>
    simp only [applicable, List.filter, rule.applies, floating_point, any_wrapper,
      number_can_wrap, Bool.and_false, Bool.false_and, Bool.and_self] <;>
    split <;> simp_all

/-- The operator of two wrappers of one tag family is resolved by the last
specialisation. -/
theorem custom_operator_of_same_family (fuel : Nat) (op : binary_op) (Lhs Rhs : rep)
    (lhs_tag rhs_tag : overflow_tag) (l r : Int)
    (hfamily : is_same_tag_family lhs_tag rhs_tag = true) :
    custom_operator (fuel + 1) op ⟨number_type.wrapper Lhs lhs_tag, l⟩
        ⟨number_type.wrapper Rhs rhs_tag, r⟩
      = resolution.result ((rep_operator op lhs_tag Lhs Rhs l r).bind fun p =>
          outcome.value
            (from_rep (number_type.wrapper p.1 (tag_op_result op lhs_tag rhs_tag)) p.2)) := by
  have happ : applicable (number_type.wrapper Lhs lhs_tag) (number_type.wrapper Rhs rhs_tag)
      = [wrapper_op_wrapper] := by
    rw [applicable_cases]
    simp [hfamily]
  simp only [custom_operator, happ, to_rep]

/-- C12: for two wrappers `a`, `b` whose tags are of one family and every
operator, the result of `a OP b` is a wrapper of the value the tag-aware
operator returns on `to_rep(a)` and `to_rep(b)`: `to_rep(a OP b)` is that value,
in the representation the operator returned; and `a OP b` returns a value
whenever that operator does. -/
theorem wrapper_op_wrapper_to_rep (fuel : Nat) (op : binary_op) (a b : number)
    (Lhs Rhs : rep) (lhs_tag rhs_tag : overflow_tag)
    (ha : a.type = number_type.wrapper Lhs lhs_tag)
    (hb : b.type = number_type.wrapper Rhs rhs_tag)
    (hfamily : is_same_tag_family lhs_tag rhs_tag = true) :
    (∀ result, custom_operator (fuel + 1) op a b = resolution.result (outcome.value result) →
      ∃ result_rep v,
        rep_operator op lhs_tag Lhs Rhs (to_rep a).value (to_rep b).value
          = outcome.value (result_rep, v)
        ∧ to_rep result = ⟨number_type.integer result_rep, v⟩
        ∧ result.type = number_type.wrapper result_rep (tag_op_result op lhs_tag rhs_tag))
    ∧ (∀ result_rep v,
        rep_operator op lhs_tag Lhs Rhs (to_rep a).value (to_rep b).value
          = outcome.value (result_rep, v) →
        ∃ result, custom_operator (fuel + 1) op a b = resolution.result (outcome.value result)
          ∧ to_rep result = ⟨number_type.integer result_rep, v⟩) := by
  obtain ⟨ta, l⟩ := a
  obtain ⟨tb, r⟩ := b
  simp only at ha hb
  subst ha hb
  have hres := custom_operator_of_same_family fuel op Lhs Rhs lhs_tag rhs_tag l r hfamily
  have hl : (to_rep ⟨number_type.wrapper Lhs lhs_tag, l⟩).value = l := rfl
  have hr : (to_rep ⟨number_type.wrapper Rhs rhs_tag, r⟩).value = r := rfl
  rw [hl, hr, hres]
  constructor
  · intro result h
    simp only [resolution.result.injEq] at h
    obtain ⟨⟨result_rep, v⟩, hrep, h⟩ := outcome.bind_eq_value h
    simp only [outcome.value.injEq] at h
    subst h
    exact ⟨result_rep, v, hrep, rfl, rfl⟩
  · intro result_rep v hrep
    rw [hrep]
    exact ⟨_, rfl, rfl⟩

/-- C12, at two saturating `int32` wrappers `2147483647 + 100`: the value of the
result is the clamped sum the saturating operator returns on the values. -/
theorem wrapper_op_wrapper_to_rep_witness :
    rep_operator add_op saturated_overflow_tag int32 int32 2147483647 100
      = outcome.value (int32, 2147483647)
    ∧ ∃ result,
      custom_operator 1 add_op ⟨number_type.wrapper int32 saturated_overflow_tag, 2147483647⟩
          ⟨number_type.wrapper int32 saturated_overflow_tag, 100⟩
        = resolution.result (outcome.value result)
      ∧ to_rep result = ⟨number_type.integer int32, 2147483647⟩ :=
  ⟨by decide,
    (wrapper_op_wrapper_to_rep 0 add_op
      ⟨number_type.wrapper int32 saturated_overflow_tag, 2147483647⟩
      ⟨number_type.wrapper int32 saturated_overflow_tag, 100⟩ int32 int32
      saturated_overflow_tag saturated_overflow_tag rfl rfl (by decide)).2 int32 2147483647
      (by decide)⟩

/-- The outcome of the operator of two wrappers of one tag family is a wrapper
with that tag whenever it is a value. -/
theorem custom_operator_same_family_type (fuel : Nat) (op : binary_op) (Lhs Rhs : rep)
    (tag : overflow_tag) (l r : Int) :
    ∃ o, custom_operator (fuel + 1) op ⟨number_type.wrapper Lhs tag, l⟩
          ⟨number_type.wrapper Rhs tag, r⟩ = resolution.result o
      ∧ ∀ result, o = outcome.value result →
          ∃ result_rep, result.type = number_type.wrapper result_rep tag := by
  refine ⟨_, custom_operator_of_same_family fuel op Lhs Rhs tag tag l r (by simp
    [is_same_tag_family]), ?_⟩
  intro result h
  obtain ⟨⟨result_rep, v⟩, _, h⟩ := outcome.bind_eq_value h
  simp only [outcome.value.injEq] at h
  subst h
  exact ⟨result_rep, rfl⟩

/-- C13: for a wrapper `w` of type `W`, a plain integer `n` that `W` can wrap and
every operator, `w OP n` is `w OP from_value<W>(n)` and `n OP w` is
`from_value<W>(n) OP w`; both are resolved to an outcome of the operator of two
wrappers, whose value is a wrapper with the tag of `W`, not a plain number. -/
theorem wrapper_op_lower_lifts (fuel : Nat) (op : binary_op) (Rep V : rep)
    (tag : overflow_tag) (w n : Int)
    (hwrap : number_can_wrap (number_type.wrapper Rep tag) (number_type.integer V) = true) :
    custom_operator (fuel + 1) op ⟨number_type.wrapper Rep tag, w⟩ ⟨number_type.integer V, n⟩
      = custom_operator fuel op ⟨number_type.wrapper Rep tag, w⟩
          (from_value (number_type.wrapper Rep tag) ⟨number_type.integer V, n⟩)
    ∧ custom_operator (fuel + 1) op ⟨number_type.integer V, n⟩ ⟨number_type.wrapper Rep tag, w⟩
      = custom_operator fuel op
          (from_value (number_type.wrapper Rep tag) ⟨number_type.integer V, n⟩)
          ⟨number_type.wrapper Rep tag, w⟩
    ∧ (∃ o, custom_operator (fuel + 2) op ⟨number_type.wrapper Rep tag, w⟩
          ⟨number_type.integer V, n⟩ = resolution.result o
        ∧ ∀ result, o = outcome.value result →
            ∃ result_rep, result.type = number_type.wrapper result_rep tag)
    ∧ (∃ o, custom_operator (fuel + 2) op ⟨number_type.integer V, n⟩
          ⟨number_type.wrapper Rep tag, w⟩ = resolution.result o
        ∧ ∀ result, o = outcome.value result →
            ∃ result_rep, result.type = number_type.wrapper result_rep tag) := by
  have h1 : applicable (number_type.wrapper Rep tag) (number_type.integer V)
      = [wrapper_op_lower] := by
    rw [applicable_cases]
    simp [hwrap]
  have h2 : applicable (number_type.integer V) (number_type.wrapper Rep tag)
      = [lower_op_wrapper] := by
    rw [applicable_cases]
    simp [hwrap]
  have e1 : ∀ f, custom_operator (f + 1) op ⟨number_type.wrapper Rep tag, w⟩
      ⟨number_type.integer V, n⟩
      = custom_operator f op ⟨number_type.wrapper Rep tag, w⟩
          (from_value (number_type.wrapper Rep tag) ⟨number_type.integer V, n⟩) := by
    intro f
    simp only [custom_operator, h1]
  have e2 : ∀ f, custom_operator (f + 1) op ⟨number_type.integer V, n⟩
      ⟨number_type.wrapper Rep tag, w⟩
      = custom_operator f op
          (from_value (number_type.wrapper Rep tag) ⟨number_type.integer V, n⟩)
          ⟨number_type.wrapper Rep tag, w⟩ := by
    intro f
    simp only [custom_operator, h2]
  refine ⟨e1 fuel, e2 fuel, ?_, ?_⟩
  · rw [e1 (fuel + 1)]
    exact custom_operator_same_family_type fuel op Rep Rep tag w n
  · rw [e2 (fuel + 1)]
    exact custom_operator_same_family_type fuel op Rep Rep tag n w

/-- C13, at a saturating `uint8` wrapper `200` and the plain `uint8` `100`: the
sum is the saturating wrapper of `int` `300`. -/
theorem wrapper_op_lower_lifts_witness :
    custom_operator 2 add_op ⟨number_type.wrapper uint8 saturated_overflow_tag, 200⟩
        ⟨number_type.integer uint8, 100⟩
      = resolution.result (outcome.value ⟨number_type.wrapper int32 saturated_overflow_tag, 300⟩)
    ∧ custom_operator (0 + 1) add_op ⟨number_type.wrapper uint8 saturated_overflow_tag, 200⟩
        ⟨number_type.integer uint8, 100⟩
      = custom_operator 0 add_op ⟨number_type.wrapper uint8 saturated_overflow_tag, 200⟩
          (from_value (number_type.wrapper uint8 saturated_overflow_tag)
            ⟨number_type.integer uint8, 100⟩) :=
  ⟨by decide,
    (wrapper_op_lower_lifts 0 add_op uint8 uint8 saturated_overflow_tag 200 100
      (by decide)).1⟩

/-- C14: for every pair of operand types at most one of the five specialisations
applies, and exactly one applies to each pair the engine accepts: a floating
type with a wrapper (either order), a plain integer with a wrapper that can wrap
it (either order), two wrappers of one tag family. -/
theorem resolution_deterministic (Lhs Rhs : number_type) :
    (applicable Lhs Rhs).length ≤ 1
    ∧ (floating_point Lhs = true → any_wrapper Rhs = true →
        applicable Lhs Rhs = [higher_op_wrapper])
    ∧ (any_wrapper Lhs = true → floating_point Rhs = true →
        applicable Lhs Rhs = [wrapper_op_higher])
    ∧ (number_can_wrap Rhs Lhs = true → applicable Lhs Rhs = [lower_op_wrapper])
    ∧ (number_can_wrap Lhs Rhs = true → applicable Lhs Rhs = [wrapper_op_lower])
    ∧ (∀ (L R : rep) (lhs_tag rhs_tag : overflow_tag),
        Lhs = number_type.wrapper L lhs_tag → Rhs = number_type.wrapper R rhs_tag →
        is_same_tag_family lhs_tag rhs_tag = true →
        applicable Lhs Rhs = [wrapper_op_wrapper]) := by
  rw [applicable_cases]
  refine ⟨?_, ?_, ?_, ?_, ?_, ?_⟩
  · cases Lhs <;> cases Rhs <;> simp only [] <;> (try split) <;> simp
  · intro h1 h2
    cases Lhs <;> cases Rhs <;> simp_all [floating_point, any_wrapper]
  · intro h1 h2
    cases Lhs <;> cases Rhs <;> simp_all [floating_point, any_wrapper]
  · intro h
    cases Lhs <;> cases Rhs <;> simp_all [number_can_wrap]
  · intro h
    cases Lhs <;> cases Rhs <;> simp_all [number_can_wrap]
  · intro L R lhs_tag rhs_tag h1 h2 h3
    subst h1 h2
    simp [h3]

/-- C14, at a `double` with a saturating `int32` wrapper. -/
theorem resolution_deterministic_witness :
    applicable number_type.floating (number_type.wrapper int32 saturated_overflow_tag)
      = [higher_op_wrapper] :=
  (resolution_deterministic number_type.floating
    (number_type.wrapper int32 saturated_overflow_tag)).2.1 (by decide) (by decide)

/-- C15: for two wrappers whose overflow tags are of different families no
specialisation applies, for every operator: the combination is ill-formed and
evaluates to no value. -/
theorem different_family_rejected (fuel : Nat) (op : binary_op) (Lhs Rhs : rep)
    (lhs_tag rhs_tag : overflow_tag) (l r : Int)
    (hfamily : is_same_tag_family lhs_tag rhs_tag = false) :
    applicable (number_type.wrapper Lhs lhs_tag) (number_type.wrapper Rhs rhs_tag) = []
    ∧ custom_operator (fuel + 1) op ⟨number_type.wrapper Lhs lhs_tag, l⟩
        ⟨number_type.wrapper Rhs rhs_tag, r⟩ = resolution.ill_formed
    ∧ ∀ f result, custom_operator f op ⟨number_type.wrapper Lhs lhs_tag, l⟩
        ⟨number_type.wrapper Rhs rhs_tag, r⟩ ≠ resolution.result (outcome.value result) := by
  have happ : applicable (number_type.wrapper Lhs lhs_tag) (number_type.wrapper Rhs rhs_tag)
      = [] := by
    rw [applicable_cases]
    simp [hfamily]
  have hill : ∀ f, custom_operator (f + 1) op ⟨number_type.wrapper Lhs lhs_tag, l⟩
      ⟨number_type.wrapper Rhs rhs_tag, r⟩ = resolution.ill_formed := by
    intro f
    simp only [custom_operator, happ]
  refine ⟨happ, hill fuel, ?_⟩
  intro f result
  cases f with
  | zero => simp [custom_operator]
  | succ f => rw [hill f]; simp

/-- C15, at a saturating and a trapping `int32` wrapper. -/
theorem different_family_rejected_witness :
    custom_operator 1 add_op ⟨number_type.wrapper int32 saturated_overflow_tag, 1⟩
        ⟨number_type.wrapper int32 trapping_overflow_tag, 2⟩ = resolution.ill_formed :=
  (different_family_rejected 0 add_op int32 int32 saturated_overflow_tag
    trapping_overflow_tag 1 2 (by decide)).2.1

/-! ## C16: `floor` -/

/-- The quotient of a value of a representation by a power of two, rounded
toward negative infinity, is a value of the representation. -/
theorem holds_ediv_two_pow (Rep : rep) (v : Int) (n : Nat) (h : Rep.holds v = true) :
    Rep.holds (v / 2 ^ n) = true := by
  have hmax := rep_max_nonneg Rep
  have hlow := rep_lowest_nonpos Rep
  rw [rep_holds_iff] at h ⊢
  obtain ⟨h1, h2⟩ := h
  have hp : (0 : Int) < 2 ^ n := by positivity
  have hdm := Int.emod_add_ediv v (2 ^ n)
  have hm0 := Int.emod_nonneg v (ne_of_gt hp)
  have hm1 := Int.emod_lt_of_pos v hp
  by_cases hv : 0 ≤ v
  · have hq0 : 0 ≤ v / 2 ^ n := Int.ediv_nonneg hv (le_of_lt hp)
    have hq1 : v / 2 ^ n ≤ v := Int.ediv_le_self _ hv
    constructor <;> omega
  · have hq : v / 2 ^ n < 0 := Int.ediv_neg' (by omega) hp
    constructor
    · nlinarith
    · omega

/-- Within the shift counts the language defines, `floor` of a radix-2 scaled
integer with `Exponent < 0` is the scaled integer at exponent 0 whose
significand is the floor of the value. -/
theorem floor_of_defined_shift (x : scaled_integer) (hneg : x.Exponent < 0)
    (hradix : x.Radix = 2) (hs : x.Rep.holds x.significand = true)
    (hcount : -x.Exponent < (promote x.Rep).width) :
    floor x = some (outcome.value ⟨x.Rep, 0, x.Radix, ⌊x.to_rat⌋⟩)
    ∧ ((⌊x.to_rat⌋ : Int) : ℚ) ≤ x.to_rat ∧ x.to_rat < ((⌊x.to_rat⌋ : Int) : ℚ) + 1 := by
  refine ⟨?_, Int.floor_le _, Int.lt_floor_add_one _⟩
  obtain ⟨n, hn⟩ : ∃ n : Nat, x.Exponent = -(n : Int) :=
    ⟨(-x.Exponent).toNat, by rw [Int.toNat_of_nonneg (by omega)]; ring⟩
  have hn' : (-x.Exponent).toNat = n := by rw [hn]; simp
  have hfl : ⌊x.to_rat⌋ = x.significand / 2 ^ n := by
    simp only [scaled_integer.to_rat, scaled_value, hradix, hn]
    rw [zpow_neg, zpow_natCast, ← div_eq_mul_inv]
    have := Rat.floor_intCast_div_natCast x.significand (2 ^ n)
    push_cast at this ⊢
    exact this
  have hc : 0 ≤ -x.Exponent ∧ -x.Exponent < ((promote x.Rep).width : Int) :=
    ⟨by omega, hcount⟩
  simp only [floor, hneg, if_true, hradix, shift_right, hc, and_self, outcome.bind_value]
  rw [wrap_of_holds _ _ (holds_ediv_two_pow x.Rep _ _ hs), hfl, hn']

/-- C16 (the code at the failing input): `floor` of the
`scaled_integer<int32, power<-32>>` values `1 * 2^-32` and `-1 * 2^-32`
evaluates `to_rep(x) >> 32` on a 32-bit operand, which is undefined, while the
floors of the values are `0` and `-1`; for `Exponent >= 0` the result is `x`. -/
theorem floor_undefined_shift :
    floor ⟨int32, -32, 2, 1⟩ = some outcome.undefined
    ∧ floor ⟨int32, -32, 2, -1⟩ = some outcome.undefined
    ∧ ⌊scaled_integer.to_rat ⟨int32, -32, 2, 1⟩⌋ = 0
    ∧ ⌊scaled_integer.to_rat ⟨int32, -32, 2, -1⟩⌋ = -1
    ∧ ∀ x : scaled_integer, 0 ≤ x.Exponent → floor x = some (outcome.value x) := by
  refine ⟨by decide, by decide, ?_, ?_, ?_⟩
  · rw [Int.floor_eq_iff]
    simp only [scaled_integer.to_rat, scaled_value]
    norm_num
  · rw [Int.floor_eq_iff]
    simp only [scaled_integer.to_rat, scaled_value]
    norm_num
  · intro x hx
    simp only [floor]
    rw [if_neg (by omega)]

/-! ## C17: `abs` -/

/-- The promoted representation holds every value of the representation. -/
theorem promote_holds (Rep : rep) (v : Int) (h : Rep.holds v = true) :
    (promote Rep).holds v = true := by
  unfold promote
  split
  · rename_i hw
    rw [rep_holds_iff] at h ⊢
    obtain ⟨h1, h2⟩ := h
    have hd : Rep.digits ≤ 31 := by
      simp only [rep.width] at hw
      omega
    have hle : (2 : Int) ^ Rep.digits ≤ 2 ^ 31 := pow_le_pow_right₀ (by norm_num) hd
    have hp : (0 : Int) < 2 ^ Rep.digits := by positivity
    simp only [rep.lowest, rep.max, int32] at *
    constructor
    · split at h1 <;> simp only [if_true] <;> omega
    · omega
  · exact h

/-- C17 (as stated, refuted): `abs` of the lowest `int32` scaled integer negates
`-2147483648`, and `2147483648` is not a value of `decltype(-x)`. -/
theorem abs_counterexample :
    abs ⟨int32, -3, 2, -2147483648⟩ = outcome.overflow
    ∧ int32.holds (-2147483648) = true
    ∧ promote int32 = int32
    ∧ int32.holds 2147483648 = false := by
  decide

/-- C17 (amended): for every scaled integer `x` of a radix above 0 whose
negation is a value of the representation of `decltype(-x)` (every `x` but the
lowest value of a signed representation at least as wide as `int`), `abs(x)`
returns `|x|` in that representation: `x` when `x >= 0`, `-x` when `x < 0`, and
never a negative value. -/
theorem abs_eq_abs (x : scaled_integer) (hradix : 0 < x.Radix)
    (hs : x.Rep.holds x.significand = true)
    (hnegate : 0 ≤ x.significand ∨ (promote x.Rep).holds (-x.significand) = true) :
    ∃ y, abs x = outcome.value y
      ∧ y.Rep = promote x.Rep ∧ y.Exponent = x.Exponent ∧ y.Radix = x.Radix
      ∧ y.to_rat = |x.to_rat|
      ∧ 0 ≤ y.to_rat
      ∧ (0 ≤ x.to_rat → y.to_rat = x.to_rat)
      ∧ (x.to_rat < 0 → y.to_rat = -x.to_rat) := by
  have hpow : (0 : ℚ) < (x.Radix : ℚ) ^ x.Exponent := by
    apply zpow_pos
    exact_mod_cast hradix
  have key : ∀ y : scaled_integer, y.Exponent = x.Exponent → y.Radix = x.Radix →
      y.significand = |x.significand| →
      y.to_rat = |x.to_rat| ∧ 0 ≤ y.to_rat ∧ (0 ≤ x.to_rat → y.to_rat = x.to_rat)
        ∧ (x.to_rat < 0 → y.to_rat = -x.to_rat) := by
    intro y he hr hv
    have hy : y.to_rat = |x.to_rat| := by
      simp only [scaled_integer.to_rat, scaled_value, he, hr, hv]
      rw [abs_mul, abs_of_pos hpow]
      push_cast
      rfl
    refine ⟨hy, ?_, ?_, ?_⟩
    · rw [hy]; exact abs_nonneg _
    · intro h; rw [hy, abs_of_nonneg h]
    · intro h; rw [hy, abs_of_neg h]
  by_cases h0 : 0 ≤ x.significand
  · refine ⟨⟨promote x.Rep, x.Exponent, x.Radix, x.significand⟩, ?_, rfl, rfl, rfl,
      key _ rfl rfl (abs_of_nonneg h0).symm⟩
    simp only [abs, ge_iff_le, h0, if_true]
    rw [wrap_of_holds _ _ (promote_holds x.Rep _ hs)]
  · have hfit : (promote x.Rep).holds (-x.significand) = true := by
      rcases hnegate with h | h
      · exact absurd h h0
      · exact h
    have hsigned : (promote x.Rep).is_signed = true := by
      have hlt : x.significand < 0 := by omega
      exact is_signed_of_holds_neg _ _ (promote_holds x.Rep _ hs) hlt
    refine ⟨⟨promote x.Rep, x.Exponent, x.Radix, -x.significand⟩, ?_, rfl, rfl, rfl,
      key _ rfl rfl (abs_of_neg (by omega)).symm⟩
    simp only [abs, ge_iff_le, h0, if_false, negate, hsigned, if_true, hfit,
      outcome.bind_value]

/-- C17 (amended), at the lowest `int8` scaled integer `-128 * 2^-3`: the result
is `128 * 2^-3` in `int`. -/
theorem abs_eq_abs_witness :
    abs ⟨int8, -3, 2, -128⟩ = outcome.value ⟨int32, -3, 2, 128⟩
    ∧ ∃ y, abs ⟨int8, -3, 2, -128⟩ = outcome.value y
      ∧ y.Rep = promote int8 ∧ y.Exponent = -3 ∧ y.Radix = 2
      ∧ y.to_rat = |scaled_integer.to_rat ⟨int8, -3, 2, -128⟩|
      ∧ 0 ≤ y.to_rat
      ∧ (0 ≤ scaled_integer.to_rat ⟨int8, -3, 2, -128⟩ →
          y.to_rat = scaled_integer.to_rat ⟨int8, -3, 2, -128⟩)
      ∧ (scaled_integer.to_rat ⟨int8, -3, 2, -128⟩ < 0 →
          y.to_rat = -scaled_integer.to_rat ⟨int8, -3, 2, -128⟩) :=
  ⟨by decide, abs_eq_abs ⟨int8, -3, 2, -128⟩ (by decide) (by decide) (Or.inr (by decide))⟩

/-! ## C21: the assertion of the loop for `InExponent < 0` -/

/-- C21 (as stated, refuted): with `InRadix % OutRadix == 0` (radixes 10 and 10)
the out-of-bounds step on `-128` fails the assertion, and with
`InRadix % OutRadix != 0` (radixes 2 and 10) the out-of-bounds step on `635` is
accepted and returns `317`, which loses the remainder. -/
theorem negative_iteration_out_of_bounds_counterexample :
    (10 : Int).tmod 10 = 0
    ∧ oob int8 true (-128) = some true
    ∧ negative_iteration ⟨true, 40⟩ int8 10 10 true ⟨-128, 0⟩ = outcome.assert_failure
    ∧ (2 : Int).tmod 10 ≠ 0
    ∧ oob int8 false 635 = some true
    ∧ negative_iteration ⟨true, 40⟩ int8 10 2 false ⟨635, -1⟩ = outcome.value ⟨317, -1⟩
    ∧ (317 : Int) * 2 ≠ 635 := by
  decide

/-- C21 (amended): in the loop for `InExponent < 0`, on a significand that is not
divisible by `InRadix` and out of the bounds of `InRep`, the step is accepted
exactly when `InRadix % OutRadix != 0` and the assertion fails when
`InRadix % OutRadix == 0`; the accepted step divides the significand with
truncation and keeps the exponent, and the remainder is lost. -/
theorem negative_iteration_out_of_bounds (OutRep InRep : rep) (OutRadix InRadix : Int)
    (neg : Bool) (output : descaled) (hm : output.significand.tmod InRadix ≠ 0)
    (ho : oob InRep neg output.significand = some true) :
    (InRadix.tmod OutRadix ≠ 0 →
      negative_iteration OutRep InRep OutRadix InRadix neg output
        = outcome.value ⟨output.significand.tdiv InRadix, output.exponent⟩)
    ∧ (InRadix.tmod OutRadix = 0 →
      negative_iteration OutRep InRep OutRadix InRadix neg output = outcome.assert_failure)
    ∧ ((∃ next, negative_iteration OutRep InRep OutRadix InRadix neg output
          = outcome.value next) ↔ InRadix.tmod OutRadix ≠ 0)
    ∧ output.significand.tdiv InRadix * InRadix ≠ output.significand := by
  have h1 : InRadix.tmod OutRadix ≠ 0 →
      negative_iteration OutRep InRep OutRadix InRadix neg output
        = outcome.value ⟨output.significand.tdiv InRadix, output.exponent⟩ := by
    intro h
    unfold negative_iteration
    rw [if_pos hm]
    simp only [ho]
    rw [if_pos h]
  have h2 : InRadix.tmod OutRadix = 0 →
      negative_iteration OutRep InRep OutRadix InRadix neg output
        = outcome.assert_failure := by
    intro h
    unfold negative_iteration
    rw [if_pos hm]
    simp only [ho]
    rw [if_neg (by simp [h])]
  refine ⟨h1, h2, ⟨?_, fun h => ⟨_, h1 h⟩⟩, ?_⟩
  · rintro ⟨next, hnext⟩ h0
    rw [h2 h0] at hnext
    exact absurd hnext (by simp)
  · intro h
    have := Int.tdiv_add_tmod' output.significand InRadix
    omega

/-- C21 (amended), at the significand `635` beyond `max(int8)` with the radixes
2 and 10. -/
theorem negative_iteration_out_of_bounds_witness :
    negative_iteration ⟨true, 40⟩ int8 10 2 false ⟨635, -1⟩ = outcome.value ⟨317, -1⟩ :=
  (negative_iteration_out_of_bounds ⟨true, 40⟩ int8 10 2 false ⟨635, -1⟩ (by decide)
    (by decide)).1 (by decide)

/-! ## C22: the direction of a `shift_left` overflow -/

/-- C22: for `shift_left` with a shift count that is not negative under every
overflow policy, a result outside the result type with a left operand `>= 0` is
given to the positive handler and with a left operand `< 0` to the negative
handler; a left operand `>= 0`, so every value of an unsigned type, never meets
the condition of the negative handler. -/
theorem shift_left_polarity (tag : overflow_tag) (Lhs Rhs : rep) (lhs rhs : Int)
    (_hrhs : 0 ≤ rhs) :
    (0 ≤ lhs →
      (op_result shift_left_op Lhs Rhs).holds (shift_left_op.exact lhs rhs) = false →
      apply_operator tag shift_left_op Lhs Rhs lhs rhs
        = overflow_operator tag positive (op_result shift_left_op Lhs Rhs)
            (shift_left_op.exact lhs rhs))
    ∧ (lhs < 0 →
      (op_result shift_left_op Lhs Rhs).holds (shift_left_op.exact lhs rhs) = false →
      apply_operator tag shift_left_op Lhs Rhs lhs rhs
        = overflow_operator tag negative (op_result shift_left_op Lhs Rhs)
            (shift_left_op.exact lhs rhs))
    ∧ (0 ≤ lhs →
      ¬ shift_left_op.exact lhs rhs < (op_result shift_left_op Lhs Rhs).lowest)
    ∧ (Lhs.is_signed = false → Lhs.holds lhs = true →
      ¬ shift_left_op.exact lhs rhs < (op_result shift_left_op Lhs Rhs).lowest) := by
  have hmax := rep_max_nonneg (op_result shift_left_op Lhs Rhs)
  have hlow := rep_lowest_nonpos (op_result shift_left_op Lhs Rhs)
  have hp : (0 : Int) < 2 ^ rhs.toNat := by positivity
  have hnonneg : 0 ≤ lhs → 0 ≤ shift_left_op.exact lhs rhs := by
    intro h
    simp only [binary_op.exact]
    positivity
  have hneg : lhs < 0 → shift_left_op.exact lhs rhs < 0 := by
    intro h
    simp only [binary_op.exact]
    exact mul_neg_of_neg_of_pos h hp
  refine ⟨?_, ?_, ?_, ?_⟩
  · intro h0 hout
    have hgt : (op_result shift_left_op Lhs Rhs).max < shift_left_op.exact lhs rhs := by
      by_contra hc
      have := (rep_holds_iff _ _).2 ⟨by have := hnonneg h0; omega, not_lt.1 hc⟩
      rw [this] at hout
      exact absurd hout (by simp)
    cases tag <;> simp only [apply_operator, gt_iff_lt, hgt, if_true, overflow_operator]
  · intro h0 hout
    have hlt : shift_left_op.exact lhs rhs < (op_result shift_left_op Lhs Rhs).lowest := by
      by_contra hc
      have := (rep_holds_iff _ _).2 ⟨not_lt.1 hc, by have := hneg h0; omega⟩
      rw [this] at hout
      exact absurd hout (by simp)
    have hngt : ¬ (op_result shift_left_op Lhs Rhs).max < shift_left_op.exact lhs rhs := by
      have := hneg h0
      omega
    cases tag <;>
      simp only [apply_operator, gt_iff_lt, hngt, hlt, if_true, if_false, overflow_operator]
  · intro h0
    have := hnonneg h0
    omega
  · intro hu hh
    have h0 : 0 ≤ lhs := by
      by_contra hc
      have := is_signed_of_holds_neg Lhs lhs hh (by omega)
      rw [hu] at this
      exact absurd this (by simp)
    have := hnonneg h0
    omega

/-- C22, at `shift_left` of the `uint8` value `255` by `30` under the saturating
policy: the positive handler returns the maximum of `int`. -/
theorem shift_left_polarity_witness :
    apply_operator saturated_overflow_tag shift_left_op uint8 uint32 255 30
      = overflow_operator saturated_overflow_tag positive (op_result shift_left_op uint8 uint32)
          (shift_left_op.exact 255 30)
    ∧ overflow_operator saturated_overflow_tag positive (op_result shift_left_op uint8 uint32)
          (shift_left_op.exact 255 30) = outcome.value int32.max :=
  ⟨(shift_left_polarity saturated_overflow_tag uint8 uint32 255 30 (by decide)).1 (by decide)
    (by decide), by decide⟩

/-- The shifts of the tests: `INT32_MAX << 1` saturates to the maximum, and
`shift_left<trapping_overflow_tag>(-1073741825, 1)` is given to the negative
handler. -/
theorem shift_left_tests :
    apply_operator saturated_overflow_tag shift_left_op int32 int32 int32.max 1
      = outcome.value int32.max
    ∧ apply_operator trapping_overflow_tag shift_left_op int32 int32 (-1073741825) 1
      = overflow_operator trapping_overflow_tag negative int32 (-2147483650)
    ∧ overflow_operator trapping_overflow_tag negative int32 (-2147483650)
      = outcome.terminated "negative overflow" := by
  decide

/-! ## The exponent in the loop for `InExponent > 0` -/

/-- An iteration of the loop for `InExponent > 0` keeps the exponent or
increments it. -/
theorem positive_iteration_exponent {OutRep InRep : rep} {OutRadix InRadix : Int} {neg : Bool}
    {in_exponent next_exponent : Nat} {output next : descaled}
    (h : positive_iteration OutRep InRep OutRadix InRadix neg in_exponent output
      = outcome.value (next_exponent, next)) :
    output.exponent ≤ next.exponent := by
  unfold positive_iteration at h
  obtain ⟨⟨k, sig⟩, _, h⟩ := outcome.bind_eq_value h
  simp only at h
  split at h <;>
    (simp only [outcome.value.injEq, Prod.mk.injEq] at h; obtain ⟨_, rfl⟩ := h; simp)

theorem positive_loop_exponent {OutRep InRep : rep} {OutRadix InRadix : Int} {neg : Bool} :
    ∀ (fuel in_exponent : Nat) (output result : descaled),
      positive_loop OutRep InRep OutRadix InRadix neg fuel in_exponent output
        = outcome.value result →
      output.exponent ≤ result.exponent := by
  intro fuel
  induction fuel with
  | zero =>
    intro in_exponent output result h
    cases in_exponent with
    | zero =>
      simp only [positive_loop, outcome.value.injEq] at h
      rw [h]
    | succ k => simp [positive_loop] at h
  | succ f ih =>
    intro in_exponent output result h
    cases in_exponent with
    | zero =>
      simp only [positive_loop, outcome.value.injEq] at h
      rw [h]
    | succ k =>
      simp only [positive_loop] at h
      obtain ⟨⟨next_exponent, next⟩, hstep, h⟩ := outcome.bind_eq_value h
      simp only at h
      have h1 := positive_iteration_exponent hstep
      have h2 := ih next_exponent next result h
      omega

/-! ## The only iteration for `InExponent = -1` -/

/-- With `InExponent = -1` the only iteration finds every significand of an
`InRep` with a value bit within bounds or even: the lowest value of a signed
`InRep` is even. -/
theorem descale_in_bounds_of_exponent_neg_one (OutRep InRep : rep) (OutRadix : Int) (s : Int)
    (hdigits : 1 ≤ InRep.digits) (hs : InRep.holds s = true) :
    descale_in_bounds OutRep OutRadix InRep (-1) 2 s = true := by
  have hs' := hs
  rw [rep_holds_iff] at hs
  obtain ⟨hlo, hhi⟩ := hs
  simp only [descale_in_bounds, neg_neg, Int.toNat_one, negative_loop_in_bounds,
    Bool.and_eq_true, Bool.or_eq_true, decide_eq_true_eq]
  constructor
  · by_cases hm : s.tmod 2 = 0
    · exact Or.inl hm
    · right
      by_cases hneg : s < 0
      · have hsg := is_signed_of_holds_neg InRep s hs' hneg
        simp only [oob, hneg, decide_True, if_true, hsg, Option.some.injEq,
          decide_eq_false_iff_not, not_lt]
        simp only [rep.lowest, hsg, if_true, rep.max] at hlo ⊢
        by_contra hc
        have : s = -(2 ^ InRep.digits) := by omega
        rw [this] at hm
        exact hm (Int.tmod_eq_zero_of_dvd (Dvd.dvd.neg_right (dvd_pow_self 2 (by omega))))
      · simp only [oob, hneg, decide_False, Bool.false_eq_true, if_false, Option.some.injEq,
          decide_eq_false_iff_not, not_lt]
        exact hhi
  · split <;> rfl

/-! ## C26: `numeric_limits` of a scaled integer -/

/-- C26: every value `v` of `scaled_integer<Rep, power<Exponent, Radix>>` (radix
above 0) lies between `lowest()` and `max()`; `min()`, of representation value 1
(a value of `Rep` when `Rep` has a value bit), is above 0 and not above any
value above 0 of the type, and is equal to `epsilon()` and `denorm_min()`. -/
theorem numeric_limits_bounds (v : scaled_integer) (hradix : 0 < v.Radix)
    (hs : v.Rep.holds v.significand = true) :
    (numeric_limits.lowest v.Rep v.Exponent v.Radix).to_rat ≤ v.to_rat
    ∧ v.to_rat ≤ (numeric_limits.max v.Rep v.Exponent v.Radix).to_rat
    ∧ 0 < (numeric_limits.min v.Rep v.Exponent v.Radix).to_rat
    ∧ (0 < v.to_rat → (numeric_limits.min v.Rep v.Exponent v.Radix).to_rat ≤ v.to_rat)
    ∧ (1 ≤ v.Rep.digits → v.Rep.holds 1 = true)
    ∧ numeric_limits.min v.Rep v.Exponent v.Radix
        = numeric_limits.epsilon v.Rep v.Exponent v.Radix
    ∧ numeric_limits.min v.Rep v.Exponent v.Radix
        = numeric_limits.denorm_min v.Rep v.Exponent v.Radix := by
  have hpow : (0 : ℚ) < (v.Radix : ℚ) ^ v.Exponent := by
    apply zpow_pos
    exact_mod_cast hradix
  obtain ⟨hlo, hhi⟩ := (rep_holds_iff _ _).1 hs
  have hloq : (v.Rep.lowest : ℚ) ≤ (v.significand : ℚ) := by exact_mod_cast hlo
  have hhiq : (v.significand : ℚ) ≤ (v.Rep.max : ℚ) := by exact_mod_cast hhi
  refine ⟨?_, ?_, ?_, ?_, ?_, rfl, rfl⟩
  · simp only [scaled_integer.to_rat, scaled_value, numeric_limits.lowest]
    exact mul_le_mul_of_nonneg_right hloq (le_of_lt hpow)
  · simp only [scaled_integer.to_rat, scaled_value, numeric_limits.max]
    exact mul_le_mul_of_nonneg_right hhiq (le_of_lt hpow)
  · simp only [scaled_integer.to_rat, scaled_value, numeric_limits.min, Int.cast_one, one_mul]
    exact hpow
  · intro hv
    simp only [scaled_integer.to_rat, scaled_value, numeric_limits.min, Int.cast_one,
      one_mul] at hv ⊢
    have h0 : (0 : ℚ) < (v.significand : ℚ) := by
      by_contra hc
      have := mul_nonpos_of_nonpos_of_nonneg (not_lt.1 hc) (le_of_lt hpow)
      linarith
    have h1 : (1 : ℚ) ≤ (v.significand : ℚ) := by
      have : (0 : Int) < v.significand := by exact_mod_cast h0
      exact_mod_cast this
    calc (v.Radix : ℚ) ^ v.Exponent = 1 * (v.Radix : ℚ) ^ v.Exponent := (one_mul _).symm
      _ ≤ (v.significand : ℚ) * (v.Radix : ℚ) ^ v.Exponent :=
        mul_le_mul_of_nonneg_right h1 (le_of_lt hpow)
  · intro hd
    rw [rep_holds_iff]
    have hp : (2 : Int) ^ 1 ≤ 2 ^ v.Rep.digits := pow_le_pow_right₀ (by norm_num) hd
    have := rep_lowest_nonpos v.Rep
    simp only [rep.max]
    constructor <;> omega

/-- C26, at the `int8` scaled integer `-77 * 2^-4`. -/
theorem numeric_limits_bounds_witness :
    (numeric_limits.lowest int8 (-4) 2).to_rat ≤ scaled_integer.to_rat ⟨int8, -4, 2, -77⟩
    ∧ scaled_integer.to_rat ⟨int8, -4, 2, -77⟩ ≤ (numeric_limits.max int8 (-4) 2).to_rat :=
  ⟨(numeric_limits_bounds ⟨int8, -4, 2, -77⟩ (by decide) (by decide)).1,
    (numeric_limits_bounds ⟨int8, -4, 2, -77⟩ (by decide) (by decide)).2.1⟩

/-! ## C27: `safe_multiply` -/

theorem promote_digits (X : rep) (D : Nat) (h : D ≤ X.digits) : D ≤ (promote X).digits := by
  unfold promote
  split
  · rename_i hw
    simp only [rep.width] at hw
    simp only [int32]
    omega
  · exact h

/-- The common type of two types of at least `D` digits has at least `D` digits. -/
theorem common_type_digits (X Y : rep) (D : Nat) (hX : D ≤ X.digits) (hY : D ≤ Y.digits) :
    D ≤ (common_type X Y).digits := by
  have hx := promote_digits X D hX
  have hy := promote_digits Y D hY
  simp only [common_type]
  generalize promote X = a at hx ⊢
  generalize promote Y = b at hy ⊢
  obtain ⟨sa, da⟩ := a
  obtain ⟨sb, db⟩ := b
  simp only at hx hy
  cases sa <;> cases sb <;> simp only [rep.width, if_true, if_false, Bool.false_eq_true,
    Bool.true_eq_false] <;> (repeat' split) <;> simp only [] <;> omega

/-- A built-in operator returns the exact result when its result type holds it. -/
theorem builtin_operator_of_holds (op : binary_op) (Lhs Rhs : rep) (lhs rhs : Int)
    (h : (op_result op Lhs Rhs).holds (op.exact lhs rhs) = true) :
    builtin_operator op Lhs Rhs lhs rhs = outcome.value (op.exact lhs rhs) := by
  simp only [builtin_operator, h, if_true]
  split
  · rfl
  · rw [wrap_of_holds _ _ h]

theorem holds_zero (R : rep) : R.holds 0 = true := by
  rw [rep_holds_iff]
  exact ⟨rep_lowest_nonpos R, rep_max_nonneg R⟩

theorem wrap_zero (R : rep) : wrap R 0 = 0 := wrap_of_holds R 0 (holds_zero R)

theorem rescale_zero (To : rep) (a b : Int) : rescale To a b 0 = 0 := by
  simp only [rescale, zero_mul, Int.zero_ediv, ite_self, wrap_zero]

/-- A signed type holds the values of every type of at most its digits. -/
theorem holds_of_signed_wider (X Y : rep) (v : Int) (hs : Y.is_signed = true)
    (hd : X.digits ≤ Y.digits) (h : X.holds v = true) : Y.holds v = true := by
  rw [rep_holds_iff] at h ⊢
  obtain ⟨h1, h2⟩ := h
  have hle : (2 : Int) ^ X.digits ≤ 2 ^ Y.digits := pow_le_pow_right₀ (by norm_num) hd
  have hp : (0 : Int) < 2 ^ X.digits := by positivity
  simp only [rep.lowest, rep.max, hs, if_true] at *
  constructor
  · split at h1 <;> omega
  · omega

theorem promote_width_le (R : rep) : R.width ≤ (promote R).width := by
  unfold promote
  split
  · rename_i h
    simp only [int32, rep.width, if_true]
    simp only [rep.width] at h
    omega
  · exact le_refl _

theorem builtin_multiply_zero_left (A B : rep) (b : Int) :
    builtin_operator multiply_op A B 0 b = outcome.value 0 := by
  have h := builtin_operator_of_holds multiply_op A B 0 b
    (by
      show (op_result multiply_op A B).holds (0 * b) = true
      rw [zero_mul]; exact holds_zero _)
  rw [h]
  show outcome.value (0 * b) = outcome.value 0
  rw [zero_mul]

theorem builtin_multiply_zero_right (A B : rep) (a : Int) :
    builtin_operator multiply_op A B a 0 = outcome.value 0 := by
  have h := builtin_operator_of_holds multiply_op A B a 0
    (by
      show (op_result multiply_op A B).holds (a * 0) = true
      rw [mul_zero]; exact holds_zero _)
  rw [h]
  show outcome.value (a * 0) = outcome.value 0
  rw [mul_zero]

/-- An unambiguous `safe_multiply` of zero and any operand returns zero. -/
theorem safe_multiply_zero_left (set_digits : rep → Nat → rep) (A B : rep) (b : Int)
    (hu : (op_result multiply_op A B).digits ≠ A.digits + B.digits) :
    safe_multiply set_digits A B 0 b = some (outcome.value 0) := by
  by_cases hw : (op_result multiply_op A B).digits ≤ A.digits + B.digits
  · have hnd : ¬ A.digits + B.digits ≤ (op_result multiply_op A B).digits := by omega
    simp only [safe_multiply, hw, hnd, decide_True, decide_False, Bool.and_false,
      Bool.false_eq_true, if_false, if_true, wrap_zero, builtin_multiply_zero_left]
  · have hd : A.digits + B.digits ≤ (op_result multiply_op A B).digits := by omega
    simp only [safe_multiply, hw, hd, decide_True, decide_False, Bool.false_and,
      Bool.false_eq_true, if_false, if_true, builtin_multiply_zero_left]

theorem safe_multiply_zero_right (set_digits : rep → Nat → rep) (A B : rep) (a : Int)
    (hu : (op_result multiply_op A B).digits ≠ A.digits + B.digits) :
    safe_multiply set_digits A B a 0 = some (outcome.value 0) := by
  by_cases hw : (op_result multiply_op A B).digits ≤ A.digits + B.digits
  · have hnd : ¬ A.digits + B.digits ≤ (op_result multiply_op A B).digits := by omega
    simp only [safe_multiply, hw, hnd, decide_True, decide_False, Bool.and_false,
      Bool.false_eq_true, if_false, if_true, wrap_zero, builtin_multiply_zero_right]
  · have hd : A.digits + B.digits ≤ (op_result multiply_op A B).digits := by omega
    simp only [safe_multiply, hw, hd, decide_True, decide_False, Bool.false_and,
      Bool.false_eq_true, if_false, if_true, builtin_multiply_zero_right]

theorem promote_idem (R : rep) : promote (promote R) = promote R := by
  by_cases h : R.width < 32
  · have hp : promote R = int32 := by unfold promote; rw [if_pos h]
    rw [hp]; rfl
  · have hp : promote R = R := by unfold promote; rw [if_neg h]
    rw [hp, hp]

theorem common_type_self (R : rep) : common_type R R = promote R := by
  simp only [common_type, if_true, le_refl]

theorem common_type_promote_right (R : rep) : common_type R (promote R) = promote R := by
  simp only [common_type, promote_idem, if_true, le_refl]

theorem promote_unsigned_digits (U : rep) (hU : U.is_signed = false) :
    (promote U).digits = if U.digits < 32 then 31 else U.digits := by
  unfold promote
  simp only [rep.width, hU, Bool.false_eq_true, if_false, Nat.add_zero]
  split <;> rfl

/-- The calls of `safe_multiply` in `evaluate_polynomial` on an unsigned
fraction type are not ambiguous. -/
theorem unsigned_product_unambiguous (U : rep) (hU : U.is_signed = false)
    (hw : 1 ≤ U.digits) :
    (op_result multiply_op U U).digits ≠ U.digits + U.digits
    ∧ (op_result multiply_op U (op_result add_op U U)).digits
      ≠ U.digits + (op_result add_op U U).digits := by
  have h1 : op_result multiply_op U U = promote U := common_type_self U
  have h2 : op_result add_op U U = promote U := common_type_self U
  have h3 : op_result multiply_op U (promote U) = promote U := common_type_promote_right U
  rw [h2, h1, h3, promote_unsigned_digits U hU]
  constructor <;> split <;> omega

theorem builtin_add_unsigned_returns (U : rep) (hU : U.is_signed = false) (c t : Int)
    (hc : U.holds (c + t) = true) :
    ∃ s, builtin_operator add_op U U c t = outcome.value s := by
  by_cases hs : (op_result add_op U U).is_signed = true
  · have hp : op_result add_op U U = promote U := common_type_self U
    have h32 : U.width < 32 := by
      by_contra hn
      rw [hp] at hs
      unfold promote at hs
      rw [if_neg hn, hU] at hs
      exact Bool.false_ne_true hs
    have hd : (op_result add_op U U).digits = 31 := by
      rw [hp]; unfold promote; rw [if_pos h32]; rfl
    refine ⟨c + t, builtin_operator_of_holds add_op U U c t ?_⟩
    apply holds_of_signed_wider U _ _ hs _ hc
    rw [hd]
    simp only [rep.width] at h32
    omega
  · refine ⟨wrap (op_result add_op U U) (c + t), ?_⟩
    simp only [builtin_operator, hs, if_false]
    rfl

theorem fp_product_zero_left (set_digits : rep → Nat → rep) (Rep : rep) (Exponent : Int)
    (A B : rep) (b : Int) (hu : (op_result multiply_op A B).digits ≠ A.digits + B.digits) :
    fp_product set_digits Rep Exponent A B 0 b = some (outcome.value 0) := by
  simp only [fp_product, safe_multiply_zero_left set_digits A B b hu, and_then, rescale_zero]

theorem fp_product_zero_right (set_digits : rep → Nat → rep) (Rep : rep) (Exponent : Int)
    (A B : rep) (a : Int) (hu : (op_result multiply_op A B).digits ≠ A.digits + B.digits) :
    fp_product set_digits Rep Exponent A B a 0 = some (outcome.value 0) := by
  simp only [fp_product, safe_multiply_zero_right set_digits A B a hu, and_then, rescale_zero]

theorem polynomial_term_zero (set_digits : rep → Nat → rep) (U : rep) (Exponent : Int)
    (c : Int) (hU : U.is_signed = false) (hw : 1 ≤ U.digits) (hc : U.holds c = true) :
    polynomial_term set_digits U Exponent 0 c (some (outcome.value 0))
      = some (outcome.value 0) := by
  obtain ⟨s, hs⟩ := builtin_add_unsigned_returns U hU c 0 (by rw [add_zero]; exact hc)
  simp only [polynomial_term, and_then, hs]
  exact fp_product_zero_left set_digits U Exponent U _ s
    (unsigned_product_unambiguous U hU hw).2

/-- The polynomial of `evaluate_polynomial` is zero at zero. -/
theorem evaluate_polynomial_zero (set_digits : rep → Nat → rep) (coeffs : poly_coeffs)
    (U : rep) (Exponent : Int) (hU : U.is_signed = false) (hw : 1 ≤ U.digits)
    (hc : coeffs.holds U = true) :
    evaluate_polynomial set_digits coeffs U Exponent 0 = some (outcome.value 0) := by
  simp only [poly_coeffs.holds, Bool.and_eq_true] at hc
  obtain ⟨⟨⟨⟨⟨⟨h1, h2⟩, h3⟩, h4⟩, h5⟩, h6⟩, _⟩ := hc
  unfold evaluate_polynomial
  rw [fp_product_zero_right set_digits U Exponent U U _
    (unsigned_product_unambiguous U hU hw).1]
  rw [polynomial_term_zero set_digits U Exponent _ hU hw h6,
    polynomial_term_zero set_digits U Exponent _ hU hw h5,
    polynomial_term_zero set_digits U Exponent _ hU hw h4,
    polynomial_term_zero set_digits U Exponent _ hU hw h3,
    polynomial_term_zero set_digits U Exponent _ hU hw h2,
    polynomial_term_zero set_digits U Exponent _ hU hw h1]

theorem holds_of_nonneg_lt (R : rep) (v : Int) (h0 : 0 ≤ v) (h : v < 2 ^ R.digits) :
    R.holds v = true := by
  rw [rep_holds_iff]
  have hl := rep_lowest_nonpos R
  simp only [rep.max]
  omega

theorem holds_of_small (C : rep) (hs : C.is_signed = true) (v : Int)
    (h1 : -(C.digits : Int) ≤ v) (h2 : v ≤ C.digits) : C.holds v = true := by
  rw [rep_holds_iff]
  have hlt : (C.digits : Int) < 2 ^ C.digits := by exact_mod_cast Nat.lt_two_pow C.digits
  simp only [rep.lowest, rep.max, hs, if_true]
  omega

/-- The type in which an operand of the representation `Rep` and an `int` are
compared or subtracted is signed when `Rep` is signed or narrower than `int`. -/
theorem common_type_int32 (Rep : rep) (h : Rep.is_signed = true ∨ Rep.width < 32) :
    ((common_type Rep int32).is_signed = true
      ∧ Rep.digits ≤ (common_type Rep int32).digits)
    ∧ ((common_type int32 Rep).is_signed = true
      ∧ Rep.digits ≤ (common_type int32 Rep).digits) := by
  have h32 : promote int32 = int32 := rfl
  by_cases hw : Rep.width < 32
  · have hp : promote Rep = int32 := by unfold promote; rw [if_pos hw]
    have hd : Rep.digits ≤ 31 := by simp only [rep.width] at hw; omega
    simp only [common_type, hp, h32, if_true, le_refl]
    exact ⟨⟨rfl, hd⟩, ⟨rfl, hd⟩⟩
  · have hs : Rep.is_signed = true := by
      rcases h with h | h
      · exact h
      · exact absurd h hw
    have hp : promote Rep = Rep := by unfold promote; rw [if_neg hw]
    have hwd : Rep.width = Rep.digits + 1 := by simp only [rep.width, hs, if_true]
    have hi : int32.is_signed = true := rfl
    have hiw : int32.width = 32 := rfl
    have hid : int32.digits = 31 := rfl
    simp only [common_type, hp, h32, hs, hi, if_true, hiw]
    refine ⟨?_, ?_⟩
    · rw [if_pos (by omega)]
      exact ⟨hs, le_refl _⟩
    · split
      · rename_i hle
        exact ⟨rfl, by rw [hid]; omega⟩
      · exact ⟨hs, le_refl _⟩

/-- Bounds of an integer operand `n = j - k` of `exp2` at the exponent `-k`,
whose power of two `2 ^ j` at that exponent is representable. -/
theorem exp2_operand_bounds (Rep : rep) (k j : Nat) (n : Int) (hn : n = (j : Int) - k)
    (hx : Rep.holds (n * 2 ^ k) = true) (hrep : Rep.holds (2 ^ j) = true) :
    j < Rep.digits ∧ k ≤ Rep.digits ∧ (Rep.is_signed = false → k < Rep.digits)
      ∧ Rep.holds n = true := by
  rw [rep_holds_iff] at hx hrep
  have hP : (1 : Int) ≤ 2 ^ k := one_le_pow₀ (by norm_num)
  have hD : (0 : Int) < 2 ^ Rep.digits := by positivity
  have hj : j < Rep.digits := by
    by_contra hc
    have hle : (2 : Int) ^ Rep.digits ≤ 2 ^ j := pow_le_pow_right₀ (by norm_num) (by omega)
    have := hrep.2
    simp only [rep.max] at this
    omega
  have hlow : -(2 : Int) ^ Rep.digits ≤ Rep.lowest := by
    simp only [rep.lowest]; split <;> omega
  have hmax : Rep.max = 2 ^ Rep.digits - 1 := rfl
  by_cases hn0 : 0 ≤ n
  · have hmul : n ≤ n * 2 ^ k := by nlinarith [mul_nonneg hn0 (sub_nonneg.2 hP)]
    refine ⟨hj, by omega, fun _ => by omega, ?_⟩
    rw [rep_holds_iff]
    exact ⟨le_trans (rep_lowest_nonpos Rep) hn0, le_trans hmul hx.2⟩
  · have hn1 : n ≤ -1 := by omega
    have hmul : n * 2 ^ k ≤ n := by
      nlinarith [mul_nonneg (by omega : (0 : Int) ≤ -n) (sub_nonneg.2 hP)]
    have hmul2 : n * 2 ^ k ≤ -(2 ^ k) := by nlinarith
    have hk : k ≤ Rep.digits := by
      by_contra hc
      have hle : (2 : Int) ^ (Rep.digits + 1) ≤ 2 ^ k :=
        pow_le_pow_right₀ (by norm_num) (by omega)
      rw [pow_succ] at hle
      have := hx.1
      omega
    refine ⟨hj, hk, ?_, ?_⟩
    · intro hu
      have := hx.1
      simp only [rep.lowest, hu, Bool.false_eq_true, if_false] at this
      omega
    · rw [rep_holds_iff]
      exact ⟨le_trans hx.1 hmul, le_trans (by omega) (rep_max_nonneg Rep)⟩

theorem rescale_same_exponent (To : rep) (e s : Int) : rescale To e e s = wrap To s := by
  simp only [rescale, le_refl, if_true, sub_self, Int.toNat_zero, pow_zero, mul_one]

/-- The fraction of an integer value: a significand that is a multiple of
`2 ^ k` at the exponent `-k` becomes zero in `make_largest_ufraction`, and the
polynomial of `exp2m1_0to1` is zero. -/
theorem exp2m1_0to1_of_integer (set_digits : rep → Nat → rep) (coeffs : poly_coeffs)
    (Rep : rep) (k : Nat) (f : scaled_integer) (m : Int) (hk1 : 1 ≤ k) (hk : k ≤ Rep.width)
    (hE : f.Exponent = -(k : Int)) (hs : f.significand = m * 2 ^ k)
    (hh : Rep.holds f.significand = true) (hc : coeffs.holds (unsigned_rep Rep) = true) :
    exp2m1_0to1 set_digits coeffs Rep (-(k : Int)) f = some (outcome.value 0) := by
  have hneg : ¬ (0 : Int) ≤ -(k : Int) := by omega
  have hxf : rescale (unsigned_rep Rep) (-(k : Int)) (make_largest_ufraction.exponent Rep)
      (rescale (unsigned_rep Rep) (-(k : Int)) (-(k : Int))
        (rescale Rep f.Exponent (-(k : Int)) f.significand)) = 0 := by
    rw [hE, rescale_same_exponent, rescale_same_exponent, wrap_of_holds Rep _ hh]
    have hle : make_largest_ufraction.exponent Rep ≤ -(k : Int) := by
      simp only [make_largest_ufraction.exponent, unsigned_rep]
      omega
    have hcount : (-(k : Int) - make_largest_ufraction.exponent Rep).toNat = Rep.width - k := by
      simp only [make_largest_ufraction.exponent, unsigned_rep]
      omega
    simp only [rescale, hle, if_true, hcount]
    simp only [wrap, unsigned_rep, Bool.false_eq_true, if_false]
    have hmod : f.significand % 2 ^ Rep.width * 2 ^ (Rep.width - k) % 2 ^ Rep.width
        = f.significand * 2 ^ (Rep.width - k) % 2 ^ Rep.width :=
      (Int.mod_modEq f.significand (2 ^ Rep.width)).mul_right _
    rw [hmod, hs]
    apply Int.emod_eq_zero_of_dvd
    refine ⟨m, ?_⟩
    have hpow : (2 : Int) ^ k * 2 ^ (Rep.width - k) = 2 ^ Rep.width := by
      rw [← pow_add]
      congr 1
      omega
    rw [mul_assoc, hpow, mul_comm]
  simp only [exp2m1_0to1, hneg, if_false, hxf]
  exact evaluate_polynomial_zero set_digits coeffs (unsigned_rep Rep) _ rfl
    (by simp only [unsigned_rep]; omega) hc

/-- The fractional part of an integer value at the exponent `-k`: a significand
that is a multiple of `2 ^ k`. -/
theorem fractional_of_integer (Rep : rep) (Radix : Int) (k : Nat) (n : Int)
    (hx : Rep.holds (n * 2 ^ k) = true) :
    ∃ f, fractional ⟨Rep, -(k : Int), Radix, n * 2 ^ k⟩ n = outcome.value f
      ∧ f.Exponent = -(k : Int) ∧ (∃ m : Int, f.significand = m * 2 ^ k)
      ∧ Rep.holds f.significand = true := by
  by_cases hd : -(Rep.digits : Int) < -(k : Int)
  · have hmin : min (-(k : Int)) 0 = -(k : Int) := min_eq_left (by omega)
    have hr : rescale Rep 0 (-(k : Int)) n = n * 2 ^ k := by
      have hle : -(k : Int) ≤ 0 := by omega
      have hcount : ((0 : Int) - -(k : Int)).toNat = k := by omega
      simp only [rescale, hle, if_true, hcount]
      exact wrap_of_holds Rep _ hx
    have hsub : builtin_operator subtract_op Rep Rep (n * 2 ^ k) (n * 2 ^ k)
        = outcome.value 0 := by
      have h := builtin_operator_of_holds subtract_op Rep Rep (n * 2 ^ k) (n * 2 ^ k)
        (by
          show (op_result subtract_op Rep Rep).holds (n * 2 ^ k - n * 2 ^ k) = true
          rw [sub_self]; exact holds_zero _)
      rw [h]
      show outcome.value (n * 2 ^ k - n * 2 ^ k) = outcome.value 0
      rw [sub_self]
    refine ⟨⟨op_result subtract_op Rep Rep, -(k : Int), Radix, 0⟩, ?_, rfl, ⟨0, by simp⟩,
      holds_zero Rep⟩
    simp only [fractional, hd, if_true, subtract_integer, hmin, rescale_same_exponent,
      wrap_of_holds Rep _ hx, hr, hsub, outcome.bind_value]
  · refine ⟨⟨Rep, -(k : Int), Radix, n * 2 ^ k⟩, ?_, rfl, ⟨n, rfl⟩, hx⟩
    simp only [fractional, hd, if_false]

theorem floor_of_integer (Rep : rep) (k : Nat) (n : Int) (hk1 : 1 ≤ k)
    (hkw : k < (promote Rep).width) (hnh : Rep.holds n = true) :
    floor ⟨Rep, -(k : Int), 2, n * 2 ^ k⟩ = some (outcome.value ⟨Rep, 0, 2, n⟩) := by
  have hneg : -(k : Int) < 0 := by omega
  have hcond : (0 : Int) ≤ (k : Int) ∧ (k : Int) < ((promote Rep).width : Int) :=
    ⟨by omega, by exact_mod_cast hkw⟩
  have hdiv : n * 2 ^ k / 2 ^ k = n :=
    Int.mul_ediv_cancel n (pow_ne_zero k (by norm_num))
  simp only [floor, hneg, if_true, shift_right, neg_neg, hcond, and_self, Int.toNat_ofNat,
    hdiv, outcome.bind_value, wrap_of_holds Rep n hnh]

/-- The value `_impl::fp::exp2` returns for an integer operand `n = j - k` at
the exponent `-k`: the representation value `2 ^ j`. -/
theorem fp_exp2_of_integer (set_digits : rep → Nat → rep) (coeffs : poly_coeffs) (Rep : rep)
    (k j : Nat) (n : Int) (hk1 : 1 ≤ k) (hj1 : 1 ≤ j) (hn : n = (j : Int) - k)
    (hx : Rep.holds (n * 2 ^ k) = true) (hrep : Rep.holds (2 ^ j) = true)
    (hcompare : Rep.is_signed = true ∨ Rep.width < 32)
    (hc : coeffs.holds (unsigned_rep Rep) = true) :
    fp.exp2 set_digits coeffs ⟨Rep, -(k : Int), 2, n * 2 ^ k⟩ n
      = some (outcome.value (2 ^ j)) := by
  obtain ⟨hj, hk, hku, hnh⟩ := exp2_operand_bounds Rep k j n hn hx hrep
  obtain ⟨⟨hs1, hd1⟩, ⟨hs2, hd2⟩⟩ := common_type_int32 Rep hcompare
  have hdw : Rep.digits ≤ Rep.width := by simp only [rep.width]; omega
  have hwd : Rep.width ≤ Rep.digits + 1 := by simp only [rep.width]; split <;> omega
  have hle : less_equal Rep int32 n (-(k : Int)) = false := by
    simp only [less_equal, wrap_of_holds _ _ (holds_of_signed_wider Rep _ n hs1 hd1 hnh),
      wrap_of_holds _ _ (holds_of_small _ hs1 (-(k : Int)) (by omega) (by omega))]
    simp only [decide_eq_false_iff_not]
    omega
  obtain ⟨f, hf, hfE, ⟨m, hfm⟩, hfh⟩ := fractional_of_integer Rep 2 k n hx
  have hpoly := exp2m1_0to1_of_integer set_digits coeffs Rep k f m hk1 (by omega) hfE hfm
    hfh hc
  have hrightv : subtract_op.exact (-(make_largest_ufraction.exponent Rep) + -(k : Int)) n
      = (Rep.width : Int) - j := by
    simp only [binary_op.exact, make_largest_ufraction.exponent, unsigned_rep]
    omega
  have hright : builtin_operator subtract_op int32 Rep
      (-(make_largest_ufraction.exponent Rep) + -(k : Int)) n
      = outcome.value ((Rep.width : Int) - j) := by
    rw [builtin_operator_of_holds _ _ _ _ _
      (by
        rw [hrightv]
        exact holds_of_small _ hs2 _ (by omega) (by omega)), hrightv]
  have hlow : shift_right (unsigned_rep Rep) 0 ((Rep.width : Int) - j) = outcome.value 0 := by
    have hpw := promote_width_le (unsigned_rep Rep)
    have huw : (unsigned_rep Rep).width = Rep.width := by
      simp only [unsigned_rep, rep.width, Bool.false_eq_true, if_false, Nat.add_zero]
    have hcond : (0 : Int) ≤ (Rep.width : Int) - j
        ∧ (Rep.width : Int) - j < ((promote (unsigned_rep Rep)).width : Int) := by
      constructor <;> omega
    simp only [shift_right, hcond, and_self, if_true, Int.zero_ediv]
  have hleftv : subtract_op.exact n (-(k : Int)) = (j : Int) := by
    simp only [binary_op.exact]
    omega
  have hleft : builtin_operator subtract_op Rep int32 n (-(k : Int))
      = outcome.value (j : Int) := by
    rw [builtin_operator_of_holds _ _ _ _ _
      (by
        rw [hleftv]
        exact holds_of_small _ hs1 _ (by omega) (by omega)), hleftv]
  have h2 : (2 : Int) ≤ 2 ^ Rep.digits := by
    have := pow_le_pow_right₀ (by norm_num : (1 : Int) ≤ 2) (by omega : 1 ≤ Rep.digits)
    simpa using this
  have hone : shift_left Rep (wrap Rep 1) (j : Int) = outcome.value (2 ^ j) := by
    have hpw := promote_width_le Rep
    have hcond : (0 : Int) ≤ (j : Int) ∧ (j : Int) < ((promote Rep).width : Int) := by
      constructor <;> omega
    simp only [shift_left, hcond, and_self, if_true, Int.toNat_ofNat,
      wrap_of_holds Rep 1 (holds_of_nonneg_lt Rep 1 (by norm_num) (by omega)), one_mul,
      wrap_of_holds _ _ (promote_holds Rep _ hrep)]
  have hadd : builtin_operator add_op (promote (unsigned_rep Rep)) (promote Rep) 0 (2 ^ j)
      = outcome.value (2 ^ j) := by
    have hS : Rep.digits ≤ (op_result add_op (promote (unsigned_rep Rep)) (promote Rep)).digits :=
      common_type_digits _ _ _
        (promote_digits _ _ (by simp only [unsigned_rep]; exact hdw))
        (promote_digits _ _ (le_refl _))
    have hv : add_op.exact 0 (2 ^ j) = (2 : Int) ^ j := by
      simp only [binary_op.exact, zero_add]
    have hlt : (2 : Int) ^ j
        < 2 ^ (op_result add_op (promote (unsigned_rep Rep)) (promote Rep)).digits :=
      pow_lt_pow_right₀ (by norm_num) (by omega)
    rw [builtin_operator_of_holds _ _ _ _ _
      (by
        rw [hv]
        exact holds_of_nonneg_lt _ _ (by positivity) hlt), hv]
  simp only [fp.exp2, hle, Bool.false_eq_true, if_false, hf, hpoly, and_then, hright, hlow,
    hleft, hone, hadd, outcome.bind_value]

/-- For a representation that is signed or narrower than `int`, `exp2(x)` of a
radix-2 scaled integer `x` with `Exponent < 0` whose value is an integer `n` with
`n > Exponent` and `2 ^ n` representable in the type of `x` returns the
representation value `1 << (n - Exponent)`, the number `2 ^ n`: the polynomial
contributes 0. The coefficients are values of the fraction type. -/
theorem exp2_integer_power (set_digits : rep → Nat → rep) (coeffs : poly_coeffs)
    (x : scaled_integer) (n : Int) (hradix : x.Radix = 2) (hneg : x.Exponent < 0)
    (hgt : x.Exponent < n) (hvalue : x.significand = n * 2 ^ (-x.Exponent).toNat)
    (hx : x.Rep.holds x.significand = true)
    (hrep : x.Rep.holds (2 ^ (n - x.Exponent).toNat) = true)
    (hcompare : x.Rep.is_signed = true ∨ x.Rep.width < 32)
    (hcoeffs : coeffs.holds (unsigned_rep x.Rep) = true) :
    exp2 set_digits coeffs x
      = some (outcome.value ⟨x.Rep, x.Exponent, 2, 2 ^ (n - x.Exponent).toNat⟩)
    ∧ x.to_rat = n
    ∧ scaled_integer.to_rat ⟨x.Rep, x.Exponent, 2, 2 ^ (n - x.Exponent).toNat⟩
      = (2 : ℚ) ^ n := by
  obtain ⟨Rep, E, Radix, significand⟩ := x
  simp only at hradix hneg hgt hvalue hx hrep hcompare hcoeffs ⊢
  obtain ⟨k, hk⟩ : ∃ k : Nat, E = -(k : Int) := ⟨(-E).toNat, by omega⟩
  obtain ⟨j, hj⟩ : ∃ j : Nat, n - E = (j : Int) := ⟨(n - E).toNat, by omega⟩
  subst hk hradix
  have hk1 : 1 ≤ k := by omega
  have hj1 : 1 ≤ j := by omega
  have hn : n = (j : Int) - k := by omega
  rw [hj, Int.toNat_ofNat] at hrep ⊢
  rw [neg_neg, Int.toNat_ofNat] at hvalue
  subst hvalue
  obtain ⟨hjd, hkd, hku, hnh⟩ := exp2_operand_bounds Rep k j n hn hx hrep
  have hkw : k < (promote Rep).width := by
    have hpw := promote_width_le Rep
    have : k < Rep.width := by
      simp only [rep.width]
      cases hs : Rep.is_signed
      · have := hku hs
        simp only [Bool.false_eq_true, if_false]
        omega
      · simp only [if_true]
        omega
    omega
  refine ⟨?_, ?_, ?_⟩
  · simp only [exp2, if_true, floor_of_integer Rep k n hk1 hkw hnh, rescale_same_exponent,
      wrap_of_holds Rep n hnh,
      fp_exp2_of_integer set_digits coeffs Rep k j n hk1 hj1 hn hx hrep hcompare hcoeffs,
      Option.map_some', outcome.bind_value, wrap_of_holds Rep _ hrep]
  · simp only [scaled_integer.to_rat, scaled_value]
    push_cast
    rw [zpow_neg, zpow_natCast]
    field_simp
  · simp only [scaled_integer.to_rat, scaled_value]
    push_cast
    rw [hn, zpow_sub₀ (by norm_num : (2 : ℚ) ≠ 0), zpow_neg, zpow_natCast, zpow_natCast]
    rfl

/-- At `x : scaled_integer<int32_t, power<-16>>` of the value 3, `exp2(x)` is 8. -/
theorem exp2_integer_power_witness :
    exp2 set_digits_native ⟨1, 2, 3, 4, 5, 6, 7⟩ ⟨int32, -16, 2, 196608⟩
      = some (outcome.value ⟨int32, -16, 2, 524288⟩)
    ∧ scaled_integer.to_rat ⟨int32, -16, 2, 196608⟩ = 3
    ∧ scaled_integer.to_rat ⟨int32, -16, 2, 524288⟩ = (2 : ℚ) ^ (3 : Int) :=
  exp2_integer_power set_digits_native ⟨1, 2, 3, 4, 5, 6, 7⟩ ⟨int32, -16, 2, 196608⟩ 3
    rfl (by decide) (by decide) (by decide) (by decide) (by decide) (by decide) (by decide)

/-- C25: for an unsigned representation of at least the width of `int` the
comparison `floored <= Exponent` of `_impl::fp::exp2` converts the negative
`Exponent` to a large unsigned value and holds, whatever `floored` is up to that
value, and `exp2` returns the representation value 1: for
`x : scaled_integer<uint32_t, power<-16>>` of the values 0 and 1 (2^0 = 1 and
2^1 = 2 are representable) `exp2(x)` is 2^-16, and so is it for
`x : scaled_integer<uint64_t, power<-16>>` of the value 0, whatever the
coefficients and `set_digits_t` are. -/
theorem exp2_unsigned_wide_is_one_ulp (set_digits : rep → Nat → rep) (coeffs : poly_coeffs) :
    exp2 set_digits coeffs ⟨uint32, -16, 2, 0⟩ = some (outcome.value ⟨uint32, -16, 2, 1⟩)
    ∧ exp2 set_digits coeffs ⟨uint32, -16, 2, 65536⟩
      = some (outcome.value ⟨uint32, -16, 2, 1⟩)
    ∧ exp2 set_digits coeffs ⟨uint64, -16, 2, 0⟩ = some (outcome.value ⟨uint64, -16, 2, 1⟩)
    ∧ scaled_integer.to_rat ⟨uint32, -16, 2, 0⟩ = 0
    ∧ scaled_integer.to_rat ⟨uint32, -16, 2, 65536⟩ = 1
    ∧ scaled_integer.to_rat ⟨uint32, -16, 2, 1⟩ = 1 / 65536
    ∧ uint32.holds 65536 = true ∧ uint32.holds (2 * 65536) = true
    ∧ less_equal uint32 int32 0 (-16) = true
    ∧ fp.exp2 set_digits coeffs ⟨uint32, -16, 2, 0⟩ 0 = some (outcome.value 1)
    ∧ fp.exp2 set_digits coeffs ⟨uint32, -16, 2, 65536⟩ 1 = some (outcome.value 1)
    ∧ fp.exp2 set_digits coeffs ⟨uint32, -16, 2, 65536⟩ 4294967280
      = some (outcome.value 1) := by
  refine ⟨rfl, rfl, rfl, ?_, ?_, ?_, by decide, by decide, by decide, rfl, rfl, rfl⟩
  · simp [scaled_integer.to_rat, scaled_value]
  · simp only [scaled_integer.to_rat, scaled_value]
    norm_num [zpow_neg]
  · simp only [scaled_integer.to_rat, scaled_value]
    norm_num [zpow_neg]

/-! ## C18: the accuracy of `exp2` -/

/-- C18: for `x : scaled_integer<uint32_t, power<-16>>` of the values 1 and 0,
a representation of 32 bits in which `2^1 = 2` and `2^0 = 1` are representable,
`exp2(x)` is `2^-16` whatever the coefficients and `set_digits_t` are: it differs
from `2^x` by more than `2^Exponent = 2^-16`. -/
theorem exp2_unsigned_wide_error (set_digits : rep → Nat → rep) (coeffs : poly_coeffs) :
    exp2 set_digits coeffs ⟨uint32, -16, 2, 65536⟩
      = some (outcome.value ⟨uint32, -16, 2, 1⟩)
    ∧ scaled_integer.to_rat ⟨uint32, -16, 2, 65536⟩ = 1
    ∧ uint32.holds (2 * 65536) = true
    ∧ ¬ |scaled_integer.to_rat ⟨uint32, -16, 2, 1⟩ - (2 : ℚ) ^ (1 : Int)|
        ≤ (2 : ℚ) ^ (-16 : Int)
    ∧ exp2 set_digits coeffs ⟨uint32, -16, 2, 0⟩ = some (outcome.value ⟨uint32, -16, 2, 1⟩)
    ∧ scaled_integer.to_rat ⟨uint32, -16, 2, 0⟩ = 0
    ∧ uint32.holds 65536 = true
    ∧ ¬ |scaled_integer.to_rat ⟨uint32, -16, 2, 1⟩ - (2 : ℚ) ^ (0 : Int)|
        ≤ (2 : ℚ) ^ (-16 : Int) := by
  refine ⟨rfl, ?_, by decide, ?_, rfl, ?_, by decide, ?_⟩
  · simp only [scaled_integer.to_rat, scaled_value]
    norm_num [zpow_neg]
  · simp only [scaled_integer.to_rat, scaled_value]
    norm_num [zpow_neg, abs_le]
  · simp [scaled_integer.to_rat, scaled_value]
  · simp only [scaled_integer.to_rat, scaled_value]
    norm_num [zpow_neg, abs_le]

/-! ## The unchecked products of `descale` -/

/-- The type in which a significand of `OutRep` and an `int` radix are multiplied
holds every value of `OutRep`. -/
theorem common_type_int32_holds (A : rep) (v : Int) (h : A.holds v = true) :
    (op_result multiply_op A int32).holds v = true := by
  have hp := promote_holds A v h
  have h32 : promote int32 = int32 := rfl
  show (common_type A int32).holds v = true
  simp only [common_type, h32]
  by_cases hw : A.width < 32
  · have hpa : promote A = int32 := by unfold promote; rw [if_pos hw]
    rw [hpa] at hp ⊢
    simp only [if_true, le_refl]
    exact hp
  · have hpa : promote A = A := by unfold promote; rw [if_neg hw]
    rw [hpa]
    have hiw : int32.width = 32 := rfl
    have his : int32.is_signed = true := rfl
    cases hs : A.is_signed
    · simp only [his, Bool.false_eq_true, if_false, hiw]
      rw [if_pos (by omega)]
      exact h
    · simp only [his, if_true, hiw]
      rw [if_pos (by omega)]
      exact h

/-- A product that is a value of `OutRep` is what `*=` assigns. -/
theorem multiply_assign_of_holds (OutRep : rep) (s r : Int)
    (h : OutRep.holds (s * r) = true) :
    multiply_assign OutRep s r = outcome.value (s * r) := by
  have hb := builtin_operator_of_holds multiply_op OutRep int32 s r
    (common_type_int32_holds OutRep _ h)
  simp only [multiply_assign, hb, outcome.bind_value]
  show outcome.value (wrap OutRep (s * r)) = outcome.value (s * r)
  rw [wrap_of_holds OutRep _ h]

/-- With a product that is a value of `OutRep`, the iteration of the source for
`InExponent < 0` is the iteration for an `OutRep` of sufficient capacity. -/
theorem negative_iteration_unchecked_eq (OutRep InRep : rep) (OutRadix InRadix : Int)
    (neg : Bool) (output : descaled)
    (h : output.significand.tmod InRadix = 0 ∨ oob InRep neg output.significand ≠ some false
      ∨ OutRep.holds (output.significand * OutRadix) = true) :
    negative_iteration_unchecked OutRep InRep OutRadix InRadix neg output
      = negative_iteration OutRep InRep OutRadix InRadix neg output := by
  unfold negative_iteration_unchecked negative_iteration
  by_cases hm : output.significand.tmod InRadix = 0
  · simp only [hm, ne_eq, not_true_eq_false, if_false]
  · rw [if_pos hm, if_pos hm]
    rcases ho : oob InRep neg output.significand with _ | b
    · rfl
    · cases b
      · have hh : OutRep.holds (output.significand * OutRadix) = true := by
          rcases h with h | h | h
          · exact absurd h hm
          · exact absurd ho h
          · exact h
        simp only [multiply_assign_of_holds OutRep _ _ hh, outcome.bind_value, hh, if_true]
      · rfl

/-- With a product that is a value of `OutRep`, the iteration of the source for
`InExponent > 0` is the iteration for an `OutRep` of sufficient capacity. -/
theorem positive_iteration_unchecked_eq (OutRep InRep : rep) (OutRadix InRadix : Int)
    (neg : Bool) (in_exponent : Nat) (output : descaled)
    (h : oob InRep neg output.significand ≠ some false
      ∨ OutRep.holds (output.significand * InRadix) = true) :
    positive_iteration_unchecked OutRep InRep OutRadix InRadix neg in_exponent output
      = positive_iteration OutRep InRep OutRadix InRadix neg in_exponent output := by
  unfold positive_iteration_unchecked positive_iteration
  rcases ho : oob InRep neg output.significand with _ | b
  · rfl
  · cases b
    · have hh : OutRep.holds (output.significand * InRadix) = true := by
        rcases h with h | h
        · exact absurd ho h
        · exact h
      simp only [multiply_assign_of_holds OutRep _ _ hh, outcome.bind_value, hh, if_true]
    · rfl

theorem negative_loop_unchecked_eq (OutRep InRep : rep) (OutRadix InRadix : Int) (neg : Bool) :
    ∀ (remaining : Nat) (output : descaled),
      negative_loop_capacity OutRep InRep OutRadix InRadix neg remaining output = true →
      negative_loop_unchecked OutRep InRep OutRadix InRadix neg remaining output
        = negative_loop OutRep InRep OutRadix InRadix neg remaining output := by
  intro remaining
  induction remaining with
  | zero => intro output _; rfl
  | succ k ih =>
    intro output hc
    simp only [negative_loop_capacity, Bool.and_eq_true, Bool.or_eq_true,
      decide_eq_true_eq] at hc
    obtain ⟨hstep, hrest⟩ := hc
    have heq := negative_iteration_unchecked_eq OutRep InRep OutRadix InRadix neg output
      (by
        rcases hstep with (h | h) | h
        · exact Or.inl h
        · exact Or.inr (Or.inl h)
        · exact Or.inr (Or.inr h))
    simp only [negative_loop_unchecked, negative_loop]
    rw [heq] at hrest ⊢
    cases hn : negative_iteration OutRep InRep OutRadix InRadix neg output with
    | value next =>
      rw [hn] at hrest
      simp only [outcome.bind_value]
      exact ih next hrest
    | _ => rfl

theorem positive_loop_unchecked_eq (OutRep InRep : rep) (OutRadix InRadix : Int) (neg : Bool) :
    ∀ (fuel in_exponent : Nat) (output : descaled),
      positive_loop_capacity OutRep InRep OutRadix InRadix neg fuel in_exponent output = true →
      positive_loop_unchecked OutRep InRep OutRadix InRadix neg fuel in_exponent output
        = positive_loop OutRep InRep OutRadix InRadix neg fuel in_exponent output := by
  intro fuel
  induction fuel with
  | zero =>
    intro in_exponent output _
    cases in_exponent <;> rfl
  | succ f ih =>
    intro in_exponent output hc
    cases in_exponent with
    | zero => rfl
    | succ k =>
      simp only [positive_loop_capacity, Bool.and_eq_true, Bool.or_eq_true,
        decide_eq_true_eq] at hc
      obtain ⟨hstep, hrest⟩ := hc
      have heq := positive_iteration_unchecked_eq OutRep InRep OutRadix InRadix neg (k + 1)
        output hstep
      simp only [positive_loop_unchecked, positive_loop]
      rw [heq] at hrest ⊢
      cases hn : positive_iteration OutRep InRep OutRadix InRadix neg (k + 1) output with
      | value next =>
        rw [hn] at hrest
        simp only [outcome.bind_value]
        exact ih next.1 next.2 hrest
      | _ => rfl

/-- For an `OutRep` of sufficient capacity `descale` with the products of the
source is `descale` with the products checked. -/
theorem descale_unchecked_eq (OutRep : rep) (OutRadix : Int) (InRep : rep)
    (InExponent InRadix : Int) (fuel : Nat) (input : Int)
    (hc : sufficient_capacity OutRep OutRadix InRep InExponent InRadix fuel input = true) :
    descale_unchecked OutRep OutRadix InRep InExponent InRadix fuel input
      = descale OutRep OutRadix InRep InExponent InRadix fuel input := by
  unfold descale_unchecked descale
  unfold sufficient_capacity at hc
  split
  · simp only []
    split
    · rename_i hneg
      rw [if_pos hneg] at hc
      exact negative_loop_unchecked_eq _ _ _ _ _ _ _ hc
    · rename_i hneg
      rw [if_neg hneg] at hc
      split
      · rename_i hpos
        rw [if_pos hpos] at hc
        exact positive_loop_unchecked_eq _ _ _ _ _ _ _ _ hc
      · rfl
  · rfl

/-- A run of the loop for `InExponent < 0` that returns with the products
checked had the capacity. -/
theorem negative_loop_capacity_of_value (OutRep InRep : rep) (OutRadix InRadix : Int)
    (neg : Bool) :
    ∀ (remaining : Nat) (output result : descaled),
      negative_loop OutRep InRep OutRadix InRadix neg remaining output = outcome.value result →
      negative_loop_capacity OutRep InRep OutRadix InRadix neg remaining output = true := by
  intro remaining
  induction remaining with
  | zero => intro output result _; rfl
  | succ k ih =>
    intro output result h
    simp only [negative_loop] at h
    obtain ⟨next, hstep, hrest⟩ := outcome.bind_eq_value h
    have hcap : output.significand.tmod InRadix = 0
        ∨ oob InRep neg output.significand ≠ some false
        ∨ OutRep.holds (output.significand * OutRadix) = true := by
      by_cases hm : output.significand.tmod InRadix = 0
      · exact Or.inl hm
      · by_cases ho : oob InRep neg output.significand = some false
        · right; right
          unfold negative_iteration at hstep
          rw [if_pos hm, ho] at hstep
          simp only [] at hstep
          by_contra hh
          rw [if_neg hh] at hstep
          exact absurd hstep (by simp)
        · exact Or.inr (Or.inl ho)
    have heq := negative_iteration_unchecked_eq OutRep InRep OutRadix InRadix neg output hcap
    simp only [negative_loop_capacity, Bool.and_eq_true, Bool.or_eq_true, decide_eq_true_eq]
    refine ⟨?_, ?_⟩
    · rcases hcap with h | h | h
      · exact Or.inl (Or.inl h)
      · exact Or.inl (Or.inr h)
      · exact Or.inr h
    · rw [heq, hstep]
      exact ih next result hrest

/-! ## C23: the invariant of the loop for `InExponent > 0` -/

/-- C23 (as stated, refuted): `descale<uint32, 10>` of the `uint32` scaled
integer `3000000000 * 2^1` multiplies without a check, the product wraps to
`1705032704` and the loop exits with `(1705032704, 0)`, not `6000000000`;
`descale<int8, 2>` of the `int8` scaled integer `100 * 10^1` exits with
`(-12, 1)`, not `1000`. -/
theorem positive_loop_invariant_counterexample :
    descale_unchecked uint32 10 uint32 1 2 1 3000000000 = outcome.value ⟨1705032704, 0⟩
    ∧ descaled.to_rat ⟨1705032704, 0⟩ 10 ≠ scaled_value 3000000000 1 2
    ∧ positive_iteration_unchecked uint32 uint32 10 2 false 1 ⟨3000000000, 0⟩
      = outcome.value (0, ⟨1705032704, 0⟩)
    ∧ uint32.holds (3000000000 * 2) = false
    ∧ descale_unchecked int8 2 int8 1 10 1 100 = outcome.value ⟨-12, 1⟩
    ∧ descaled.to_rat ⟨-12, 1⟩ 2 ≠ scaled_value 100 1 10 := by
  refine ⟨by decide, ?_, by decide, by decide, by decide, ?_⟩
  · simp only [descaled.to_rat, scaled_value]
    norm_num
  · simp only [descaled.to_rat, scaled_value]
    norm_num

/-- C23 (amended): for `InExponent > 0` and every radix pair (`OutRadix` not 0),
each iteration of the loop whose product `significand * InRadix` is a value of
`OutRep`, and each that skips the multiply, keeps
`significand * InRadix ^ remaining * OutRadix ^ exponent` and does not lower the
exponent; the invariant holds from `(s, 0)` with `remaining = InExponent`, and
whenever `descale` returns on an `OutRep` of sufficient capacity, the result is
exactly `s * InRadix ^ InExponent` with an exponent `>= 0`. -/
theorem positive_loop_invariant (OutRep InRep : rep) (OutRadix InRadix InExponent : Int)
    (hOut : OutRadix ≠ 0) (hpos : 0 < InExponent) :
    (∀ (neg : Bool) (remaining next_remaining : Nat) (output next : descaled),
      0 < remaining →
      positive_iteration_unchecked OutRep InRep OutRadix InRadix neg remaining output
        = outcome.value (next_remaining, next) →
      (oob InRep neg output.significand ≠ some false
        ∨ OutRep.holds (output.significand * InRadix) = true) →
      next.to_rat OutRadix * (InRadix : ℚ) ^ next_remaining
          = output.to_rat OutRadix * (InRadix : ℚ) ^ remaining
        ∧ output.exponent ≤ next.exponent)
    ∧ (∀ s : Int, descaled.to_rat ⟨s, 0⟩ OutRadix * (InRadix : ℚ) ^ InExponent.toNat
        = scaled_value s InExponent InRadix)
    ∧ (∀ (fuel : Nat) (s : Int) (result : descaled),
      descale_unchecked OutRep OutRadix InRep InExponent InRadix fuel s
        = outcome.value result →
      sufficient_capacity OutRep OutRadix InRep InExponent InRadix fuel s = true →
      result.to_rat OutRadix = scaled_value s InExponent InRadix ∧ 0 ≤ result.exponent) := by
  have he : InExponent = ((InExponent.toNat : Nat) : Int) := by
    rw [Int.toNat_of_nonneg (by omega)]
  have hinit : ∀ s : Int, descaled.to_rat ⟨s, 0⟩ OutRadix * (InRadix : ℚ) ^ InExponent.toNat
      = scaled_value s InExponent InRadix := by
    intro s
    simp only [descaled.to_rat, scaled_value, zpow_zero, mul_one]
    conv_rhs => rw [he, zpow_natCast]
  refine ⟨?_, hinit, ?_⟩
  · intro neg remaining next_remaining output next hr h hfit
    rw [positive_iteration_unchecked_eq OutRep InRep OutRadix InRadix neg remaining output
      hfit] at h
    exact ⟨positive_iteration_exact hOut hr h, positive_iteration_exponent h⟩
  · intro fuel s result h hc
    rw [descale_unchecked_eq OutRep OutRadix InRep InExponent InRadix fuel s hc] at h
    have hnn : ¬ InExponent < 0 := by omega
    have hd : descale OutRep OutRadix InRep InExponent InRadix fuel s
        = if OutRep.holds s = true then
            positive_loop OutRep InRep OutRadix InRadix (decide (s < 0)) fuel InExponent.toNat
              ⟨s, 0⟩
          else outcome.overflow := by
      simp only [descale, hnn, if_false, gt_iff_lt, hpos, if_true]
    rw [hd] at h
    split at h
    · have h1 := positive_loop_exact hOut _ _ _ _ h
      have h2 := positive_loop_exponent _ _ _ _ h
      exact ⟨by rw [h1, hinit], h2⟩
    · exact absurd h (by simp)

/-- C23 (amended), at the `int8` scaled integer `100 * 10^2` converted to radix 2
in `int32`, where two iterations skip the multiply: the result `625 * 2^4` is
exactly `10000`. -/
theorem positive_loop_invariant_witness :
    descale_unchecked int32 2 int8 2 10 4 100 = outcome.value ⟨625, 4⟩
    ∧ sufficient_capacity int32 2 int8 2 10 4 100 = true
    ∧ descaled.to_rat ⟨625, 4⟩ 2 = scaled_value 100 2 10 ∧ (0 : Int) ≤ 4 :=
  ⟨by decide, by decide,
    (positive_loop_invariant int32 int8 2 10 2 (by decide) (by decide)).2.2 4 100
      ⟨625, 4⟩ (by decide) (by decide)⟩

/-! ## C24: binary to decimal without the out-of-bounds branch -/

/-- C24 (as stated, refuted): `descale<int8, 10>` of the `int8` scaled integer
`127 * 2^-1 = 63.5` finds `127` within bounds, multiplies it by 10 without a
check, the product `1270` wraps to `-10`, and the result is `-5 * 10^-1`. -/
theorem binary_to_decimal_exact_counterexample :
    descale_unchecked int8 10 int8 (-1) 2 0 127 = outcome.value ⟨-5, -1⟩
    ∧ descale_in_bounds int8 10 int8 (-1) 2 127 = true
    ∧ descaled.to_rat ⟨-5, -1⟩ 10 ≠ scaled_value 127 (-1) 2
    ∧ int8.holds (127 * 10) = false
    ∧ multiply_assign int8 127 10 = outcome.value (-10) := by
  refine ⟨rfl, by decide, ?_, by decide, by decide⟩
  simp only [descaled.to_rat, scaled_value]
  norm_num

/-- C24 (amended): for binary to decimal with `InExponent < 0`, whenever `descale`
returns on an `OutRep` of sufficient capacity (every product `significand * 10`
is a value of `OutRep`) and no iteration takes the out-of-bounds branch, the
result is exactly `s * 2 ^ InExponent`; with `InExponent = -1` no significand of
an `InRep` with a value bit takes that branch, the widened representation of the
one-argument overload has the capacity, and the conversion in it returns the
exact result. -/
theorem binary_to_decimal_exact (OutRep InRep : rep) (InExponent : Int) (fuel : Nat) (s : Int)
    (hneg : InExponent < 0) :
    (∀ result,
      descale_unchecked OutRep 10 InRep InExponent 2 fuel s = outcome.value result →
      sufficient_capacity OutRep 10 InRep InExponent 2 fuel s = true →
      descale_in_bounds OutRep 10 InRep InExponent 2 s = true →
      result.to_rat 10 = scaled_value s InExponent 2)
    ∧ (1 ≤ InRep.digits → InRep.holds s = true →
      descale_in_bounds OutRep 10 InRep (-1) 2 s = true
      ∧ sufficient_capacity (promoted_rep InRep 10) 10 InRep (-1) 2 fuel s = true
      ∧ ∃ result,
          descale_unchecked (promoted_rep InRep 10) 10 InRep (-1) 2 fuel s
            = outcome.value result
          ∧ result.to_rat 10 = scaled_value s (-1) 2) := by
  constructor
  · intro result hret hc hb
    rw [descale_unchecked_eq OutRep 10 InRep InExponent 2 fuel s hc] at hret
    exact descale_negative_exact OutRep InRep 10 2 InExponent fuel s result (by norm_num)
      (by norm_num) hneg hret (by norm_num) hb
  · intro hd hs
    refine ⟨descale_in_bounds_of_exponent_neg_one OutRep InRep 10 s hd hs, ?_⟩
    have hloop : ∃ result,
        negative_loop (promoted_rep InRep 10) InRep 10 2 (decide (s < 0)) (-(-1 : Int)).toNat
          ⟨s, 0⟩ = outcome.value result := by
      apply negative_loop_widened InRep 10 2 _ (by norm_num) (by norm_num) (by decide)
      · intro h
        have hlt : s < 0 := by simpa using h
        exact ⟨is_signed_of_holds_neg InRep s hs hlt, le_of_lt hlt⟩
      · intro h
        simpa using h
    obtain ⟨result, hres⟩ := hloop
    have hcap : sufficient_capacity (promoted_rep InRep 10) 10 InRep (-1) 2 fuel s = true := by
      simp only [sufficient_capacity]
      rw [if_pos (by norm_num)]
      exact negative_loop_capacity_of_value _ _ _ _ _ _ _ _ hres
    have hret : descale (promoted_rep InRep 10) 10 InRep (-1) 2 fuel s
        = outcome.value result := by
      unfold descale
      rw [if_pos (promoted_rep_holds InRep 10 s hs)]
      simp only []
      rw [if_pos (by norm_num)]
      exact hres
    refine ⟨hcap, result, ?_, ?_⟩
    · rw [descale_unchecked_eq _ _ _ _ _ _ _ hcap]
      exact hret
    · exact descale_negative_exact _ _ _ _ _ _ _ _ (by norm_num) (by norm_num)
        (by norm_num) hret (by norm_num)
        (descale_in_bounds_of_exponent_neg_one _ InRep 10 s hd hs)

/-- C24 (amended), at the `int8` scaled integer `3 * 2^-2` converted in `int32`:
both iterations are within bounds, the products `30` and `150` are values of
`int32`, and the result `75 * 10^-2` is exactly `0.75`. -/
theorem binary_to_decimal_exact_witness :
    descale_unchecked int32 10 int8 (-2) 2 0 3 = outcome.value ⟨75, -2⟩
    ∧ sufficient_capacity int32 10 int8 (-2) 2 0 3 = true
    ∧ descale_in_bounds int32 10 int8 (-2) 2 3 = true
    ∧ descaled.to_rat ⟨75, -2⟩ 10 = scaled_value 3 (-2) 2 :=
  ⟨by decide, by decide, by decide,
    (binary_to_decimal_exact int32 int8 (-2) 0 3 (by decide)).1 ⟨75, -2⟩ (by decide)
      (by decide) (by decide)⟩
end cnl
